import Mathlib

namespace Crawler

/-!
# The concurrent crawler of `fetcher.go`

`Crawl` runs as a tree of goroutines sharing one `SafeMap`.  A goroutine is a frame with a
control point; the state of a run is the pool of frames, the map, the state of the fetcher
and the trace of the actions performed.  One step is one atomic action of one goroutine
(`step`), a run is any sequence of such steps (`run`), so that a statement about all
schedules is a statement about all interleavings of the goroutines.

The definitions come first, then the invariants of the runs, then the statements about
`Crawl` and `main`.
-/

/-- Result triple `(body, urls, err)` of one `Fetcher.Fetch` call; `err = none` is Go's `nil`. -/
structure FetchResult where
  body : String
  urls : List String
  err : Option String
  deriving DecidableEq, Repr

/-- The `Fetcher` interface.  A Go implementation may keep state and answer the same url
differently on different calls, so `Fetch` threads a state of type `σ`.  It is a total
function: every call returns. -/
structure Fetcher (σ : Type) where
  Fetch : σ → String → σ × FetchResult

/-- Assignment `m[k] = v` on a Go map kept as an association list. -/
def mapSet (k v : String) : List (String × String) → List (String × String)
  | [] => [(k, v)]
  | e :: r => if e.1 = k then (k, v) :: r else e :: mapSet k v r

/-- Lookup `m[k]` on a Go map kept as an association list. -/
def mapGet (k : String) : List (String × String) → Option String
  | [] => none
  | e :: r => if e.1 = k then some e.2 else mapGet k r

/-- The struct `SafeMap`.  The mutex makes `Add` and `Read` atomic, which the embedding
expresses by running each of them as one step.  The map is allocated, as in `main`. -/
structure SafeMap where
  sMap : List (String × String)
  deriving DecidableEq, Repr

/-- Method `SafeMap.Add`: `sm.sMap[k] = v`. -/
def SafeMap.Add (sm : SafeMap) (k v : String) : SafeMap :=
  ⟨mapSet k v sm.sMap⟩

/-- Method `SafeMap.Read`: `val, ok := sm.sMap[k]`. -/
def SafeMap.Read (sm : SafeMap) (k : String) : String × Bool :=
  match mapGet k sm.sMap with
  | some v => (v, true)
  | none => ("", false)

/-- The keys held by the map. -/
def SafeMap.keys (sm : SafeMap) : List String :=
  sm.sMap.map Prod.fst

/-- A goroutine running `Crawl` is named by the spawn indices leading to it from the
top-level call, innermost first: `[]` is the call started by `main`, `i :: p` is the
goroutine started by `p` in iteration `i` of its spawn loop (it sends on `subDones[i]`). -/
abbrev Path := List Nat

/-- Control points of `Crawl`. -/
inductive PC where
  /-- about to test `depth <= 0` -/
  | entry
  /-- about to call `safeMap.Read(url)` -/
  | read
  /-- about to call `fetcher.Fetch(url)` -/
  | fetch
  /-- about to run `fmt.Println(err)` -/
  | printErr
  /-- about to call `safeMap.Add(url, body)` -/
  | add
  /-- about to run `fmt.Printf("found: ...")` -/
  | print
  /-- in the loop `for i, u := range urls` -/
  | spawn
  /-- in the loop `for _, d := range subDones`, about to receive from `subDones[j]` -/
  | wait (j : Nat)
  /-- body left, the deferred `d <- struct{}{}` is pending -/
  | exit
  /-- the deferred send has been received; the call has returned -/
  | finished
  deriving DecidableEq, Repr

/-- Activation record of one `Crawl` call: its arguments `url`, `depth`, its control point
and its locals `ok`, `body`, `urls`, `err`.  The slice `subDones` has `len(urls)` entries;
the field `subDones` is the number of them assigned so far, that is of channels made (and
goroutines started) so far by the spawn loop.  The only arithmetic on `depth` is the
`depth-1` of the spawn loop, reached with `depth > 0`, so that Go's `int` does not wrap. -/
structure Frame where
  url : String
  depth : Int
  pc : PC
  ok : Bool
  body : String
  urls : List String
  err : Option String
  subDones : Nat
  deriving DecidableEq, Repr

/-- The frame of a fresh call `Crawl(url, depth, ...)`: locals hold their zero values. -/
def Frame.call (url : String) (depth : Int) : Frame :=
  ⟨url, depth, PC.entry, false, "", [], none, 0⟩

/-- Observable actions of a run, each tagged with the goroutine performing it. -/
inductive Event where
  | read (b : Path) (k : String) (ok : Bool)
  | fetch (b : Path) (url : String) (r : FetchResult)
  | println (b : Path) (msg : String)
  | add (b : Path) (k v : String)
  | found (b : Path) (url body : String)
  | spawn (b : Path) (child : Path) (url : String) (depth : Int)
  | signal (b : Path)
  deriving DecidableEq, Repr

/-- The goroutine an event belongs to (for `signal`, the sender). -/
def Event.branch : Event → Path
  | .read b _ _ => b
  | .fetch b _ _ => b
  | .println b _ => b
  | .add b _ _ => b
  | .found b _ _ => b
  | .spawn b _ _ _ => b
  | .signal b => b

/-- Frame of goroutine `p` in a pool. -/
def getFr (p : Path) : List (Path × Frame) → Option Frame
  | [] => none
  | e :: r => if e.1 = p then some e.2 else getFr p r

/-- Replace the frame of goroutine `p` in a pool. -/
def setFr (p : Path) (f : Frame) : List (Path × Frame) → List (Path × Frame)
  | [] => []
  | e :: r => if e.1 = p then (p, f) :: r else e :: setFr p f r

/-- Global state of a run: the goroutines, the shared map, the fetcher's state and the
actions performed so far (oldest first). -/
structure Config (σ : Type) where
  pool : List (Path × Frame)
  safeMap : SafeMap
  fs : σ
  out : List Event

/-- One atomic action of the goroutine `p` running `Crawl`, or `none` when `p` does not
exist, has returned or is blocked on a channel.  Every `return` of `Crawl` leads to the
control point `exit`, where the deferred send is pending.  The channels are unbuffered: a
receive `<-subDones[j]` pairs with the pending deferred send of child `j :: p`, and the send
of the top-level call pairs with the `<-done` of `main`. -/
def step (F : Fetcher σ) (p : Path) (c : Config σ) : Option (Config σ) :=
  match getFr p c.pool with
  | none => none
  | some fr =>
    match fr.pc with
    | .entry =>
      some { c with pool := setFr p { fr with pc := if fr.depth ≤ 0 then .exit else .read } c.pool }
    | .read =>
      let ok := (c.safeMap.Read fr.url).2
      some { c with
        pool := setFr p { fr with ok := ok, pc := if ok then .exit else .fetch } c.pool
        out := c.out ++ [.read p fr.url ok] }
    | .fetch =>
      let r := F.Fetch c.fs fr.url
      some { c with
        pool := setFr p { fr with body := r.2.body, urls := r.2.urls, err := r.2.err,
                                  pc := if r.2.err.isSome then .printErr else .add } c.pool
        fs := r.1
        out := c.out ++ [.fetch p fr.url r.2] }
    | .printErr =>
      some { c with
        pool := setFr p { fr with pc := .exit } c.pool
        out := c.out ++ [.println p (fr.err.getD "")] }
    | .add =>
      some { c with
        pool := setFr p { fr with pc := .print } c.pool
        safeMap := c.safeMap.Add fr.url fr.body
        out := c.out ++ [.add p fr.url fr.body] }
    | .print =>
      some { c with
        pool := setFr p { fr with pc := .spawn } c.pool
        out := c.out ++ [.found p fr.url fr.body] }
    | .spawn =>
      match fr.urls[fr.subDones]? with
      | some u =>
        some { c with
          pool := setFr p { fr with subDones := fr.subDones + 1 } c.pool
                    ++ [(fr.subDones :: p, Frame.call u (fr.depth - 1))]
          out := c.out ++ [.spawn p (fr.subDones :: p) u (fr.depth - 1)] }
      | none => some { c with pool := setFr p { fr with pc := .wait 0 } c.pool }
    | .wait j =>
      if j < fr.urls.length then
        match getFr (j :: p) c.pool with
        | none => none
        | some kf =>
          if kf.pc = .exit then
            some { c with
              pool := setFr p { fr with pc := .wait (j + 1) }
                        (setFr (j :: p) { kf with pc := .finished } c.pool)
              out := c.out ++ [.signal (j :: p)] }
          else none
      else some { c with pool := setFr p { fr with pc := .exit } c.pool }
    | .exit =>
      if p = [] then
        some { c with
          pool := setFr p { fr with pc := .finished } c.pool
          out := c.out ++ [.signal []] }
      else none
    | .finished => none

/-- Run a schedule: the listed goroutines act in turn; a goroutine that cannot act is skipped. -/
def run (F : Fetcher σ) (sched : List Path) (c : Config σ) : Config σ :=
  sched.foldl (fun c p => (step F p c).getD c) c

/-- State in which `main` has just executed `go Crawl(url, depth, fetcher, &safeMap, done)`. -/
def init (url : String) (depth : Int) (sm : SafeMap) (fs : σ) : Config σ :=
  ⟨[([], Frame.call url depth)], sm, fs, []⟩

/-- Every goroutine of the run has returned. -/
def allDone (c : Config σ) : Prop :=
  ∀ e ∈ c.pool, e.2.pc = PC.finished

instance (c : Config σ) : Decidable (allDone c) := by
  unfold allDone; infer_instance

/-- The type `fakeFetcher`: canned results by url. -/
abbrev fakeFetcher := List (String × String × List String)

/-- Method `fakeFetcher.Fetch`. -/
def fakeFetcher.Fetch (f : fakeFetcher) (url : String) : FetchResult :=
  match f.find? (fun e => e.1 = url) with
  | some res => ⟨res.2.1, res.2.2, none⟩
  | none => ⟨"", [], some ("not found: " ++ url)⟩

/-- A `fakeFetcher` as a `Fetcher`; it has no state. -/
def fakeFetcher.toFetcher (f : fakeFetcher) : Fetcher Unit :=
  ⟨fun _ url => ((), f.Fetch url)⟩

/-- The populated `fetcher` of the program. -/
def fetcher : fakeFetcher :=
  [ ("http://golang.org/", "The Go Programming Language",
      ["http://golang.org/pkg/", "http://golang.org/cmd/"]),
    ("http://golang.org/pkg/", "Packages",
      ["http://golang.org/", "http://golang.org/cmd/", "http://golang.org/pkg/fmt/",
       "http://golang.org/pkg/os/"]),
    ("http://golang.org/pkg/fmt/", "Package fmt",
      ["http://golang.org/", "http://golang.org/pkg/"]),
    ("http://golang.org/pkg/os/", "Package os",
      ["http://golang.org/", "http://golang.org/pkg/"]) ]

/-- The call `Crawl(url, depth, fetcher, safeMap, done)` started as a goroutine on the map
`sm` and the fetcher state `fs`: the state reached when the goroutines of the run have acted
in the order `sched`. -/
def Crawl (F : Fetcher σ) (url : String) (depth : Int) (sm : SafeMap) (fs : σ)
    (sched : List Path) : Config σ :=
  run F sched (init url depth sm fs)

/-- The function `main`: `go Crawl("http://golang.org/", 4, fetcher, &safeMap, done)` on a
fresh map, observed along the schedule `sched`; `main` itself only waits on `done`. -/
def main (sched : List Path) : Config Unit :=
  Crawl fetcher.toFetcher "http://golang.org/" 4 ⟨[]⟩ () sched

/-- No goroutine can act: the run is over. -/
def stuck (F : Fetcher σ) (c : Config σ) : Prop :=
  ∀ p, step F p c = none

/-- The `go` statements goroutine `b` has executed so far, read off its frame. -/
def spawnEvents (b : Path) (fr : Frame) : List Event :=
  (List.range fr.subDones).map fun k => Event.spawn b (k :: b) (fr.urls.getD k "") (fr.depth - 1)

/-- The actions of a goroutine that got through the whole body of `Crawl`. -/
def bodyHistory (b : Path) (fr : Frame) : List Event :=
  [Event.read b fr.url false, Event.fetch b fr.url ⟨fr.body, fr.urls, fr.err⟩,
   Event.add b fr.url fr.body, Event.found b fr.url fr.body] ++ spawnEvents b fr

/-- The actions of a goroutine that left the body of `Crawl`, by the return it took. -/
def exitHistory (b : Path) (fr : Frame) : List Event :=
  if fr.depth ≤ 0 then []
  else if fr.ok then [Event.read b fr.url true]
  else if fr.err.isSome then
    [Event.read b fr.url false, Event.fetch b fr.url ⟨fr.body, fr.urls, fr.err⟩,
     Event.println b (fr.err.getD "")]
  else bodyHistory b fr

/-- The actions goroutine `b` has performed so far, read off its frame. -/
def history (b : Path) (fr : Frame) : List Event :=
  match fr.pc with
  | .entry => []
  | .read => []
  | .fetch => [Event.read b fr.url false]
  | .printErr => [Event.read b fr.url false, Event.fetch b fr.url ⟨fr.body, fr.urls, fr.err⟩]
  | .add => [Event.read b fr.url false, Event.fetch b fr.url ⟨fr.body, fr.urls, fr.err⟩]
  | .print => [Event.read b fr.url false, Event.fetch b fr.url ⟨fr.body, fr.urls, fr.err⟩,
      Event.add b fr.url fr.body]
  | .spawn => bodyHistory b fr
  | .wait _ => bodyHistory b fr
  | .exit => exitHistory b fr
  | .finished => exitHistory b fr ++ [Event.signal b]

/-- The map that results from performing the `Add` calls of a trace on `m`. -/
def replay (m : List (String × String)) : List Event → List (String × String)
  | [] => m
  | Event.add _ k v :: es => replay (mapSet k v m) es
  | _ :: es => replay m es

/-- Consistency of the locals of a frame with its control point. -/
def FrameOK (fr : Frame) : Prop :=
  match fr.pc with
  | .entry => fr.ok = false ∧ fr.err = none ∧ fr.subDones = 0
  | .read => 0 < fr.depth ∧ fr.ok = false ∧ fr.err = none ∧ fr.subDones = 0
  | .fetch => 0 < fr.depth ∧ fr.ok = false ∧ fr.err = none ∧ fr.subDones = 0
  | .printErr => 0 < fr.depth ∧ fr.ok = false ∧ fr.err.isSome = true ∧ fr.subDones = 0
  | .add => 0 < fr.depth ∧ fr.ok = false ∧ fr.err = none ∧ fr.subDones = 0
  | .print => 0 < fr.depth ∧ fr.ok = false ∧ fr.err = none ∧ fr.subDones = 0
  | .spawn => 0 < fr.depth ∧ fr.ok = false ∧ fr.err = none ∧ fr.subDones ≤ fr.urls.length
  | .wait j => 0 < fr.depth ∧ fr.ok = false ∧ fr.err = none ∧ fr.subDones = fr.urls.length
      ∧ j ≤ fr.subDones
  | .exit => (fr.depth ≤ 0 ∧ fr.ok = false ∧ fr.err = none ∧ fr.subDones = 0)
      ∨ (0 < fr.depth ∧ fr.ok = true ∧ fr.err = none ∧ fr.subDones = 0)
      ∨ (0 < fr.depth ∧ fr.ok = false ∧ fr.err.isSome = true ∧ fr.subDones = 0)
      ∨ (0 < fr.depth ∧ fr.ok = false ∧ fr.err = none ∧ fr.subDones = fr.urls.length)
  | .finished => (fr.depth ≤ 0 ∧ fr.ok = false ∧ fr.err = none ∧ fr.subDones = 0)
      ∨ (0 < fr.depth ∧ fr.ok = true ∧ fr.err = none ∧ fr.subDones = 0)
      ∨ (0 < fr.depth ∧ fr.ok = false ∧ fr.err.isSome = true ∧ fr.subDones = 0)
      ∨ (0 < fr.depth ∧ fr.ok = false ∧ fr.err = none ∧ fr.subDones = fr.urls.length)

/-- Consistency of the frame `kf` of the `k`-th child with the frame `fr` of its parent. -/
def KidOK (fr : Frame) (k : Nat) (kf : Frame) : Prop :=
  kf.url = fr.urls.getD k "" ∧ kf.depth = fr.depth - 1
    ∧ (fr.pc = PC.spawn → kf.pc ≠ PC.finished)
    ∧ (∀ j, fr.pc = PC.wait j → (kf.pc = PC.finished ↔ k < j))
    ∧ (fr.pc = PC.exit ∨ fr.pc = PC.finished → kf.pc = PC.finished)

/-- Shape of the goroutine pool in the runs of `Crawl(url0, depth0, ...)`: goroutine names
are unique, the top-level call is present, every frame is consistent, goroutine `q` has
exactly the children `k :: q` with `k < subDones`, each consistent with its parent. -/
structure PoolInv (url0 : String) (depth0 : Int) (pool : List (Path × Frame)) : Prop where
  nodup : (pool.map Prod.fst).Nodup
  root : ∃ fr, getFr [] pool = some fr ∧ fr.url = url0 ∧ fr.depth = depth0
  frame : ∀ q fr, getFr q pool = some fr → FrameOK fr
  kids : ∀ q k, (getFr (k :: q) pool).isSome = true ↔ ∃ fr, getFr q pool = some fr ∧ k < fr.subDones
  kid : ∀ q k fr kf, getFr q pool = some fr → getFr (k :: q) pool = some kf → KidOK fr k kf

/-- Invariant of the runs of `Crawl(url0, depth0, ...)` started on the map `sm0`: the pool
is well shaped, the trace restricted to a goroutine is the history read off its frame, and
the map is the initial map with the `Add` calls of the trace performed on it. -/
structure Inv (url0 : String) (depth0 : Int) (sm0 : SafeMap) (c : Config σ) : Prop where
  pool : PoolInv url0 depth0 c.pool
  hist : ∀ b, c.out.filter (fun e => e.branch = b)
      = (match getFr b c.pool with | none => [] | some fr => history b fr)
  map : c.safeMap.sMap = replay sm0.sMap c.out

/-- One goroutine takes one step. -/
def Next (F : Fetcher σ) (c' c : Config σ) : Prop :=
  ∃ p, step F p c = some c'

/-- Rank of a frame: twice the remaining depth, plus one while `Fetch` is still ahead,
then the number of steps the frame can still take by itself.  Every step lowers the rank
of the acting frame, and a frame started by `go` ranks below the frame that starts it. -/
def token (fr : Frame) : Nat × Nat :=
  match fr.pc with
  | .entry => if fr.depth ≤ 0 then (0, 2) else (2 * fr.depth.toNat + 1, 3)
  | .read => (2 * fr.depth.toNat + 1, 2)
  | .fetch => (2 * fr.depth.toNat + 1, 1)
  | .printErr => (2 * fr.depth.toNat, 2)
  | .add => (2 * fr.depth.toNat, 2 * (fr.urls.length - fr.subDones) + fr.subDones + 6)
  | .print => (2 * fr.depth.toNat, 2 * (fr.urls.length - fr.subDones) + fr.subDones + 5)
  | .spawn => (2 * fr.depth.toNat, 2 * (fr.urls.length - fr.subDones) + fr.subDones + 4)
  | .wait j => (2 * fr.depth.toNat, (fr.urls.length - j) + 2)
  | .exit => (2 * fr.depth.toNat, 1)
  | .finished => (2 * fr.depth.toNat, 0)

/-- The ranks of all the goroutines of a pool. -/
def tokens (pool : List (Path × Frame)) : Multiset (Nat × Nat) :=
  Multiset.ofList (pool.map fun e => token e.2)

/-- Lexicographic order on ranks. -/
def tokenLt (a b : Nat × Nat) : Prop :=
  Prod.Lex (fun x y : Nat => x < y) (fun x y : Nat => x < y) a b

/-- In a trace, every completion signal comes after the completion signals of all the
goroutines its sender has started. -/
def SignalsAfterChildren (out : List Event) : Prop :=
  ∀ pre post b, out = pre ++ Event.signal b :: post →
    ∀ ch u d, Event.spawn b ch u d ∈ out → Event.signal ch ∈ pre

/-- In a trace, nothing follows the completion signal of the top-level call. -/
def RootSignalLast (out : List Event) : Prop :=
  Event.signal [] ∈ out → out.getLast? = some (Event.signal [])

/-- In a trace, a `Read` of `k` finds it exactly when `k` was in the initial map or an
`Add` of `k` comes before the `Read`. -/
def ReadsSeeAdds (sm : SafeMap) (out : List Event) : Prop :=
  ∀ pre post b k ok, out = pre ++ Event.read b k ok :: post →
    (ok = true ↔ k ∈ sm.keys ∨ ∃ b' v, Event.add b' k v ∈ pre)

/-- In a trace, every `Add` of a goroutine comes after a `Read` of the same key by the same
goroutine that did not find it. -/
def AddsAfterRead (out : List Event) : Prop :=
  ∀ pre post b k v, out = pre ++ Event.add b k v :: post → Event.read b k false ∈ pre

/-- The event is a `Fetch` call. -/
def Event.isFetch : Event → Bool
  | .fetch _ _ _ => true
  | _ => false

/-- The event is an `Add` call. -/
def Event.isAdd : Event → Bool
  | .add _ _ _ => true
  | _ => false

/-- The event is a `found:` line. -/
def Event.isFound : Event → Bool
  | .found _ _ _ => true
  | _ => false

/-- The event is a `go` statement. -/
def Event.isSpawn : Event → Bool
  | .spawn _ _ _ _ => true
  | _ => false

/-- The call has executed `safeMap.Read(url)`. -/
def Frame.pastRead (fr : Frame) : Bool :=
  match fr.pc with
  | .entry => false
  | .read => false
  | .exit => decide (0 < fr.depth)
  | .finished => decide (0 < fr.depth)
  | _ => true

/-- The call has executed `fetcher.Fetch(url)`. -/
def Frame.pastFetch (fr : Frame) : Bool :=
  match fr.pc with
  | .entry => false
  | .read => false
  | .fetch => false
  | .exit => decide (0 < fr.depth) && !fr.ok
  | .finished => decide (0 < fr.depth) && !fr.ok
  | _ => true

/-- The call has executed `safeMap.Add(url, body)`. -/
def Frame.pastAdd (fr : Frame) : Bool :=
  match fr.pc with
  | .print => true
  | .spawn => true
  | .wait _ => true
  | .exit => decide (0 < fr.depth) && !fr.ok && fr.err.isNone
  | .finished => decide (0 < fr.depth) && !fr.ok && fr.err.isNone
  | _ => false

/-- The call has printed its `found:` line. -/
def Frame.pastPrint (fr : Frame) : Bool :=
  match fr.pc with
  | .spawn => true
  | .wait _ => true
  | .exit => decide (0 < fr.depth) && !fr.ok && fr.err.isNone
  | .finished => decide (0 < fr.depth) && !fr.ok && fr.err.isNone
  | _ => false

/-- A fetcher whose page `A` links to `B` twice. -/
def raceFetcher : fakeFetcher :=
  [("A", "a", ["B", "B"]), ("B", "b", [])]

/-- A schedule for `Crawl("A", 2, raceFetcher, ...)` in which the two goroutines started
for `B` both execute `safeMap.Read("B")` before either executes `safeMap.Add`. -/
def raceSched : List Path :=
  List.replicate 7 [] ++ [[0], [0], [1], [1], [0], [0], [0], [1], [1], [1]]
    ++ [[0], [0], [1], [1]] ++ List.replicate 5 []

/-- The graph `A -> [B, C]`, `B -> [C]`, `C -> [D]`, `D -> []`. -/
def deepFetcher : fakeFetcher :=
  [("A", "a", ["B", "C"]), ("B", "b", ["C"]), ("C", "c", ["D"]), ("D", "d", [])]

/-- A schedule for `Crawl("A", 3, deepFetcher, ...)` in which the subtree of the child for
`B` runs to completion before the child of `A` for `C` starts. -/
def deepSched : List Path :=
  List.replicate 8 [] ++ List.replicate 7 [0] ++ List.replicate 7 [0, 0]
    ++ List.replicate 2 [0, 0, 0] ++ List.replicate 2 [0, 0] ++ List.replicate 2 [0]
    ++ [[]] ++ List.replicate 2 [1] ++ List.replicate 3 []

/-- A complete schedule for `Crawl("A", 2, cycleFetcher, ...)`. -/
def cycleSched : List Path :=
  List.replicate 8 [] ++ List.replicate 7 [0] ++ List.replicate 7 [1] ++ [[0, 0], [0], [0]]
    ++ List.replicate 4 []

/-- A complete schedule for the run of `main`. -/
def mainSched : List Path :=
  List.replicate 8 [] ++ List.replicate 10 [0] ++ List.replicate 4 [1] ++ [[0, 0], [0, 0], [0]]
    ++ List.replicate 4 [1, 0] ++ [[0]] ++ List.replicate 8 [2, 0] ++ List.replicate 8 [3, 0]
    ++ [[0, 2, 0], [0, 2, 0], [2, 0], [1, 2, 0], [1, 2, 0], [2, 0], [2, 0], [0]]
    ++ [[0, 3, 0], [0, 3, 0], [3, 0], [1, 3, 0], [1, 3, 0], [3, 0], [3, 0], [0], [0]]
    ++ List.replicate 4 []

/-- The event is a `Fetch` call for `u`. -/
def Event.isFetchOf (u : String) : Event → Bool
  | .fetch _ url _ => url == u
  | _ => false

/-- The event is an `Add` call for the key `k`. -/
def Event.isAddOf (k : String) : Event → Bool
  | .add _ key _ => key == k
  | _ => false

/-- The frame with which `Crawl(url, depth, ...)` returns when its `Read` finds `url` exactly
if `url` is in `anc`, for a fetcher with canned results. -/
def finalFrame (f : fakeFetcher) (anc : List String) (url : String) (depth : Int) : Frame :=
  if depth ≤ 0 then { Frame.call url depth with pc := PC.finished }
  else if url ∈ anc then { Frame.call url depth with pc := PC.finished, ok := true }
  else
    { url := url, depth := depth, pc := PC.finished, ok := false,
      body := (f.Fetch url).body, urls := (f.Fetch url).urls, err := (f.Fetch url).err,
      subDones := if (f.Fetch url).err.isSome then 0 else (f.Fetch url).urls.length }

/-- The call tree of `Crawl(url0, depth0, ...)` in which every `Read` finds exactly the urls
of the ancestors of the reading goroutine: the final frame of goroutine `q`, if `q` is
started at all, together with the urls of its ancestors. -/
def treeNode (f : fakeFetcher) (url0 : String) (depth0 : Int) : Path → Option (Frame × List String)
  | [] => some (finalFrame f [] url0 depth0, [])
  | k :: q =>
    match treeNode f url0 depth0 q with
    | none => none
    | some (pf, anc) =>
      if k < pf.subDones then
        some (finalFrame f (pf.url :: anc) (pf.urls.getD k "") (pf.depth - 1), pf.url :: anc)
      else none

/-- The goroutines of generation `n` of the call tree. -/
def treeLevel (f : fakeFetcher) (url0 : String) (depth0 : Int) : Nat → List Path
  | 0 => [[]]
  | n + 1 =>
    (treeLevel f url0 depth0 n).flatMap fun q =>
      match treeNode f url0 depth0 q with
      | none => []
      | some (pf, _) => (List.range pf.subDones).map fun k => k :: q

/-- The goroutines of the generations `0` to `N` of the call tree. -/
def treePaths (f : fakeFetcher) (url0 : String) (depth0 : Int) (N : Nat) : List Path :=
  (List.range (N + 1)).flatMap (treeLevel f url0 depth0)

/-- The url inserted by goroutine `q` of the call tree, if it inserts. -/
def treeAdd (f : fakeFetcher) (url0 : String) (depth0 : Int) (q : Path) : Option String :=
  match treeNode f url0 depth0 q with
  | none => none
  | some (sf, _) => if sf.pastAdd then some sf.url else none

/-- The urls inserted by the goroutines of the call tree, one entry per inserting goroutine. -/
def treeAdds (f : fakeFetcher) (url0 : String) (depth0 : Int) (N : Nat) : List String :=
  (treePaths f url0 depth0 N).filterMap (treeAdd f url0 depth0)

/-- The actions of goroutine `q` of the call tree. -/
def treeHistory (f : fakeFetcher) (url0 : String) (depth0 : Int) (q : Path) : List Event :=
  match treeNode f url0 depth0 q with
  | none => []
  | some (sf, _) => history q sf

/-- The call tree has no goroutine beyond generation `N`, and no two of its goroutines insert
the same url: two goroutines with the same url are an ancestor and a descendant, or at least
one of them has no depth left or fails to fetch. -/
def RaceFree (f : fakeFetcher) (url0 : String) (depth0 : Int) (N : Nat) : Prop :=
  treeLevel f url0 depth0 (N + 1) = [] ∧ (treePaths f url0 depth0 N).Nodup
    ∧ (treeAdds f url0 depth0 N).Nodup

instance (f : fakeFetcher) (url0 : String) (depth0 : Int) (N : Nat) :
    Decidable (RaceFree f url0 depth0 N) := by
  unfold RaceFree; infer_instance

/-- The frame `fr` of goroutine `q` agrees with the call tree: same url and depth, and if
it has executed its `Read`, it found its url exactly if an ancestor has that url. -/
def TreeOK (f : fakeFetcher) (url0 : String) (depth0 : Int) (q : Path) (fr : Frame) : Prop :=
  ∃ sf anc, treeNode f url0 depth0 q = some (sf, anc) ∧ fr.url = sf.url ∧ fr.depth = sf.depth
    ∧ (fr.pastRead = true → (fr.ok = true ↔ fr.url ∈ anc))

/-- The results held by a frame that has executed its `Fetch` are the canned results. -/
def Canned (f : fakeFetcher) (fr : Frame) : Prop :=
  fr.pastFetch = true →
    fr.body = (f.Fetch fr.url).body ∧ fr.urls = (f.Fetch fr.url).urls
      ∧ fr.err = (f.Fetch fr.url).err

/-- The graph of the example `A -> [B, C]`, `B -> [A]`, `C -> []`. -/
def cycleFetcher : fakeFetcher :=
  [("A", "a", ["B", "C"]), ("B", "b", ["A"]), ("C", "c", [])]

/-! ### Association lists -/

theorem mapGet_mapSet (k k' v : String) (m : List (String × String)) :
    mapGet k' (mapSet k v m) = if k = k' then some v else mapGet k' m := by
  induction m with
  | nil => simp [mapSet, mapGet]
  | cons e r ih =>
    by_cases h : e.1 = k
    · by_cases h' : k = k'
      · simp [mapSet, mapGet, h, h']
      · have : ¬ e.1 = k' := by rw [h]; exact h'
        simp [mapSet, mapGet, h, h', this]
    · by_cases h' : e.1 = k'
      · have h1 : ¬ k = k' := by rw [← h']; exact fun x => h x.symm
        have h2 : ¬ k' = k := fun x => h1 x.symm
        simp [mapSet, mapGet, h', h1, h2]
      · simp [mapSet, mapGet, h, h', ih]

theorem mapGet_isSome_iff (k : String) (m : List (String × String)) :
    (mapGet k m).isSome = true ↔ k ∈ m.map Prod.fst := by
  induction m with
  | nil => simp [mapGet]
  | cons e r ih =>
    by_cases h : e.1 = k
    · simp [mapGet, h]
    · have h' : ¬ k = e.1 := fun x => h x.symm
      simp [mapGet, h, h', ih]

theorem Read_ok_iff (sm : SafeMap) (k : String) : (sm.Read k).2 = true ↔ k ∈ sm.keys := by
  unfold SafeMap.Read SafeMap.keys
  rw [← mapGet_isSome_iff]
  cases mapGet k sm.sMap <;> simp

/-! ### The pool -/

theorem getFr_setFr (p q : Path) (f : Frame) (l : List (Path × Frame)) :
    getFr q (setFr p f l) = if q = p then (getFr p l).map (fun _ => f) else getFr q l := by
  induction l with
  | nil => simp [setFr, getFr]
  | cons e r ih =>
    by_cases h : e.1 = p
    · by_cases h' : q = p
      · simp [setFr, getFr, h, h']
      · have : ¬ p = q := fun x => h' x.symm
        have h2 : ¬ e.1 = q := by rw [h]; exact this
        simp [setFr, getFr, h, h', this, h2]
    · by_cases h' : e.1 = q
      · have : ¬ q = p := by rw [← h']; exact h
        simp [setFr, getFr, h, h', this]
      · simp [setFr, getFr, h, h', ih]

theorem getFr_append (q p : Path) (f : Frame) (l : List (Path × Frame)) :
    getFr q (l ++ [(p, f)]) = (getFr q l).orElse (fun _ => if p = q then some f else none) := by
  induction l with
  | nil => simp [getFr]
  | cons e r ih =>
    by_cases h : e.1 = q
    · simp [getFr, h]
    · simp [getFr, h, ih]

theorem keys_setFr (p : Path) (f : Frame) (l : List (Path × Frame)) :
    (setFr p f l).map Prod.fst = l.map Prod.fst := by
  induction l with
  | nil => simp [setFr]
  | cons e r ih =>
    by_cases h : e.1 = p
    · simp [setFr, h]
    · simp [setFr, h, ih]

theorem getFr_isSome_iff (q : Path) (l : List (Path × Frame)) :
    (getFr q l).isSome = true ↔ q ∈ l.map Prod.fst := by
  induction l with
  | nil => simp [getFr]
  | cons e r ih =>
    by_cases h : e.1 = q
    · simp [getFr, h]
    · have h' : ¬ q = e.1 := fun x => h x.symm
      simp [getFr, h, h', ih]

theorem getFr_of_mem {l : List (Path × Frame)} (hn : (l.map Prod.fst).Nodup) {e : Path × Frame}
    (he : e ∈ l) : getFr e.1 l = some e.2 := by
  induction l with
  | nil => simp at he
  | cons a r ih =>
    simp only [List.map_cons, List.nodup_cons] at hn
    rcases List.mem_cons.1 he with rfl | h
    · simp [getFr]
    · have : ¬ a.1 = e.1 := by
        intro x
        exact hn.1 (x ▸ List.mem_map_of_mem Prod.fst h)
      simp [getFr, this, ih hn.2 h]

theorem mem_of_getFr {l : List (Path × Frame)} {q : Path} {fr : Frame}
    (h : getFr q l = some fr) : (q, fr) ∈ l := by
  induction l with
  | nil => simp [getFr] at h
  | cons a r ih =>
    by_cases ha : a.1 = q
    · simp [getFr, ha] at h
      subst ha; subst h
      simp
    · simp [getFr, ha] at h
      exact List.mem_cons_of_mem _ (ih h)

/-! ### Case analysis of one step -/

theorem step_elim {F : Fetcher σ} {p : Path} {c c' : Config σ} {motive : Config σ → Prop}
    (h : step F p c = some c')
    (entry : ∀ fr, getFr p c.pool = some fr → fr.pc = PC.entry →
      motive { c with
        pool := setFr p { fr with pc := if fr.depth ≤ 0 then PC.exit else PC.read } c.pool })
    (read : ∀ fr, getFr p c.pool = some fr → fr.pc = PC.read →
      motive { c with
        pool := setFr p { fr with ok := (c.safeMap.Read fr.url).2,
                                  pc := if (c.safeMap.Read fr.url).2 then PC.exit
                                        else PC.fetch } c.pool
        out := c.out ++ [Event.read p fr.url (c.safeMap.Read fr.url).2] })
    (fetch : ∀ fr, getFr p c.pool = some fr → fr.pc = PC.fetch →
      motive { c with
        pool := setFr p { fr with body := (F.Fetch c.fs fr.url).2.body,
                                  urls := (F.Fetch c.fs fr.url).2.urls,
                                  err := (F.Fetch c.fs fr.url).2.err,
                                  pc := if (F.Fetch c.fs fr.url).2.err.isSome then PC.printErr
                                        else PC.add } c.pool
        fs := (F.Fetch c.fs fr.url).1
        out := c.out ++ [Event.fetch p fr.url (F.Fetch c.fs fr.url).2] })
    (printErr : ∀ fr, getFr p c.pool = some fr → fr.pc = PC.printErr →
      motive { c with
        pool := setFr p { fr with pc := PC.exit } c.pool
        out := c.out ++ [Event.println p (fr.err.getD "")] })
    (add : ∀ fr, getFr p c.pool = some fr → fr.pc = PC.add →
      motive { c with
        pool := setFr p { fr with pc := PC.print } c.pool
        safeMap := c.safeMap.Add fr.url fr.body
        out := c.out ++ [Event.add p fr.url fr.body] })
    (print : ∀ fr, getFr p c.pool = some fr → fr.pc = PC.print →
      motive { c with
        pool := setFr p { fr with pc := PC.spawn } c.pool
        out := c.out ++ [Event.found p fr.url fr.body] })
    (spawn : ∀ fr u, getFr p c.pool = some fr → fr.pc = PC.spawn → fr.urls[fr.subDones]? = some u →
      motive { c with
        pool := setFr p { fr with subDones := fr.subDones + 1 } c.pool
                  ++ [(fr.subDones :: p, Frame.call u (fr.depth - 1))]
        out := c.out ++ [Event.spawn p (fr.subDones :: p) u (fr.depth - 1)] })
    (spawned : ∀ fr, getFr p c.pool = some fr → fr.pc = PC.spawn → fr.urls[fr.subDones]? = none →
      motive { c with pool := setFr p { fr with pc := PC.wait 0 } c.pool })
    (recv : ∀ fr j kf, getFr p c.pool = some fr → fr.pc = PC.wait j → j < fr.urls.length →
      getFr (j :: p) c.pool = some kf → kf.pc = PC.exit →
      motive { c with
        pool := setFr p { fr with pc := PC.wait (j + 1) }
                  (setFr (j :: p) { kf with pc := PC.finished } c.pool)
        out := c.out ++ [Event.signal (j :: p)] })
    (waited : ∀ fr j, getFr p c.pool = some fr → fr.pc = PC.wait j → ¬ j < fr.urls.length →
      motive { c with pool := setFr p { fr with pc := PC.exit } c.pool })
    (exit : ∀ fr, getFr p c.pool = some fr → fr.pc = PC.exit → p = [] →
      motive { c with
        pool := setFr p { fr with pc := PC.finished } c.pool
        out := c.out ++ [Event.signal []] }) :
    motive c' := by
  unfold step at h
  cases hfr : getFr p c.pool with
  | none => simp [hfr] at h
  | some fr =>
    simp only [hfr] at h
    cases hpc : fr.pc with
    | entry => simp only [hpc, Option.some.injEq] at h; subst h; exact entry fr hfr hpc
    | read => simp only [hpc, Option.some.injEq] at h; subst h; exact read fr hfr hpc
    | fetch => simp only [hpc, Option.some.injEq] at h; subst h; exact fetch fr hfr hpc
    | printErr => simp only [hpc, Option.some.injEq] at h; subst h; exact printErr fr hfr hpc
    | add => simp only [hpc, Option.some.injEq] at h; subst h; exact add fr hfr hpc
    | print => simp only [hpc, Option.some.injEq] at h; subst h; exact print fr hfr hpc
    | spawn =>
      simp only [hpc] at h
      cases hu : fr.urls[fr.subDones]? with
      | none => simp only [hu, Option.some.injEq] at h; subst h; exact spawned fr hfr hpc hu
      | some u =>
        simp only [hu, Option.some.injEq] at h; subst h
        have := spawn fr u hfr hpc hu
        rw [hpc] at this
        exact this
    | wait j =>
      simp only [hpc] at h
      by_cases hj : j < fr.urls.length
      · simp only [hj, if_true] at h
        cases hk : getFr (j :: p) c.pool with
        | none => simp [hk] at h
        | some kf =>
          simp only [hk] at h
          by_cases he : kf.pc = PC.exit
          · simp only [he, if_true, Option.some.injEq] at h; subst h
            exact recv fr j kf hfr hpc hj hk he
          · simp [he] at h
      · simp only [hj, if_false, Option.some.injEq] at h; subst h
        exact waited fr j hfr hpc hj
    | exit =>
      simp only [hpc] at h
      by_cases hp : p = []
      · simp only [hp, if_true, Option.some.injEq] at h; subst h
        subst hp
        exact exit fr hfr hpc rfl
      · simp [hp] at h
    | finished => simp [hpc] at h

/-! ### The pool invariant is kept by every step -/

theorem PoolInv.update {url0 : String} {depth0 : Int} {pool : List (Path × Frame)}
    (hI : PoolInv url0 depth0 pool) {p : Path} {fr : Frame} (hfr : getFr p pool = some fr)
    (fr' : Frame) (h1 : fr'.url = fr.url) (h2 : fr'.depth = fr.depth)
    (h3 : fr'.subDones = fr.subDones) (h4 : FrameOK fr') (h5 : fr.pc ≠ PC.finished)
    (h6 : fr'.pc = PC.finished → p = [])
    (h7 : ∀ k kf, k < fr.subDones → KidOK fr k kf → KidOK fr' k kf) :
    PoolInv url0 depth0 (setFr p fr' pool) := by
  refine ⟨?_, ?_, ?_, ?_, ?_⟩
  · rw [keys_setFr]; exact hI.nodup
  · obtain ⟨r, hr, hu, hd⟩ := hI.root
    by_cases hp : [] = p
    · subst hp
      rw [hfr] at hr; cases hr
      exact ⟨fr', by simp [getFr_setFr, hfr], by rw [h1, hu], by rw [h2, hd]⟩
    · exact ⟨r, by simp [getFr_setFr, hp, hr], hu, hd⟩
  · intro q f hq
    rw [getFr_setFr] at hq
    by_cases hp : q = p
    · simp [hp, hfr] at hq; subst hq; exact h4
    · simp only [hp, if_false] at hq; exact hI.frame q f hq
  · intro q k
    have e1 : (getFr (k :: q) (setFr p fr' pool)).isSome = (getFr (k :: q) pool).isSome := by
      rw [getFr_setFr]
      by_cases hp : k :: q = p
      · simp [hp, hfr]
      · simp [hp]
    rw [e1, hI.kids q k]
    by_cases hp : q = p
    · subst hp
      simp [getFr_setFr, hfr, h3]
    · simp [getFr_setFr, hp]
  · intro q k f kf hq hk
    rw [getFr_setFr] at hq hk
    by_cases hp : q = p
    · subst hp
      have hne : ¬ k :: q = q := List.cons_ne_self k q
      simp only [if_true, hfr, Option.map_some', Option.some.injEq] at hq
      simp only [hne, if_false] at hk
      subst hq
      have hlt : k < fr.subDones := by
        have := (hI.kids q k).1 (by simp [hk])
        obtain ⟨f0, hf0, hlt⟩ := this
        rw [hfr] at hf0; cases hf0; exact hlt
      exact h7 k kf hlt (hI.kid q k fr kf hfr hk)
    · simp only [hp, if_false] at hq
      by_cases hp' : k :: q = p
      · simp only [hp', if_true, hfr, Option.map_some', Option.some.injEq] at hk
        subst hk
        have hold := hI.kid q k f fr hq (hp' ▸ hfr)
        have hnf : ¬ fr'.pc = PC.finished := fun x => by
          have := h6 x; rw [← hp'] at this; exact List.cons_ne_nil _ _ this
        obtain ⟨a, b, c1, c2, c3⟩ := hold
        refine ⟨by rw [h1, a], by rw [h2, b], fun _ => hnf, ?_, ?_⟩
        · intro j hj
          have := c2 j hj
          constructor
          · intro x; exact absurd x hnf
          · intro x; exact absurd (this.2 x) h5
        · intro x; exact absurd (c3 x) h5
      · simp only [hp', if_false] at hk
        exact hI.kid q k f kf hq hk

theorem PoolInv.spawn {url0 : String} {depth0 : Int} {pool : List (Path × Frame)}
    (hI : PoolInv url0 depth0 pool) {p : Path} {fr : Frame} (hfr : getFr p pool = some fr)
    (hpc : fr.pc = PC.spawn) {u : String} (hu : fr.urls[fr.subDones]? = some u) :
    PoolInv url0 depth0 (setFr p { fr with subDones := fr.subDones + 1 } pool
      ++ [(fr.subDones :: p, Frame.call u (fr.depth - 1))]) := by
  have hnew : getFr (fr.subDones :: p) pool = none := by
    cases h : getFr (fr.subDones :: p) pool with
    | none => rfl
    | some x =>
      obtain ⟨f0, hf0, hlt⟩ := (hI.kids p fr.subDones).1 (by simp [h])
      rw [hfr] at hf0; cases hf0; omega
  have hne : ¬ fr.subDones :: p = p := List.cons_ne_self _ _
  have hOK := hI.frame p fr hfr
  simp only [FrameOK, hpc] at hOK
  have hlen : fr.subDones < fr.urls.length := by
    rcases Nat.lt_or_ge fr.subDones fr.urls.length with h | h
    · exact h
    · rw [List.getElem?_eq_none h] at hu; cases hu
  refine ⟨?_, ?_, ?_, ?_, ?_⟩
  · rw [List.map_append, keys_setFr]
    simp only [List.map_cons, List.map_nil]
    refine List.Nodup.append hI.nodup (List.nodup_singleton _) ?_
    intro a ha hb
    simp only [List.mem_singleton] at hb
    subst hb
    have := (getFr_isSome_iff _ _).2 ha
    simp [hnew] at this
  · obtain ⟨r, hr, hu', hd⟩ := hI.root
    by_cases hp : [] = p
    · subst hp
      rw [hfr] at hr; cases hr
      exact ⟨{ fr with subDones := fr.subDones + 1 }, by simp [getFr_append, getFr_setFr, hfr],
        hu', hd⟩
    · exact ⟨r, by simp [getFr_append, getFr_setFr, hp, hr], hu', hd⟩
  · intro q f hq
    rw [getFr_append, getFr_setFr] at hq
    by_cases hp : q = p
    · subst hp
      simp [hfr] at hq; subst hq
      simp only [FrameOK, hpc]
      exact ⟨hOK.1, hOK.2.1, hOK.2.2.1, hlen⟩
    · simp only [hp, if_false] at hq
      cases hq0 : getFr q pool with
      | some f0 => simp [hq0] at hq; subst hq; exact hI.frame q f0 hq0
      | none =>
        simp only [hq0, Option.orElse] at hq
        split at hq
        · cases hq; simp [FrameOK, Frame.call]
        · cases hq
  · intro q k
    by_cases hkq : k :: q = fr.subDones :: p
    · obtain ⟨rfl, rfl⟩ := List.cons_eq_cons.1 hkq
      simp [getFr_append, getFr_setFr, hne, hnew, hfr]
    · have hkq' : ¬ fr.subDones :: p = k :: q := fun x => hkq x.symm
      have e1 : (getFr (k :: q) (setFr p { fr with subDones := fr.subDones + 1 } pool
          ++ [(fr.subDones :: p, Frame.call u (fr.depth - 1))])).isSome
          = (getFr (k :: q) pool).isSome := by
        rw [getFr_append, getFr_setFr]
        by_cases hp : k :: q = p
        · simp [hp, hfr]
        · cases hx : getFr (k :: q) pool <;> simp [hp, hx, hkq', Option.orElse]
      rw [e1, hI.kids q k]
      by_cases hp : q = p
      · subst hp
        have hk : k ≠ fr.subDones := fun x => hkq (by rw [x])
        have e2 : getFr q (setFr q { fr with subDones := fr.subDones + 1 } pool
            ++ [(fr.subDones :: q, Frame.call u (fr.depth - 1))])
            = some { fr with subDones := fr.subDones + 1 } := by
          simp [getFr_append, getFr_setFr, hfr]
        rw [e2, hfr]
        simp only [Option.some.injEq, exists_eq_left']
        omega
      · by_cases hq : q = fr.subDones :: p
        · subst hq
          have hkn : getFr (k :: fr.subDones :: p) pool = none := by
            cases h : getFr (k :: fr.subDones :: p) pool with
            | none => rfl
            | some x =>
              obtain ⟨f0, hf0, _⟩ := (hI.kids (fr.subDones :: p) k).1 (by simp [h])
              rw [hnew] at hf0; cases hf0
          simp [getFr_append, getFr_setFr, hne, hnew, Frame.call]
        · have hq' : ¬ fr.subDones :: p = q := fun x => hq x.symm
          cases hx : getFr q pool <;> simp [getFr_append, getFr_setFr, hp, hx, hq', Option.orElse]
  · intro q k f kf hq hk
    rw [getFr_append, getFr_setFr] at hq hk
    by_cases hp : q = p
    · subst hp
      simp only [if_true, hfr, Option.map_some', Option.orElse, Option.some.injEq] at hq
      subst hq
      have hne2 : ¬ k :: q = q := List.cons_ne_self _ _
      simp only [hne2, if_false] at hk
      cases hk0 : getFr (k :: q) pool with
      | some k0 =>
        simp [hk0] at hk; subst hk
        obtain ⟨a, b, c1, c2, c3⟩ := hI.kid q k fr k0 hfr hk0
        exact ⟨a, b, fun _ => c1 hpc, fun j hj => by simp [hpc] at hj,
          fun x => by simp [hpc] at x⟩
      | none =>
        simp only [hk0, Option.orElse] at hk
        split at hk
        · rename_i heq
          cases hk
          obtain ⟨rfl, -⟩ := List.cons_eq_cons.1 heq
          refine ⟨?_, rfl, fun _ => by simp [Frame.call], fun j hj => by simp [hpc] at hj,
            fun x => by simp [hpc] at x⟩
          simp only [Frame.call]
          rw [List.getD_eq_getElem?_getD, hu]; rfl
        · cases hk
    · simp only [hp, if_false] at hq
      cases hq0 : getFr q pool with
      | none =>
        simp only [hq0, Option.orElse] at hq
        split at hq
        · rename_i heq
          subst heq
          cases hq
          have hkn : getFr (k :: fr.subDones :: p) pool = none := by
            cases h : getFr (k :: fr.subDones :: p) pool with
            | none => rfl
            | some x =>
              obtain ⟨f0, hf0, _⟩ := (hI.kids (fr.subDones :: p) k).1 (by simp [h])
              rw [hnew] at hf0; cases hf0
          have h1 : ¬ k :: fr.subDones :: p = p := by
            intro x
            have := congrArg List.length x
            simp at this; omega
          have h2 : ¬ fr.subDones :: p = k :: fr.subDones :: p := by
            intro x
            have := congrArg List.length x
            simp at this
          simp [h1, hkn, h2, Option.orElse] at hk
        · cases hq
      | some f0 =>
        simp [hq0] at hq; subst hq
        by_cases hp' : k :: q = p
        · simp only [hp', if_true, hfr, Option.map_some', Option.orElse, Option.some.injEq] at hk
          subst hk
          obtain ⟨a, b, c1, c2, c3⟩ := hI.kid q k f0 fr hq0 (hp' ▸ hfr)
          exact ⟨a, b, fun x => by simp [hpc], fun j hj => by simpa [hpc] using c2 j hj,
            fun x => by simpa [hpc] using c3 x⟩
        · simp only [hp', if_false] at hk
          cases hk0 : getFr (k :: q) pool with
          | some k0 => simp [hk0] at hk; subst hk; exact hI.kid q k f0 k0 hq0 hk0
          | none =>
            simp only [hk0, Option.orElse] at hk
            split at hk
            · rename_i heq
              obtain ⟨-, rfl⟩ := List.cons_eq_cons.1 heq
              exact absurd rfl hp
            · cases hk

theorem PoolInv.recv {url0 : String} {depth0 : Int} {pool : List (Path × Frame)}
    (hI : PoolInv url0 depth0 pool) {p : Path} {fr kf : Frame} {j : Nat}
    (hfr : getFr p pool = some fr) (hpc : fr.pc = PC.wait j) (hj : j < fr.urls.length)
    (hkf : getFr (j :: p) pool = some kf) (hke : kf.pc = PC.exit) :
    PoolInv url0 depth0 (setFr p { fr with pc := PC.wait (j + 1) }
      (setFr (j :: p) { kf with pc := PC.finished } pool)) := by
  have hne : ¬ j :: p = p := List.cons_ne_self _ _
  have hne' : ¬ p = j :: p := fun x => hne x.symm
  have hget : ∀ q, getFr q (setFr p { fr with pc := PC.wait (j + 1) }
      (setFr (j :: p) { kf with pc := PC.finished } pool))
      = if q = p then some { fr with pc := PC.wait (j + 1) }
        else if q = j :: p then some { kf with pc := PC.finished } else getFr q pool := by
    intro q
    simp only [getFr_setFr]
    by_cases h1 : q = p
    · subst h1; simp [hne', hfr]
    · by_cases h2 : q = j :: p
      · subst h2; simp [hne, hkf]
      · simp [h1, h2]
  have hOK := hI.frame p fr hfr
  simp only [FrameOK, hpc] at hOK
  have hkOK := hI.frame _ kf hkf
  simp only [FrameOK, hke] at hkOK
  refine ⟨?_, ?_, ?_, ?_, ?_⟩
  · rw [keys_setFr, keys_setFr]; exact hI.nodup
  · obtain ⟨r, hr, hu, hd⟩ := hI.root
    rw [hget]
    by_cases hp : [] = p
    · subst hp
      rw [hfr] at hr; cases hr
      exact ⟨{ fr with pc := PC.wait (j + 1) }, by simp, hu, hd⟩
    · exact ⟨r, by simp [hp, hr], hu, hd⟩
  · intro q f hq
    rw [hget] at hq
    by_cases h1 : q = p
    · simp only [h1, if_true, Option.some.injEq] at hq; subst hq
      simp only [FrameOK]
      exact ⟨hOK.1, hOK.2.1, hOK.2.2.1, hOK.2.2.2.1, by omega⟩
    · by_cases h2 : q = j :: p
      · simp only [h1, h2, hne, if_true, if_false, Option.some.injEq] at hq; subst hq
        simpa only [FrameOK] using hkOK
      · simp only [h1, h2, if_false] at hq
        exact hI.frame q f hq
  · intro q k
    have e1 : ∀ q, (getFr q (setFr p { fr with pc := PC.wait (j + 1) }
        (setFr (j :: p) { kf with pc := PC.finished } pool))).isSome = (getFr q pool).isSome := by
      intro q
      rw [hget]
      by_cases h1 : q = p
      · simp [h1, hfr]
      · by_cases h2 : q = j :: p
        · simp [h2, hne, hkf]
        · simp [h1, h2]
    rw [e1, hI.kids q k, hget]
    by_cases h1 : q = p
    · subst h1; simp [hfr]
    · by_cases h2 : q = j :: p
      · subst h2; simp [hne, hkf]
      · simp [h1, h2]
  · intro q k f g hq hk
    rw [hget] at hq hk
    by_cases h1 : q = p
    · subst h1
      simp only [if_true, Option.some.injEq] at hq; subst hq
      have hne2 : ¬ k :: q = q := List.cons_ne_self _ _
      simp only [hne2, if_false] at hk
      by_cases hkj : k = j
      · subst hkj
        simp only [if_true, Option.some.injEq] at hk; subst hk
        obtain ⟨a, b, c1, c2, c3⟩ := hI.kid q k fr kf hfr hkf
        exact ⟨a, b, fun x => by simp at x, fun i hi => by simp at hi; subst hi; simp,
          fun x => by simp at x⟩
      · have : ¬ k :: q = j :: q := fun x => hkj (List.cons_eq_cons.1 x).1
        simp only [this, if_false] at hk
        obtain ⟨a, b, c1, c2, c3⟩ := hI.kid q k fr g hfr hk
        refine ⟨a, b, fun x => by simp at x, fun i hi => ?_, fun x => by simp at x⟩
        simp at hi; subst hi
        rw [c2 j hpc]; omega
    · by_cases h2 : q = j :: p
      · subst h2
        simp only [hne, if_false, if_true, Option.some.injEq] at hq; subst hq
        have h3 : ¬ k :: j :: p = p := by
          intro x
          have := congrArg List.length x
          simp at this; omega
        have h4 : ¬ k :: j :: p = j :: p := List.cons_ne_self _ _
        simp only [h3, h4, if_false] at hk
        obtain ⟨a, b, c1, c2, c3⟩ := hI.kid _ k kf g hkf hk
        exact ⟨a, b, fun x => by simp at x, fun i hi => by simp at hi,
          fun _ => c3 (Or.inl hke)⟩
      · simp only [h1, h2, if_false] at hq
        by_cases h3 : k :: q = p
        · simp only [h3, if_true, Option.some.injEq] at hk; subst hk
          obtain ⟨a, b, c1, c2, c3⟩ := hI.kid q k f fr hq (h3 ▸ hfr)
          refine ⟨a, b, fun _ => by simp, fun i hi => ?_, fun x => ?_⟩
          · have := c2 i hi
            simp [hpc] at this
            simp only [reduceCtorEq, false_iff, not_lt]
            exact this
          · have := c3 x
            rw [hpc] at this; cases this
        · have h4 : ¬ k :: q = j :: p := fun x => h1 (List.cons_eq_cons.1 x).2
          simp only [h3, h4, if_false] at hk
          exact hI.kid q k f g hq hk

/-! ### The history and map invariants are kept by every step -/

theorem replay_append (m : List (String × String)) (a b : List Event) :
    replay m (a ++ b) = replay (replay m a) b := by
  induction a generalizing m with
  | nil => rfl
  | cons e r ih => cases e <;> simp [replay, ih]

theorem hist_update {pool : List (Path × Frame)} {out : List Event}
    (hH : ∀ b, out.filter (fun e => e.branch = b)
      = (match getFr b pool with | none => [] | some fr => history b fr))
    {p : Path} {fr : Frame} (hfr : getFr p pool = some fr) (fr' : Frame) (ev : List Event)
    (hev : ∀ e ∈ ev, e.branch = p) (hh : history p fr' = history p fr ++ ev) :
    ∀ b, (out ++ ev).filter (fun e => e.branch = b)
      = (match getFr b (setFr p fr' pool) with | none => [] | some fr => history b fr) := by
  intro b
  rw [List.filter_append, hH b, getFr_setFr]
  by_cases hb : b = p
  · subst hb
    have : ev.filter (fun e => e.branch = b) = ev := by
      rw [List.filter_eq_self]
      intro e he; simp [hev e he]
    simp [hfr, this, hh]
  · have : ev.filter (fun e => e.branch = b) = [] := by
      rw [List.filter_eq_nil_iff]
      intro e he; simp [hev e he]; exact fun x => hb x.symm
    simp [hb, this]

theorem spawnEvents_succ (p : Path) (fr fr' : Frame) {u : String}
    (h1 : fr'.urls = fr.urls) (h2 : fr'.depth = fr.depth) (h3 : fr'.subDones = fr.subDones + 1)
    (hu : fr.urls[fr.subDones]? = some u) :
    spawnEvents p fr'
      = spawnEvents p fr ++ [Event.spawn p (fr.subDones :: p) u (fr.depth - 1)] := by
  simp only [spawnEvents, h1, h2, h3, List.range_succ, List.map_append, List.map_cons,
    List.map_nil]
  rw [List.getD_eq_getElem?_getD, hu]; rfl

theorem spawnEvents_congr (p : Path) (fr fr' : Frame)
    (h1 : fr'.urls = fr.urls) (h2 : fr'.depth = fr.depth) (h3 : fr'.subDones = fr.subDones) :
    spawnEvents p fr' = spawnEvents p fr := by
  simp only [spawnEvents, h1, h2, h3]

theorem exitHistory_pc (b : Path) (fr : Frame) (x : PC) :
    exitHistory b { fr with pc := x } = exitHistory b fr := rfl

theorem bodyHistory_pc (b : Path) (fr : Frame) (x : PC) :
    bodyHistory b { fr with pc := x } = bodyHistory b fr := rfl

theorem hist_spawn {pool : List (Path × Frame)} {out : List Event}
    (hH : ∀ b, out.filter (fun e => e.branch = b)
      = (match getFr b pool with | none => [] | some fr => history b fr))
    {p : Path} {fr : Frame} (hfr : getFr p pool = some fr) (hpc : fr.pc = PC.spawn)
    {u : String} (hu : fr.urls[fr.subDones]? = some u)
    (hnew : getFr (fr.subDones :: p) pool = none) :
    ∀ b, (out ++ [Event.spawn p (fr.subDones :: p) u (fr.depth - 1)]).filter
        (fun e => e.branch = b)
      = (match getFr b (setFr p { fr with subDones := fr.subDones + 1 } pool
            ++ [(fr.subDones :: p, Frame.call u (fr.depth - 1))]) with
          | none => [] | some fr => history b fr) := by
  intro b
  rw [List.filter_append, hH b, getFr_append, getFr_setFr]
  by_cases hb : b = p
  · subst hb
    simp [hfr, Event.branch, history, hpc, bodyHistory]
    exact (spawnEvents_succ b fr { fr with pc := PC.spawn, subDones := fr.subDones + 1 }
      rfl rfl rfl hu).symm
  · have hb' : ¬ p = b := fun x => hb x.symm
    by_cases hb2 : fr.subDones :: p = b
    · subst hb2
      simp [hb, hnew, Event.branch, hb', history, Frame.call]
    · cases hx : getFr b pool <;> simp [hb, hx, hb2, Event.branch, hb', Option.orElse]

theorem hist_recv {pool : List (Path × Frame)} {out : List Event}
    (hH : ∀ b, out.filter (fun e => e.branch = b)
      = (match getFr b pool with | none => [] | some fr => history b fr))
    {p : Path} {fr kf : Frame} {j : Nat}
    (hfr : getFr p pool = some fr) (hpc : fr.pc = PC.wait j)
    (hkf : getFr (j :: p) pool = some kf) (hke : kf.pc = PC.exit) :
    ∀ b, (out ++ [Event.signal (j :: p)]).filter (fun e => e.branch = b)
      = (match getFr b (setFr p { fr with pc := PC.wait (j + 1) }
            (setFr (j :: p) { kf with pc := PC.finished } pool)) with
          | none => [] | some fr => history b fr) := by
  intro b
  have hne : ¬ j :: p = p := List.cons_ne_self _ _
  have hne' : ¬ p = j :: p := fun x => hne x.symm
  rw [List.filter_append, hH b]
  simp only [getFr_setFr]
  by_cases hb : b = p
  · subst hb
    simp [hfr, hne', hne, Event.branch, history, hpc, bodyHistory, spawnEvents]
  · by_cases hb2 : b = j :: p
    · subst hb2
      simp [hne, hkf, Event.branch, history, hke, exitHistory_pc]
    · have hb3 : ¬ j :: p = b := fun x => hb2 x.symm
      simp [hb, hb2, hb3, Event.branch]

theorem Inv.initial (url : String) (depth : Int) (sm : SafeMap) (fs : σ) :
    Inv url depth sm (init url depth sm fs) := by
  refine ⟨⟨?_, ?_, ?_, ?_, ?_⟩, ?_, ?_⟩
  · simp [Crawler.init]
  · exact ⟨Frame.call url depth, by simp [Crawler.init, getFr], rfl, rfl⟩
  · intro q fr h
    simp only [Crawler.init, getFr] at h
    split at h
    · cases h; simp [FrameOK, Frame.call]
    · cases h
  · intro q k
    simp [Crawler.init, getFr]
    intro _
    simp [Frame.call]
  · intro q k fr kf _ hk
    simp [Crawler.init, getFr] at hk
  · intro b
    simp only [Crawler.init, getFr, List.filter_nil]
    split <;> rename_i h
    · rfl
    · split at h
      · cases h; simp [history, Frame.call]
      · cases h
  · simp [Crawler.init, replay]

/-! ### The invariant holds along every run -/

theorem Inv.preserved {F : Fetcher σ} {url0 : String} {depth0 : Int} {sm0 : SafeMap}
    {c c' : Config σ} {p : Path} (hI : Inv url0 depth0 sm0 c) (h : step F p c = some c') :
    Inv url0 depth0 sm0 c' := by
  have hmap := hI.map
  apply step_elim h
  · -- entry
    intro fr hfr hpc
    have hOK := hI.pool.frame p fr hfr
    simp only [FrameOK, hpc] at hOK
    refine ⟨hI.pool.update hfr _ rfl rfl rfl ?_ (by simp [hpc]) ?_ ?_, ?_, hmap⟩
    · by_cases hd : fr.depth ≤ 0
      · simp [FrameOK, hd, hOK]
      · simp [FrameOK, hd, hOK]; omega
    · by_cases hd : fr.depth ≤ 0 <;> simp [hd]
    · intro k kf hk; omega
    · have := hist_update hI.hist hfr
        { fr with pc := if fr.depth ≤ 0 then PC.exit else PC.read } [] (by simp)
        (by by_cases hd : fr.depth ≤ 0 <;> simp [history, hpc, hd, exitHistory])
      simpa using this
  · -- read
    intro fr hfr hpc
    have hOK := hI.pool.frame p fr hfr
    simp only [FrameOK, hpc] at hOK
    refine ⟨hI.pool.update hfr _ rfl rfl rfl ?_ (by simp [hpc]) ?_ ?_,
      hist_update hI.hist hfr _ _ (by simp [Event.branch]) ?_, ?_⟩
    · cases hr : (c.safeMap.Read fr.url).2 <;> simp [FrameOK, hOK]
    · cases hr : (c.safeMap.Read fr.url).2 <;> simp
    · intro k kf hk; omega
    · have hd : ¬ fr.depth ≤ 0 := by omega
      cases hr : (c.safeMap.Read fr.url).2 <;> simp [history, hpc, exitHistory, hd]
    · simp [replay_append, replay, hmap]
  · -- fetch
    intro fr hfr hpc
    have hOK := hI.pool.frame p fr hfr
    simp only [FrameOK, hpc] at hOK
    refine ⟨hI.pool.update hfr _ rfl rfl rfl ?_ (by simp [hpc]) ?_ ?_,
      hist_update hI.hist hfr _ _ (by simp [Event.branch]) ?_, ?_⟩
    · cases he : (F.Fetch c.fs fr.url).2.err <;> simp [FrameOK, hOK]
    · cases he : (F.Fetch c.fs fr.url).2.err <;> simp
    · intro k kf hk; omega
    · by_cases he : (F.Fetch c.fs fr.url).2.err.isSome = true <;> simp [history, hpc, he]
    · simp [replay_append, replay, hmap]
  · -- printErr
    intro fr hfr hpc
    have hOK := hI.pool.frame p fr hfr
    simp only [FrameOK, hpc] at hOK
    refine ⟨hI.pool.update hfr _ rfl rfl rfl ?_ (by simp [hpc]) ?_ ?_,
      hist_update hI.hist hfr _ _ (by simp [Event.branch]) ?_, ?_⟩
    · simp [FrameOK, hOK]
    · simp
    · intro k kf hk; omega
    · have hd : ¬ fr.depth ≤ 0 := by omega
      simp [history, hpc, exitHistory, hd, hOK]
    · simp [replay_append, replay, hmap]
  · -- add
    intro fr hfr hpc
    have hOK := hI.pool.frame p fr hfr
    simp only [FrameOK, hpc] at hOK
    refine ⟨hI.pool.update hfr _ rfl rfl rfl ?_ (by simp [hpc]) ?_ ?_,
      hist_update hI.hist hfr _ _ (by simp [Event.branch]) ?_, ?_⟩
    · simp [FrameOK, hOK]
    · simp
    · intro k kf hk; omega
    · simp [history, hpc]
    · simp [replay_append, replay, hmap, SafeMap.Add]
  · -- print
    intro fr hfr hpc
    have hOK := hI.pool.frame p fr hfr
    simp only [FrameOK, hpc] at hOK
    refine ⟨hI.pool.update hfr _ rfl rfl rfl ?_ (by simp [hpc]) ?_ ?_,
      hist_update hI.hist hfr _ _ (by simp [Event.branch]) ?_, ?_⟩
    · simp [FrameOK, hOK]
    · simp
    · intro k kf hk; omega
    · simp [history, hpc, bodyHistory, spawnEvents, hOK]
    · simp [replay_append, replay, hmap]
  · -- spawn
    intro fr u hfr hpc hu
    have hnew : getFr (fr.subDones :: p) c.pool = none := by
      cases hx : getFr (fr.subDones :: p) c.pool with
      | none => rfl
      | some x =>
        obtain ⟨f0, hf0, hlt⟩ := (hI.pool.kids p fr.subDones).1 (by simp [hx])
        rw [hfr] at hf0; cases hf0; omega
    exact ⟨hI.pool.spawn hfr hpc hu, hist_spawn hI.hist hfr hpc hu hnew,
      by simp [replay_append, replay, hmap]⟩
  · -- spawned
    intro fr hfr hpc hu
    have hOK := hI.pool.frame p fr hfr
    simp only [FrameOK, hpc] at hOK
    have hlen : fr.urls.length ≤ fr.subDones := by
      rcases Nat.lt_or_ge fr.subDones fr.urls.length with hx | hx
      · rw [List.getElem?_eq_getElem hx] at hu; cases hu
      · exact hx
    refine ⟨hI.pool.update hfr _ rfl rfl rfl ?_ (by simp [hpc]) ?_ ?_, ?_, hmap⟩
    · simp [FrameOK, hOK]; omega
    · simp
    · intro k kf hk ⟨a, b, c1, c2, c3⟩
      exact ⟨a, b, fun x => by simp at x, fun j hj => by simp at hj; subst hj; simp; exact c1 hpc,
        fun x => by simp at x⟩
    · have := hist_update hI.hist hfr { fr with pc := PC.wait 0 } [] (by simp)
        (by simp [history, hpc, bodyHistory_pc])
      simpa using this
  · -- recv
    intro fr j kf hfr hpc hj hkf hke
    exact ⟨hI.pool.recv hfr hpc hj hkf hke, hist_recv hI.hist hfr hpc hkf hke,
      by simp [replay_append, replay, hmap]⟩
  · -- waited
    intro fr j hfr hpc hj
    have hOK := hI.pool.frame p fr hfr
    simp only [FrameOK, hpc] at hOK
    refine ⟨hI.pool.update hfr _ rfl rfl rfl ?_ (by simp [hpc]) ?_ ?_, ?_, hmap⟩
    · simp [FrameOK, hOK]
    · simp
    · intro k kf hk ⟨a, b, c1, c2, c3⟩
      exact ⟨a, b, fun x => by simp at x, fun i hi => by simp at hi,
        fun _ => (c2 j hpc).2 (by omega)⟩
    · have hd : ¬ fr.depth ≤ 0 := by omega
      have := hist_update hI.hist hfr { fr with pc := PC.exit } [] (by simp)
        (by
          show exitHistory p fr = history p fr ++ []
          simp [history, hpc, exitHistory, hd, hOK])
      simpa using this
  · -- exit
    intro fr hfr hpc hp
    have hOK := hI.pool.frame p fr hfr
    simp only [FrameOK, hpc] at hOK
    subst hp
    refine ⟨hI.pool.update hfr _ rfl rfl rfl ?_ (by simp [hpc]) ?_ ?_,
      hist_update hI.hist hfr _ _ (by simp [Event.branch]) ?_, ?_⟩
    · simpa [FrameOK] using hOK
    · simp
    · intro k kf hk ⟨a, b, c1, c2, c3⟩
      exact ⟨a, b, fun x => by simp at x, fun i hi => by simp at hi,
        fun _ => c3 (Or.inl hpc)⟩
    · simp [history, hpc, exitHistory_pc]
    · simp [replay_append, replay, hmap]

theorem Inv.along {F : Fetcher σ} {url0 : String} {depth0 : Int} {sm0 : SafeMap}
    (sched : List Path) {c : Config σ} (hI : Inv url0 depth0 sm0 c) :
    Inv url0 depth0 sm0 (Crawler.run F sched c) := by
  induction sched generalizing c with
  | nil => exact hI
  | cons p s ih =>
    simp only [Crawler.run, List.foldl_cons]
    cases h : Crawler.step F p c with
    | none => exact ih hI
    | some c' => exact ih (hI.preserved h)

theorem Inv.reach (F : Fetcher σ) (url : String) (depth : Int) (sm : SafeMap) (fs : σ)
    (sched : List Path) :
    Inv url depth sm (Crawler.run F sched (Crawler.init url depth sm fs)) :=
  Inv.along sched (Inv.initial url depth sm fs)

/-! ### Progress: a run that is not over can go on -/

theorem step_some_frame {F : Fetcher σ} {p : Path} {c c' : Config σ}
    (h : step F p c = some c') : ∃ fr, getFr p c.pool = some fr ∧ fr.pc ≠ PC.finished := by
  unfold step at h
  cases hfr : getFr p c.pool with
  | none => simp [hfr] at h
  | some fr =>
    refine ⟨fr, rfl, fun hpc => ?_⟩
    simp [hfr, hpc] at h

theorem allDone_stuck (F : Fetcher σ) {c : Config σ} (h : allDone c) : stuck F c := by
  intro p
  cases hs : step F p c with
  | none => rfl
  | some c' =>
    obtain ⟨fr, hfr, hne⟩ := step_some_frame hs
    exact absurd (h (p, fr) (mem_of_getFr hfr)) hne

theorem progress_aux {F : Fetcher σ} {url0 : String} {depth0 : Int} {c : Config σ}
    (hI : PoolInv url0 depth0 c.pool) :
    ∀ n q fr, getFr q c.pool = some fr → fr.depth.toNat ≤ n → fr.pc ≠ PC.finished →
      fr.pc = PC.exit ∨ ∃ p, (step F p c).isSome = true := by
  intro n
  induction n with
  | zero =>
    intro q fr hfr hn hnf
    have hOK := hI.frame q fr hfr
    cases hpc : fr.pc with
    | entry => exact Or.inr ⟨q, by simp [step, hfr, hpc]⟩
    | exit => exact Or.inl rfl
    | finished => exact absurd hpc hnf
    | read => simp only [FrameOK, hpc] at hOK; omega
    | fetch => simp only [FrameOK, hpc] at hOK; omega
    | printErr => simp only [FrameOK, hpc] at hOK; omega
    | add => simp only [FrameOK, hpc] at hOK; omega
    | print => simp only [FrameOK, hpc] at hOK; omega
    | spawn => simp only [FrameOK, hpc] at hOK; omega
    | wait j => simp only [FrameOK, hpc] at hOK; omega
  | succ n ih =>
    intro q fr hfr hn hnf
    have hOK := hI.frame q fr hfr
    cases hpc : fr.pc with
    | entry => exact Or.inr ⟨q, by simp [step, hfr, hpc]⟩
    | read => exact Or.inr ⟨q, by simp [step, hfr, hpc]⟩
    | fetch => exact Or.inr ⟨q, by simp [step, hfr, hpc]⟩
    | printErr => exact Or.inr ⟨q, by simp [step, hfr, hpc]⟩
    | add => exact Or.inr ⟨q, by simp [step, hfr, hpc]⟩
    | print => exact Or.inr ⟨q, by simp [step, hfr, hpc]⟩
    | spawn =>
      refine Or.inr ⟨q, ?_⟩
      cases hu : fr.urls[fr.subDones]? <;> simp [step, hfr, hpc, hu]
    | exit => exact Or.inl rfl
    | finished => exact absurd hpc hnf
    | wait j =>
      simp only [FrameOK, hpc] at hOK
      by_cases hj : j < fr.urls.length
      · have hex := (hI.kids q j).2 ⟨fr, hfr, by omega⟩
        cases hk : getFr (j :: q) c.pool with
        | none => simp [hk] at hex
        | some kf =>
          obtain ⟨a, b, c1, c2, c3⟩ := hI.kid q j fr kf hfr hk
          have hkn : kf.pc ≠ PC.finished := fun x => by
            have := (c2 j hpc).1 x; omega
          rcases ih (j :: q) kf hk (by omega) hkn with he | he
          · exact Or.inr ⟨q, by simp [step, hfr, hpc, hj, hk, he]⟩
          · exact Or.inr he
      · exact Or.inr ⟨q, by simp [step, hfr, hpc, hj]⟩

theorem all_finished_of_root {url0 : String} {depth0 : Int} {pool : List (Path × Frame)}
    (hI : PoolInv url0 depth0 pool) {r : Frame} (hr : getFr [] pool = some r)
    (hx : r.pc = PC.exit ∨ r.pc = PC.finished) :
    ∀ q fr, q ≠ [] → getFr q pool = some fr → fr.pc = PC.finished := by
  intro q
  induction q with
  | nil => intro fr h; exact absurd rfl h
  | cons k q ih =>
    intro fr _ hfr
    obtain ⟨pf, hpf, _⟩ := (hI.kids q k).1 (by simp [hfr])
    obtain ⟨_, _, _, _, c3⟩ := hI.kid q k pf fr hpf hfr
    by_cases hq : q = []
    · subst hq
      rw [hr] at hpf; cases hpf
      exact c3 hx
    · exact c3 (Or.inr (ih pf hq hpf))

theorem stuck_allDone {F : Fetcher σ} {url0 : String} {depth0 : Int} {c : Config σ}
    (hI : PoolInv url0 depth0 c.pool) (hs : stuck F c) : allDone c := by
  obtain ⟨r, hr, _, _⟩ := hI.root
  have hrf : r.pc = PC.finished := by
    by_contra hnf
    rcases progress_aux (F := F) hI r.depth.toNat [] r hr le_rfl hnf with he | ⟨p, hp⟩
    · have : (step F [] c).isSome = true := by simp [step, hr, he]
      rw [hs []] at this; cases this
    · rw [hs p] at hp; cases hp
  intro e he
  have hget := getFr_of_mem hI.nodup he
  by_cases hq : e.1 = []
  · rw [hq, hr] at hget; cases hget; exact hrf
  · exact all_finished_of_root hI hr (Or.inr hrf) e.1 e.2 hq hget

theorem stuck_iff_allDone {F : Fetcher σ} {url0 : String} {depth0 : Int} {c : Config σ}
    (hI : PoolInv url0 depth0 c.pool) : stuck F c ↔ allDone c :=
  ⟨stuck_allDone hI, allDone_stuck F⟩

/-! ### Termination: every step lowers the multiset of ranks -/

theorem tokenLt_wf : WellFounded tokenLt :=
  WellFounded.prod_lex Nat.lt_wfRel.wf Nat.lt_wfRel.wf

theorem tokenLt_iff (a b : Nat × Nat) : tokenLt a b ↔ a.1 < b.1 ∨ (a.1 = b.1 ∧ a.2 < b.2) := by
  unfold tokenLt
  exact Prod.lex_def

theorem tokens_setFr {pool : List (Path × Frame)} {p : Path} {fr : Frame}
    (hfr : getFr p pool = some fr) (fr' : Frame) :
    ∃ rest, tokens pool = token fr ::ₘ rest ∧ tokens (setFr p fr' pool) = token fr' ::ₘ rest := by
  induction pool with
  | nil => simp [getFr] at hfr
  | cons e r ih =>
    by_cases he : e.1 = p
    · simp only [getFr, he, if_true, Option.some.injEq] at hfr
      refine ⟨tokens r, ?_, ?_⟩
      · simp [tokens, hfr]
      · simp [tokens, setFr, he]
    · simp only [getFr, he, if_false] at hfr
      obtain ⟨rest, h1, h2⟩ := ih hfr
      refine ⟨token e.2 ::ₘ rest, ?_, ?_⟩
      · have : tokens (e :: r) = token e.2 ::ₘ tokens r := by simp [tokens]
        rw [this, h1, Multiset.cons_swap]
      · have : tokens (setFr p fr' (e :: r)) = token e.2 ::ₘ tokens (setFr p fr' r) := by
          simp [tokens, setFr, he]
        rw [this, h2, Multiset.cons_swap]

theorem tokens_append (pool : List (Path × Frame)) (q : Path) (f : Frame) :
    tokens (pool ++ [(q, f)]) = token f ::ₘ tokens pool := by
  simp only [tokens, List.map_append, List.map_cons, List.map_nil]
  rw [← Multiset.coe_add, add_comm]
  rfl

theorem cut_one {a a' : Nat × Nat} (h : tokenLt a' a) (rest : Multiset (Nat × Nat)) :
    Relation.CutExpand tokenLt (a' ::ₘ rest) (a ::ₘ rest) := by
  have e1 : a' ::ₘ rest = rest + {a'} := by
    rw [add_comm]; simp
  have e2 : a ::ₘ rest = rest + {a} := by
    rw [add_comm]; simp
  rw [e1, e2]
  exact (Relation.cutExpand_add_left rest).2 (Relation.cutExpand_singleton_singleton h)

theorem cut_two {a a' b : Nat × Nat} (h : tokenLt a' a) (hb : tokenLt b a)
    (rest : Multiset (Nat × Nat)) :
    Relation.CutExpand tokenLt (b ::ₘ a' ::ₘ rest) (a ::ₘ rest) := by
  have e1 : b ::ₘ a' ::ₘ rest = rest + (b ::ₘ {a'}) := by
    rw [add_comm]; simp
  have e2 : a ::ₘ rest = rest + {a} := by
    rw [add_comm]; simp
  rw [e1, e2]
  refine (Relation.cutExpand_add_left rest).2 (Relation.cutExpand_singleton ?_)
  intro x hx
  simp only [Multiset.mem_cons, Multiset.mem_singleton] at hx
  rcases hx with rfl | rfl
  · exact hb
  · exact h

theorem update_decreases {pool : List (Path × Frame)} {p : Path} {fr : Frame}
    (hfr : getFr p pool = some fr) (fr' : Frame) (h : tokenLt (token fr') (token fr)) :
    Relation.CutExpand tokenLt (tokens (setFr p fr' pool)) (tokens pool) := by
  obtain ⟨rest, h1, h2⟩ := tokens_setFr hfr fr'
  rw [h1, h2]
  exact cut_one h rest

theorem step_decreases {F : Fetcher σ} {p : Path} {c c' : Config σ}
    (h : step F p c = some c') :
    Relation.TransGen (Relation.CutExpand tokenLt) (tokens c'.pool) (tokens c.pool) := by
  apply step_elim h
  · intro fr hfr hpc
    refine Relation.TransGen.single (update_decreases hfr _ ?_)
    rw [tokenLt_iff]
    by_cases hd : fr.depth ≤ 0
    · simp [token, hpc, hd]
    · simp [token, hpc, hd]
  · intro fr hfr hpc
    refine Relation.TransGen.single (update_decreases hfr _ ?_)
    rw [tokenLt_iff]
    cases (c.safeMap.Read fr.url).2 <;> simp [token, hpc]
  · intro fr hfr hpc
    refine Relation.TransGen.single (update_decreases hfr _ ?_)
    rw [tokenLt_iff]
    cases (F.Fetch c.fs fr.url).2.err <;> simp [token, hpc]
  · intro fr hfr hpc
    refine Relation.TransGen.single (update_decreases hfr _ ?_)
    rw [tokenLt_iff]
    simp [token, hpc]
  · intro fr hfr hpc
    refine Relation.TransGen.single (update_decreases hfr _ ?_)
    rw [tokenLt_iff]
    simp [token, hpc]
  · intro fr hfr hpc
    refine Relation.TransGen.single (update_decreases hfr _ ?_)
    rw [tokenLt_iff]
    simp [token, hpc]
  · intro fr u hfr hpc hu
    have hlen : fr.subDones < fr.urls.length := by
      rcases Nat.lt_or_ge fr.subDones fr.urls.length with hx | hx
      · exact hx
      · rw [List.getElem?_eq_none hx] at hu; cases hu
    obtain ⟨rest, h1, h2⟩ := tokens_setFr hfr { fr with subDones := fr.subDones + 1 }
    refine Relation.TransGen.single ?_
    show Relation.CutExpand tokenLt (tokens (_ ++ [_])) (tokens c.pool)
    rw [tokens_append, h1, h2]
    refine cut_two ?_ ?_ rest
    · rw [tokenLt_iff]
      simp [token, hpc]; omega
    · rw [tokenLt_iff]
      by_cases hd : fr.depth - 1 ≤ 0
      · simp [token, hpc, Frame.call, hd]; omega
      · simp [token, hpc, Frame.call, hd]; omega
  · intro fr hfr hpc hu
    have hlen : fr.urls.length ≤ fr.subDones := by
      rcases Nat.lt_or_ge fr.subDones fr.urls.length with hx | hx
      · rw [List.getElem?_eq_getElem hx] at hu; cases hu
      · exact hx
    refine Relation.TransGen.single (update_decreases hfr _ ?_)
    rw [tokenLt_iff]
    simp [token, hpc]; omega
  · intro fr j kf hfr hpc hj hkf hke
    have hne : ¬ p = j :: p := fun x => List.cons_ne_self _ _ x.symm
    have h1 := update_decreases hkf { kf with pc := PC.finished }
      (by rw [tokenLt_iff]; simp [token, hke])
    have hfr' : getFr p (setFr (j :: p) { kf with pc := PC.finished } c.pool) = some fr := by
      rw [getFr_setFr]; simp [hne, hfr]
    have h2 := update_decreases hfr' { fr with pc := PC.wait (j + 1) }
      (by rw [tokenLt_iff]; simp [token, hpc]; omega)
    exact Relation.TransGen.trans (Relation.TransGen.single h2) (Relation.TransGen.single h1)
  · intro fr j hfr hpc hj
    refine Relation.TransGen.single (update_decreases hfr _ ?_)
    rw [tokenLt_iff]
    simp [token, hpc]
  · intro fr hfr hpc hp
    refine Relation.TransGen.single (update_decreases hfr _ ?_)
    rw [tokenLt_iff]
    simp [token, hpc]

theorem Next_wf (F : Fetcher σ) : WellFounded (Next F) := by
  have hwf : WellFounded (Relation.TransGen (Relation.CutExpand tokenLt)) :=
    (WellFounded.cutExpand tokenLt_wf).transGen
  refine Subrelation.wf ?_ (InvImage.wf (fun c : Config σ => tokens c.pool) hwf)
  intro c' c hn
  obtain ⟨p, hp⟩ := hn
  exact step_decreases hp

theorem run_append (F : Fetcher σ) (s t : List Path) (c : Config σ) :
    run F (s ++ t) c = run F t (run F s c) := by
  simp [run, List.foldl_append]

theorem exists_completion (F : Fetcher σ) (c : Config σ) : ∃ rest, stuck F (run F rest c) := by
  induction c using (Next_wf F).induction with
  | _ c ih =>
    by_cases hs : ∃ p c', step F p c = some c'
    · obtain ⟨p, c', hp⟩ := hs
      obtain ⟨rest, hr⟩ := ih c' ⟨p, hp⟩
      refine ⟨p :: rest, ?_⟩
      simpa [run, hp] using hr
    · refine ⟨[], ?_⟩
      intro p
      show step F p c = none
      cases hp : step F p c with
      | none => rfl
      | some c' => exact absurd ⟨p, c', hp⟩ hs

/-! ### Completion signals -/

theorem signal_not_mem_spawnEvents (b b' : Path) (fr : Frame) :
    Event.signal b ∉ spawnEvents b' fr := by
  simp [spawnEvents]

theorem count_signal_exitHistory (b : Path) (fr : Frame) :
    (exitHistory b fr).count (Event.signal b) = 0 := by
  rw [List.count_eq_zero]
  unfold exitHistory bodyHistory
  split
  · simp
  · split
    · simp
    · split
      · simp
      · simp [signal_not_mem_spawnEvents]

theorem count_signal_history (b : Path) (fr : Frame) :
    (history b fr).count (Event.signal b) = if fr.pc = PC.finished then 1 else 0 := by
  have hb : (bodyHistory b fr).count (Event.signal b) = 0 := by
    rw [List.count_eq_zero]
    simp [bodyHistory, signal_not_mem_spawnEvents]
  cases hpc : fr.pc <;>
    simp [history, hpc, hb, count_signal_exitHistory, List.count_cons, List.count_append]

theorem count_eq_count_filter (out : List Event) (e : Event) :
    out.count e = (out.filter (fun x => x.branch = e.branch)).count e := by
  rw [List.count_filter]
  simp

theorem count_signal {url0 : String} {depth0 : Int} {sm0 : SafeMap} {c : Config σ}
    (hI : Inv url0 depth0 sm0 c) (b : Path) :
    c.out.count (Event.signal b)
      = (match getFr b c.pool with
          | none => 0
          | some fr => if fr.pc = PC.finished then 1 else 0) := by
  rw [count_eq_count_filter]
  show (c.out.filter (fun x => x.branch = b)).count (Event.signal b) = _
  rw [hI.hist b]
  cases h : getFr b c.pool with
  | none => simp
  | some fr => simp [count_signal_history]

theorem count_signal_le_one {url0 : String} {depth0 : Int} {sm0 : SafeMap} {c : Config σ}
    (hI : Inv url0 depth0 sm0 c) (b : Path) : c.out.count (Event.signal b) ≤ 1 := by
  rw [count_signal hI b]
  cases getFr b c.pool with
  | none => simp
  | some fr => simp only; split <;> simp

/-! ### Induction along runs -/

theorem run_invariant {F : Fetcher σ} {url0 : String} {depth0 : Int} {sm0 : SafeMap}
    {P : Config σ → Prop}
    (hstep : ∀ c p c', Inv url0 depth0 sm0 c → P c → step F p c = some c' → P c') :
    ∀ (sched : List Path) (c : Config σ), Inv url0 depth0 sm0 c → P c → P (run F sched c) := by
  intro sched
  induction sched with
  | nil => intro c _ h; exact h
  | cons p s ih =>
    intro c hI h
    simp only [run, List.foldl_cons]
    cases hs : step F p c with
    | none => exact ih c hI h
    | some c' => exact ih c' (hI.preserved hs) (hstep c p c' hI h hs)

/-! ### Order of the completion signals -/

theorem SignalsAfterChildren.snoc {out : List Event} (h : SignalsAfterChildren out)
    (e : Event)
    (h1 : ∀ b, e = Event.signal b → ∀ ch u d, Event.spawn b ch u d ∈ out → Event.signal ch ∈ out)
    (h2 : ∀ b ch u d, e = Event.spawn b ch u d → Event.signal b ∉ out) :
    SignalsAfterChildren (out ++ [e]) := by
  intro pre post b heq ch u d hsp
  rcases List.eq_nil_or_concat post with hp | ⟨post', x, hp⟩
  · subst hp
    have := List.append_inj' heq (by simp)
    obtain ⟨rfl, hx⟩ := this
    simp only [List.cons.injEq, and_true] at hx
    subst hx
    simp only [List.mem_append, List.mem_singleton, reduceCtorEq, or_false] at hsp
    exact h1 b rfl ch u d hsp
  · subst hp
    have heq' : out ++ [e] = (pre ++ Event.signal b :: post') ++ [x] := by
      rw [heq]; simp
    obtain ⟨ho, hx⟩ := List.append_inj' heq' (by simp)
    simp only [List.cons.injEq, and_true] at hx
    subst hx
    simp only [List.mem_append, List.mem_singleton] at hsp
    rcases hsp with hsp | hsp
    · exact h pre post' b ho ch u d hsp
    · exfalso
      refine h2 b ch u d hsp.symm ?_
      rw [ho]; simp

theorem spawn_mem_history {b b' ch : Path} {u : String} {d : Int} {fr : Frame}
    (h : Event.spawn b' ch u d ∈ history b fr) :
    ∃ k, k < fr.subDones ∧ ch = k :: b ∧ b' = b := by
  have hs : ∀ {x : Event}, x = Event.spawn b' ch u d → x ∈ spawnEvents b fr →
      ∃ k, k < fr.subDones ∧ ch = k :: b ∧ b' = b := by
    intro x hx hmem
    subst hx
    simp only [spawnEvents, List.mem_map, List.mem_range, Event.spawn.injEq] at hmem
    obtain ⟨k, hk, h1, h2, _, _⟩ := hmem
    exact ⟨k, hk, h2.symm, h1.symm⟩
  have hb : Event.spawn b' ch u d ∈ bodyHistory b fr →
      ∃ k, k < fr.subDones ∧ ch = k :: b ∧ b' = b := by
    intro hmem
    simp only [bodyHistory, List.cons_append, List.nil_append, List.mem_cons,
      reduceCtorEq, false_or] at hmem
    exact hs rfl hmem
  have he : Event.spawn b' ch u d ∈ exitHistory b fr →
      ∃ k, k < fr.subDones ∧ ch = k :: b ∧ b' = b := by
    intro hmem
    unfold exitHistory at hmem
    split at hmem
    · simp at hmem
    · split at hmem
      · simp at hmem
      · split at hmem
        · simp at hmem
        · exact hb hmem
  cases hpc : fr.pc <;> simp only [history, hpc] at h
  all_goals first
    | exact hb h
    | exact he h
    | (simp at h; done)
    | (simp only [List.mem_append, List.mem_singleton, reduceCtorEq, or_false] at h; exact he h)

theorem spawn_mem_out {url0 : String} {depth0 : Int} {sm0 : SafeMap} {c : Config σ}
    (hI : Inv url0 depth0 sm0 c) {b ch : Path} {u : String} {d : Int}
    (h : Event.spawn b ch u d ∈ c.out) :
    ∃ fr k kf, getFr b c.pool = some fr ∧ k < fr.subDones ∧ ch = k :: b
      ∧ getFr ch c.pool = some kf := by
  have hf : Event.spawn b ch u d ∈ c.out.filter (fun e => e.branch = b) := by
    simp [List.mem_filter, h, Event.branch]
  rw [hI.hist b] at hf
  cases hfr : getFr b c.pool with
  | none => simp [hfr] at hf
  | some fr =>
    simp only [hfr] at hf
    obtain ⟨k, hk, hch, _⟩ := spawn_mem_history hf
    have hex := (hI.pool.kids b k).2 ⟨fr, hfr, hk⟩
    cases hkf : getFr (k :: b) c.pool with
    | none => simp [hkf] at hex
    | some kf => exact ⟨fr, k, kf, rfl, hk, hch, by rw [hch, hkf]⟩

theorem signal_mem_iff {url0 : String} {depth0 : Int} {sm0 : SafeMap} {c : Config σ}
    (hI : Inv url0 depth0 sm0 c) (b : Path) :
    Event.signal b ∈ c.out ↔ ∃ fr, getFr b c.pool = some fr ∧ fr.pc = PC.finished := by
  rw [← List.count_pos_iff, count_signal hI b]
  cases h : getFr b c.pool with
  | none => simp
  | some fr => by_cases hf : fr.pc = PC.finished <;> simp [hf]

theorem children_signalled {url0 : String} {depth0 : Int} {sm0 : SafeMap} {c : Config σ}
    (hI : Inv url0 depth0 sm0 c) {b : Path} {fr : Frame} (hfr : getFr b c.pool = some fr)
    (hpc : fr.pc = PC.exit ∨ fr.pc = PC.finished) :
    ∀ ch u d, Event.spawn b ch u d ∈ c.out → Event.signal ch ∈ c.out := by
  intro ch u d h
  obtain ⟨fr', k, kf, hfr', hk, hch, hkf⟩ := spawn_mem_out hI h
  rw [hfr] at hfr'; cases hfr'
  subst hch
  obtain ⟨_, _, _, _, c3⟩ := hI.pool.kid b k fr kf hfr hkf
  exact (signal_mem_iff hI _).2 ⟨kf, hkf, c3 hpc⟩

theorem order_preserved {F : Fetcher σ} {url0 : String} {depth0 : Int} {sm0 : SafeMap}
    (c : Config σ) (p : Path) (c' : Config σ) (hI : Inv url0 depth0 sm0 c)
    (hO : SignalsAfterChildren c.out) (h : step F p c = some c') :
    SignalsAfterChildren c'.out := by
  apply step_elim h
  · intro fr hfr hpc; exact hO
  · intro fr hfr hpc
    exact hO.snoc _ (fun b hb => by cases hb) (fun b ch u d hb => by cases hb)
  · intro fr hfr hpc
    exact hO.snoc _ (fun b hb => by cases hb) (fun b ch u d hb => by cases hb)
  · intro fr hfr hpc
    exact hO.snoc _ (fun b hb => by cases hb) (fun b ch u d hb => by cases hb)
  · intro fr hfr hpc
    exact hO.snoc _ (fun b hb => by cases hb) (fun b ch u d hb => by cases hb)
  · intro fr hfr hpc
    exact hO.snoc _ (fun b hb => by cases hb) (fun b ch u d hb => by cases hb)
  · intro fr u hfr hpc hu
    refine hO.snoc _ (fun b hb => by cases hb) (fun b ch u d hb => ?_)
    cases hb
    rw [signal_mem_iff hI]
    rintro ⟨fr', hfr', hfin⟩
    rw [hfr] at hfr'; cases hfr'
    rw [hpc] at hfin; cases hfin
  · intro fr hfr hpc hu; exact hO
  · intro fr j kf hfr hpc hj hkf hke
    refine hO.snoc _ (fun b hb => ?_) (fun b ch u d hb => by cases hb)
    cases hb
    exact children_signalled hI hkf (Or.inl hke)
  · intro fr j hfr hpc hj; exact hO
  · intro fr hfr hpc hp
    refine hO.snoc _ (fun b hb => ?_) (fun b ch u d hb => by cases hb)
    cases hb
    subst hp
    exact children_signalled hI hfr (Or.inl hpc)

theorem rootLast_preserved {F : Fetcher σ} {url0 : String} {depth0 : Int} {sm0 : SafeMap}
    (c : Config σ) (p : Path) (c' : Config σ) (hI : Inv url0 depth0 sm0 c)
    (_hO : RootSignalLast c.out) (h : step F p c = some c') :
    RootSignalLast c'.out := by
  have hno : Event.signal [] ∉ c.out := by
    intro hmem
    obtain ⟨r, hr, hfin⟩ := (signal_mem_iff hI []).1 hmem
    have hall : allDone c := by
      intro e he
      have hget := getFr_of_mem hI.pool.nodup he
      by_cases hq : e.1 = []
      · rw [hq, hr] at hget; cases hget; exact hfin
      · exact all_finished_of_root hI.pool hr (Or.inr hfin) e.1 e.2 hq hget
    rw [allDone_stuck F hall p] at h
    cases h
  have key : ∀ e, RootSignalLast (c.out ++ [e]) := by
    intro e hmem
    simp only [List.mem_append, List.mem_singleton] at hmem
    rcases hmem with hmem | hmem
    · exact absurd hmem hno
    · simp [hmem]
  have key0 : RootSignalLast c.out := fun hmem => absurd hmem hno
  apply step_elim h
  · intro fr hfr hpc; exact key0
  · intro fr hfr hpc; exact key _
  · intro fr hfr hpc; exact key _
  · intro fr hfr hpc; exact key _
  · intro fr hfr hpc; exact key _
  · intro fr hfr hpc; exact key _
  · intro fr u hfr hpc hu; exact key _
  · intro fr hfr hpc hu; exact key0
  · intro fr j kf hfr hpc hj hkf hke; exact key _
  · intro fr j hfr hpc hj; exact key0
  · intro fr hfr hpc hp; exact key _

theorem order_reach (F : Fetcher σ) (url : String) (depth : Int) (sm : SafeMap) (fs : σ)
    (sched : List Path) :
    SignalsAfterChildren (run F sched (init url depth sm fs)).out
      ∧ RootSignalLast (run F sched (init url depth sm fs)).out := by
  have hI := Inv.initial url depth sm fs
  constructor
  · refine run_invariant (P := fun c => SignalsAfterChildren c.out) order_preserved sched _ hI ?_
    intro pre post b h
    simp [init] at h
  · refine run_invariant (P := fun c => RootSignalLast c.out) rootLast_preserved sched _ hI ?_
    intro h
    simp [init] at h

/-! ### Children and `go` statements -/

theorem spawnEvents_mem (b : Path) (fr : Frame) (k : Nat) (hk : k < fr.subDones) :
    Event.spawn b (k :: b) (fr.urls.getD k "") (fr.depth - 1) ∈ spawnEvents b fr := by
  simp only [spawnEvents, List.mem_map, List.mem_range]
  exact ⟨k, hk, rfl⟩

theorem spawnEvents_sub_history {b : Path} {fr : Frame} (hOK : FrameOK fr) :
    ∀ e ∈ spawnEvents b fr, e ∈ history b fr := by
  intro e he
  have hpos : 0 < fr.subDones := by
    simp only [spawnEvents, List.mem_map, List.mem_range] at he
    obtain ⟨k, hk, _⟩ := he
    omega
  have hb : e ∈ bodyHistory b fr := by simp [bodyHistory, he]
  cases hpc : fr.pc <;> simp only [FrameOK, hpc] at hOK
  case spawn => simpa [history, hpc] using hb
  case wait j => simpa [history, hpc] using hb
  case exit =>
    have : exitHistory b fr = bodyHistory b fr := by
      unfold exitHistory
      rcases hOK with h | h | h | h
      · omega
      · omega
      · omega
      · have hd : ¬ fr.depth ≤ 0 := by omega
        simp [hd, h.2.1, h.2.2.1]
    simpa [history, hpc, this] using hb
  case finished =>
    have : exitHistory b fr = bodyHistory b fr := by
      unfold exitHistory
      rcases hOK with h | h | h | h
      · omega
      · omega
      · omega
      · have hd : ¬ fr.depth ≤ 0 := by omega
        simp [hd, h.2.1, h.2.2.1]
    simp [history, hpc, this, hb]
  all_goals omega

theorem mem_out_of_mem_history {url0 : String} {depth0 : Int} {sm0 : SafeMap} {c : Config σ}
    (hI : Inv url0 depth0 sm0 c) {b : Path} {fr : Frame} (hfr : getFr b c.pool = some fr)
    {e : Event} (he : e ∈ history b fr) : e ∈ c.out := by
  have := hI.hist b
  rw [hfr] at this
  simp only at this
  rw [← this] at he
  exact (List.mem_filter.1 he).1

theorem mem_history_of_mem_out {url0 : String} {depth0 : Int} {sm0 : SafeMap} {c : Config σ}
    (hI : Inv url0 depth0 sm0 c) {e : Event} (he : e ∈ c.out) :
    ∃ fr, getFr e.branch c.pool = some fr ∧ e ∈ history e.branch fr := by
  have hf : e ∈ c.out.filter (fun x => x.branch = e.branch) := by
    simp [List.mem_filter, he]
  rw [hI.hist e.branch] at hf
  cases hfr : getFr e.branch c.pool with
  | none => simp [hfr] at hf
  | some fr => simp only [hfr] at hf; exact ⟨fr, rfl, hf⟩

theorem spawn_event_of_kid {url0 : String} {depth0 : Int} {sm0 : SafeMap} {c : Config σ}
    (hI : Inv url0 depth0 sm0 c) {q : Path} {k : Nat} {kf : Frame}
    (hk : getFr (k :: q) c.pool = some kf) :
    ∃ fr, getFr q c.pool = some fr ∧ k < fr.subDones
      ∧ Event.spawn q (k :: q) kf.url kf.depth ∈ c.out := by
  obtain ⟨fr, hfr, hlt⟩ := (hI.pool.kids q k).1 (by simp [hk])
  obtain ⟨a, b, _, _, _⟩ := hI.pool.kid q k fr kf hfr hk
  refine ⟨fr, hfr, hlt, ?_⟩
  rw [a, b]
  exact mem_out_of_mem_history hI hfr
    (spawnEvents_sub_history (hI.pool.frame q fr hfr) _ (spawnEvents_mem q fr k hlt))

/-! ### The events of a history, by kind -/

theorem filter_spawnEvents_of (K : Event → Bool) (hK : ∀ b ch u d, K (Event.spawn b ch u d) = false)
    (b : Path) (fr : Frame) : (spawnEvents b fr).filter K = [] := by
  rw [List.filter_eq_nil_iff]
  intro e he
  simp only [spawnEvents, List.mem_map, List.mem_range] at he
  obtain ⟨k, _, rfl⟩ := he
  simp [hK]

theorem filter_spawnEvents_isSpawn (b : Path) (fr : Frame) :
    (spawnEvents b fr).filter Event.isSpawn = spawnEvents b fr := by
  rw [List.filter_eq_self]
  intro e he
  simp only [spawnEvents, List.mem_map, List.mem_range] at he
  obtain ⟨k, _, rfl⟩ := he
  rfl

theorem history_filter_isFetch (b : Path) (fr : Frame) :
    (history b fr).filter Event.isFetch
      = if fr.pastFetch = true then [Event.fetch b fr.url ⟨fr.body, fr.urls, fr.err⟩] else [] := by
  have hs := filter_spawnEvents_of Event.isFetch (fun _ _ _ _ => rfl) b fr
  cases hpc : fr.pc <;>
    simp only [history, hpc, Frame.pastFetch, exitHistory, bodyHistory] <;>
    (try split) <;> (try split) <;> (try split) <;>
    simp_all [List.filter_cons, Event.isFetch, List.filter_append] <;>
    omega

theorem history_filter_isAdd (b : Path) (fr : Frame) :
    (history b fr).filter Event.isAdd
      = if fr.pastAdd = true then [Event.add b fr.url fr.body] else [] := by
  have hs := filter_spawnEvents_of Event.isAdd (fun _ _ _ _ => rfl) b fr
  cases hpc : fr.pc <;>
    simp only [history, hpc, Frame.pastAdd, exitHistory, bodyHistory] <;>
    (try split) <;> (try split) <;> (try split) <;>
    simp_all [List.filter_cons, Event.isAdd, List.filter_append] <;>
    (try omega) <;> (try (cases hq : fr.err <;> simp_all))

theorem history_filter_isFound (b : Path) (fr : Frame) :
    (history b fr).filter Event.isFound
      = if fr.pastPrint = true then [Event.found b fr.url fr.body] else [] := by
  have hs := filter_spawnEvents_of Event.isFound (fun _ _ _ _ => rfl) b fr
  cases hpc : fr.pc <;>
    simp only [history, hpc, Frame.pastPrint, exitHistory, bodyHistory] <;>
    (try split) <;> (try split) <;> (try split) <;>
    simp_all [List.filter_cons, Event.isFound, List.filter_append] <;>
    (try omega) <;> (try (cases hq : fr.err <;> simp_all))

theorem history_filter_isSpawn (b : Path) (fr : Frame) (hOK : FrameOK fr) :
    (history b fr).filter Event.isSpawn = spawnEvents b fr := by
  have hs := filter_spawnEvents_isSpawn b fr
  have h0 : fr.subDones = 0 → spawnEvents b fr = [] := by
    intro h; simp [spawnEvents, h]
  cases hpc : fr.pc <;> simp only [FrameOK, hpc] at hOK <;>
    simp only [history, hpc, exitHistory, bodyHistory]
  case exit =>
    rcases hOK with h | h | h | h
    · simp [h.1, h0 h.2.2.2]
    · have hd : ¬ fr.depth ≤ 0 := by omega
      simp [hd, h.2.1, h0 h.2.2.2, List.filter_cons, Event.isSpawn]
    · have hd : ¬ fr.depth ≤ 0 := by omega
      simp [hd, h.2.1, h.2.2.1, h0 h.2.2.2, List.filter_cons, Event.isSpawn]
    · have hd : ¬ fr.depth ≤ 0 := by omega
      simp [hd, h.2.1, h.2.2.1, hs, List.filter_cons, Event.isSpawn]
  case finished =>
    rcases hOK with h | h | h | h
    · simp [h.1, h0 h.2.2.2, List.filter_cons, Event.isSpawn]
    · have hd : ¬ fr.depth ≤ 0 := by omega
      simp [hd, h.2.1, h0 h.2.2.2, List.filter_cons, Event.isSpawn]
    · have hd : ¬ fr.depth ≤ 0 := by omega
      simp [hd, h.2.1, h.2.2.1, h0 h.2.2.2, List.filter_cons, Event.isSpawn]
    · have hd : ¬ fr.depth ≤ 0 := by omega
      simp [hd, h.2.1, h.2.2.1, hs, List.filter_cons, Event.isSpawn, List.filter_append]
  all_goals simp [List.filter_cons, Event.isSpawn, hs, List.filter_append, h0, hOK]

/-! ### The keys of the map -/

theorem keys_mapSet (k k' v : String) (m : List (String × String)) :
    k' ∈ (mapSet k v m).map Prod.fst ↔ k' = k ∨ k' ∈ m.map Prod.fst := by
  rw [← mapGet_isSome_iff, ← mapGet_isSome_iff, mapGet_mapSet]
  by_cases h : k = k'
  · simp [h]
  · have : ¬ k' = k := fun x => h x.symm
    simp [h, this]

theorem keys_replay (m : List (String × String)) (out : List Event) (k : String) :
    k ∈ (replay m out).map Prod.fst ↔ k ∈ m.map Prod.fst ∨ ∃ b v, Event.add b k v ∈ out := by
  induction out generalizing m with
  | nil => simp [replay]
  | cons e es ih =>
    cases e with
    | add b' k' v' =>
      simp only [replay, ih, keys_mapSet, List.mem_cons, Event.add.injEq]
      constructor
      · rintro ((h | h) | ⟨b, v, h⟩)
        · exact Or.inr ⟨b', v', Or.inl ⟨rfl, h, rfl⟩⟩
        · exact Or.inl h
        · exact Or.inr ⟨b, v, Or.inr h⟩
      · rintro (h | ⟨b, v, (⟨_, h, _⟩ | h)⟩)
        · exact Or.inl (Or.inr h)
        · exact Or.inl (Or.inl h)
        · exact Or.inr ⟨b, v, h⟩
    | _ => simp [replay, ih]

theorem keys_step {F : Fetcher σ} {p : Path} {c c' : Config σ} (h : step F p c = some c') :
    ∀ k ∈ c.safeMap.keys, k ∈ c'.safeMap.keys := by
  apply step_elim h
  case add =>
    intro fr _ _ k hk
    simp only [SafeMap.keys, SafeMap.Add] at hk ⊢
    exact (keys_mapSet _ _ _ _).2 (Or.inr hk)
  all_goals intros; assumption

theorem keys_run (F : Fetcher σ) (sched : List Path) (c : Config σ) :
    ∀ k ∈ c.safeMap.keys, k ∈ (run F sched c).safeMap.keys := by
  induction sched generalizing c with
  | nil => intro k hk; exact hk
  | cons p s ih =>
    intro k hk
    simp only [run, List.foldl_cons]
    cases hs : step F p c with
    | none => exact ih c k hk
    | some c' => exact ih c' k (keys_step hs k hk)

theorem keys_out {url0 : String} {depth0 : Int} {sm0 : SafeMap} {c : Config σ}
    (hI : Inv url0 depth0 sm0 c) (k : String) :
    k ∈ c.safeMap.keys ↔ k ∈ sm0.keys ∨ ∃ b v, Event.add b k v ∈ c.out := by
  unfold SafeMap.keys
  rw [hI.map, keys_replay]

/-! ### Events of a trace and frames -/

theorem mem_filter_kind {K : Event → Bool} {e : Event} {l : List Event} (he : e ∈ l)
    (hK : K e = true) : e ∈ l.filter K :=
  List.mem_filter.2 ⟨he, hK⟩

theorem fetch_mem_out {url0 : String} {depth0 : Int} {sm0 : SafeMap} {c : Config σ}
    (hI : Inv url0 depth0 sm0 c) {b : Path} {u : String} {r : FetchResult}
    (h : Event.fetch b u r ∈ c.out) :
    ∃ fr, getFr b c.pool = some fr ∧ fr.pastFetch = true ∧ u = fr.url
      ∧ r = ⟨fr.body, fr.urls, fr.err⟩ := by
  obtain ⟨fr, hfr, hm⟩ := mem_history_of_mem_out hI h
  have := mem_filter_kind hm (K := Event.isFetch) rfl
  rw [history_filter_isFetch] at this
  refine ⟨fr, hfr, ?_⟩
  by_cases hp : fr.pastFetch = true
  · simp only [hp, if_true, List.mem_singleton, Event.fetch.injEq] at this
    exact ⟨hp, this.2.1, this.2.2⟩
  · simp [hp] at this

theorem add_mem_out {url0 : String} {depth0 : Int} {sm0 : SafeMap} {c : Config σ}
    (hI : Inv url0 depth0 sm0 c) {b : Path} {k v : String}
    (h : Event.add b k v ∈ c.out) :
    ∃ fr, getFr b c.pool = some fr ∧ fr.pastAdd = true ∧ k = fr.url ∧ v = fr.body := by
  obtain ⟨fr, hfr, hm⟩ := mem_history_of_mem_out hI h
  have := mem_filter_kind hm (K := Event.isAdd) rfl
  rw [history_filter_isAdd] at this
  refine ⟨fr, hfr, ?_⟩
  by_cases hp : fr.pastAdd = true
  · simp only [hp, if_true, List.mem_singleton, Event.add.injEq] at this
    exact ⟨hp, this.2.1, this.2.2⟩
  · simp [hp] at this

theorem fetch_of_pastFetch {url0 : String} {depth0 : Int} {sm0 : SafeMap} {c : Config σ}
    (hI : Inv url0 depth0 sm0 c) {b : Path} {fr : Frame} (hfr : getFr b c.pool = some fr)
    (hp : fr.pastFetch = true) :
    Event.fetch b fr.url ⟨fr.body, fr.urls, fr.err⟩ ∈ c.out := by
  have : Event.fetch b fr.url ⟨fr.body, fr.urls, fr.err⟩ ∈ (history b fr).filter Event.isFetch := by
    rw [history_filter_isFetch]; simp [hp]
  exact mem_out_of_mem_history hI hfr (List.mem_filter.1 this).1

theorem add_of_pastAdd {url0 : String} {depth0 : Int} {sm0 : SafeMap} {c : Config σ}
    (hI : Inv url0 depth0 sm0 c) {b : Path} {fr : Frame} (hfr : getFr b c.pool = some fr)
    (hp : fr.pastAdd = true) :
    Event.add b fr.url fr.body ∈ c.out := by
  have : Event.add b fr.url fr.body ∈ (history b fr).filter Event.isAdd := by
    rw [history_filter_isAdd]; simp [hp]
  exact mem_out_of_mem_history hI hfr (List.mem_filter.1 this).1

/-! ### Runs of a call that returns before its spawn loop -/

theorem step_single_ne (F : Fetcher σ) {p : Path} (hp : p ≠ []) (f : Frame) (sm : SafeMap)
    (fs : σ) (out : List Event) : step F p ⟨[([], f)], sm, fs, out⟩ = none := by
  have : ¬ [] = p := fun x => hp x.symm
  simp [step, getFr, this]

theorem run_depth_nonpos (F : Fetcher σ) (url : String) {depth : Int} (hd : depth ≤ 0)
    (sm : SafeMap) (fs : σ) (sched : List Path) :
    run F sched (init url depth sm fs) = init url depth sm fs
    ∨ run F sched (init url depth sm fs)
        = ⟨[([], { Frame.call url depth with pc := PC.exit })], sm, fs, []⟩
    ∨ run F sched (init url depth sm fs)
        = ⟨[([], { Frame.call url depth with pc := PC.finished })], sm, fs, [Event.signal []]⟩ := by
  have key : ∀ (sched : List Path) (c : Config σ),
      (c = init url depth sm fs
        ∨ c = ⟨[([], { Frame.call url depth with pc := PC.exit })], sm, fs, []⟩
        ∨ c = ⟨[([], { Frame.call url depth with pc := PC.finished })], sm, fs,
            [Event.signal []]⟩) →
      (run F sched c = init url depth sm fs
        ∨ run F sched c = ⟨[([], { Frame.call url depth with pc := PC.exit })], sm, fs, []⟩
        ∨ run F sched c = ⟨[([], { Frame.call url depth with pc := PC.finished })], sm, fs,
            [Event.signal []]⟩) := by
    intro sched
    induction sched with
    | nil => intro c hc; exact hc
    | cons p s ih =>
      intro c hc
      simp only [run, List.foldl_cons]
      by_cases hp : p = []
      · subst hp
        rcases hc with rfl | rfl | rfl
        · exact ih _ (Or.inr (Or.inl (by simp [step, getFr, setFr, init, Frame.call, hd])))
        · exact ih _ (Or.inr (Or.inr (by simp [step, getFr, setFr, Frame.call])))
        · exact ih _ (Or.inr (Or.inr (by simp [step, getFr, Frame.call])))
      · rcases hc with rfl | rfl | rfl
        · exact ih _ (Or.inl (by simp [init, step_single_ne F hp]))
        · exact ih _ (Or.inr (Or.inl (by simp [step_single_ne F hp])))
        · exact ih _ (Or.inr (Or.inr (by simp [step_single_ne F hp])))
  exact key sched _ (Or.inl rfl)

theorem run_fetch_error (F : Fetcher σ) (url : String) {depth : Int} (hd : 0 < depth)
    (sm : SafeMap) (hk : url ∉ sm.keys) (fs : σ)
    (he : (F.Fetch fs url).2.err.isSome = true) (sched : List Path) :
    (run F sched (init url depth sm fs)).safeMap = sm
    ∧ (run F sched (init url depth sm fs)).pool.map Prod.fst = [[]]
    ∧ (∃ n, (run F sched (init url depth sm fs)).out
        = List.take n [Event.read [] url false, Event.fetch [] url (F.Fetch fs url).2,
            Event.println [] ((F.Fetch fs url).2.err.getD ""), Event.signal []])
    ∧ (allDone (run F sched (init url depth sm fs)) →
        (run F sched (init url depth sm fs)).out
          = [Event.read [] url false, Event.fetch [] url (F.Fetch fs url).2,
              Event.println [] ((F.Fetch fs url).2.err.getD ""), Event.signal []]) := by
  have hread : (sm.Read url).2 = false := by
    cases h : (sm.Read url).2 with
    | false => rfl
    | true => exact absurd ((Read_ok_iff sm url).1 h) hk
  have hd' : ¬ depth ≤ 0 := by omega
  let r := (F.Fetch fs url).2
  let fs' := (F.Fetch fs url).1
  let f3 : Frame := ⟨url, depth, PC.printErr, false, r.body, r.urls, r.err, 0⟩
  let e1 := Event.read [] url false
  let e2 := Event.fetch [] url r
  let e3 := Event.println [] (r.err.getD "")
  let S : Config σ → Prop := fun c =>
    c = init url depth sm fs
    ∨ c = ⟨[([], { Frame.call url depth with pc := PC.read })], sm, fs, []⟩
    ∨ c = ⟨[([], { Frame.call url depth with pc := PC.fetch })], sm, fs, [e1]⟩
    ∨ c = ⟨[([], f3)], sm, fs', [e1, e2]⟩
    ∨ c = ⟨[([], { f3 with pc := PC.exit })], sm, fs', [e1, e2, e3]⟩
    ∨ c = ⟨[([], { f3 with pc := PC.finished })], sm, fs', [e1, e2, e3, Event.signal []]⟩
  have key : ∀ (sched : List Path) (c : Config σ), S c → S (run F sched c) := by
    intro sched
    induction sched with
    | nil => intro c hc; exact hc
    | cons p s ih =>
      intro c hc
      simp only [run, List.foldl_cons]
      by_cases hp : p = []
      · subst hp
        rcases hc with rfl | rfl | rfl | rfl | rfl | rfl
        · exact ih _ (Or.inr (Or.inl (by simp [step, getFr, setFr, init, Frame.call, hd'])))
        · exact ih _ (Or.inr (Or.inr (Or.inl (by
            simp [step, getFr, setFr, Frame.call, hread, e1]))))
        · exact ih _ (Or.inr (Or.inr (Or.inr (Or.inl (by
            simp [step, getFr, setFr, Frame.call, he, e1, e2, f3, r, fs'])))))
        · exact ih _ (Or.inr (Or.inr (Or.inr (Or.inr (Or.inl (by
            simp [step, getFr, setFr, e1, e2, e3, f3]))))))
        · exact ih _ (Or.inr (Or.inr (Or.inr (Or.inr (Or.inr (by
            simp [step, getFr, setFr, e1, e2, e3, f3]))))))
        · exact ih _ (Or.inr (Or.inr (Or.inr (Or.inr (Or.inr (by
            simp [step, getFr, f3]))))))
      · rcases hc with rfl | rfl | rfl | rfl | rfl | rfl
        · exact ih _ (Or.inl (by simp [init, step_single_ne F hp]))
        · exact ih _ (Or.inr (Or.inl (by simp [step_single_ne F hp])))
        · exact ih _ (Or.inr (Or.inr (Or.inl (by simp [step_single_ne F hp]))))
        · exact ih _ (Or.inr (Or.inr (Or.inr (Or.inl (by simp [step_single_ne F hp])))))
        · exact ih _ (Or.inr (Or.inr (Or.inr (Or.inr (Or.inl (by
            simp [step_single_ne F hp]))))))
        · exact ih _ (Or.inr (Or.inr (Or.inr (Or.inr (Or.inr (by
            simp [step_single_ne F hp]))))))
  rcases key sched _ (Or.inl rfl) with h | h | h | h | h | h <;> rw [h]
  · exact ⟨rfl, rfl, ⟨0, rfl⟩, fun hx => by simp [allDone, init, Frame.call] at hx⟩
  · exact ⟨rfl, rfl, ⟨0, rfl⟩, fun hx => by simp [allDone, Frame.call] at hx⟩
  · exact ⟨rfl, rfl, ⟨1, rfl⟩, fun hx => by simp [allDone, Frame.call] at hx⟩
  · exact ⟨rfl, rfl, ⟨2, rfl⟩, fun hx => by simp [allDone, f3] at hx⟩
  · exact ⟨rfl, rfl, ⟨3, rfl⟩, fun hx => by simp [allDone, f3] at hx⟩
  · exact ⟨rfl, rfl, ⟨4, rfl⟩, fun _ => rfl⟩

/-! ### Reads and insertions in a trace -/

theorem split_append_singleton {out pre post : List Event} {e x : Event}
    (h : out ++ [e] = pre ++ x :: post) :
    (post = [] ∧ pre = out ∧ x = e) ∨ (∃ post', post = post' ++ [e] ∧ out = pre ++ x :: post') := by
  rcases List.eq_nil_or_concat post with hp | ⟨post', y, hp⟩
  · subst hp
    obtain ⟨h1, h2⟩ := List.append_inj' h (by simp)
    simp only [List.cons.injEq, and_true] at h2
    exact Or.inl ⟨rfl, h1.symm, h2.symm⟩
  · subst hp
    rw [List.concat_eq_append] at h ⊢
    have h' : out ++ [e] = (pre ++ x :: post') ++ [y] := by
      rw [h]; simp
    obtain ⟨h1, h2⟩ := List.append_inj' h' (by simp)
    simp only [List.cons.injEq, and_true] at h2
    subst h2
    exact Or.inr ⟨post', rfl, h1⟩

theorem ReadsSeeAdds.snocRead {sm : SafeMap} {out : List Event} (h : ReadsSeeAdds sm out)
    (e : Event)
    (h1 : ∀ b k ok, e = Event.read b k ok →
      (ok = true ↔ k ∈ sm.keys ∨ ∃ b' v, Event.add b' k v ∈ out)) :
    ReadsSeeAdds sm (out ++ [e]) := by
  intro pre post b k ok heq
  rcases split_append_singleton heq with ⟨_, hpre, hx⟩ | ⟨post', _, ho⟩
  · subst hpre
    exact h1 b k ok hx.symm
  · exact h pre post' b k ok ho

theorem AddsAfterRead.snocAdd {out : List Event} (h : AddsAfterRead out) (e : Event)
    (h1 : ∀ b k v, e = Event.add b k v → Event.read b k false ∈ out) :
    AddsAfterRead (out ++ [e]) := by
  intro pre post b k v heq
  rcases split_append_singleton heq with ⟨_, hpre, hx⟩ | ⟨post', _, ho⟩
  · subst hpre
    exact h1 b k v hx.symm
  · exact h pre post' b k v ho

theorem reads_preserved {F : Fetcher σ} {url0 : String} {depth0 : Int} {sm0 : SafeMap}
    (c : Config σ) (p : Path) (c' : Config σ) (hI : Inv url0 depth0 sm0 c)
    (hO : ReadsSeeAdds sm0 c.out) (h : step F p c = some c') :
    ReadsSeeAdds sm0 c'.out := by
  apply step_elim h
  case read =>
    intro fr hfr hpc
    refine hO.snocRead _ (fun b k ok hb => ?_)
    cases hb
    rw [Read_ok_iff, keys_out hI]
  case entry => intro fr hfr hpc; exact hO
  case spawned => intro fr hfr hpc hu; exact hO
  case waited => intro fr j hfr hpc hj; exact hO
  all_goals
    intros
    exact hO.snocRead _ (fun b k ok hb => by cases hb)

theorem adds_preserved {F : Fetcher σ} {url0 : String} {depth0 : Int} {sm0 : SafeMap}
    (c : Config σ) (p : Path) (c' : Config σ) (hI : Inv url0 depth0 sm0 c)
    (hO : AddsAfterRead c.out) (h : step F p c = some c') :
    AddsAfterRead c'.out := by
  apply step_elim h
  case add =>
    intro fr hfr hpc
    refine hO.snocAdd _ (fun b k v hb => ?_)
    cases hb
    exact mem_out_of_mem_history hI hfr (by simp [history, hpc])
  case entry => intro fr hfr hpc; exact hO
  case spawned => intro fr hfr hpc hu; exact hO
  case waited => intro fr j hfr hpc hj; exact hO
  all_goals
    intros
    exact hO.snocAdd _ (fun b k v hb => by cases hb)

theorem reads_reach (F : Fetcher σ) (url : String) (depth : Int) (sm : SafeMap) (fs : σ)
    (sched : List Path) :
    ReadsSeeAdds sm (run F sched (init url depth sm fs)).out
      ∧ AddsAfterRead (run F sched (init url depth sm fs)).out := by
  have hI := Inv.initial url depth sm fs
  constructor
  · refine run_invariant (P := fun c => ReadsSeeAdds sm c.out) reads_preserved sched _ hI ?_
    intro pre post b k ok h
    simp [init] at h
  · refine run_invariant (P := fun c => AddsAfterRead c.out) adds_preserved sched _ hI ?_
    intro pre post b k v h
    simp [init] at h

theorem later_adds_read_before {sm : SafeMap} {out : List Event} (hR : ReadsSeeAdds sm out)
    (hA : AddsAfterRead out) {pre post : List Event} {b : Path} {k v : String}
    (heq : out = pre ++ Event.add b k v :: post) :
    ∀ b' v', Event.add b' k v' ∈ post → Event.read b' k false ∈ pre := by
  intro b' v' hmem
  obtain ⟨p1, p2, hp⟩ := List.append_of_mem hmem
  have heq2 : out = (pre ++ Event.add b k v :: p1) ++ Event.add b' k v' :: p2 := by
    rw [heq, hp]; simp
  have hr := hA _ _ _ _ _ heq2
  simp only [List.mem_append, List.mem_cons, reduceCtorEq, false_or] at hr
  rcases hr with hr | hr
  · exact hr
  · exfalso
    obtain ⟨q1, q2, hq⟩ := List.append_of_mem hr
    have heq3 : out = (pre ++ Event.add b k v :: q1) ++ Event.read b' k false
        :: (q2 ++ Event.add b' k v' :: p2) := by
      rw [heq2, hq]; simp
    have := (hR _ _ _ _ _ heq3).2 (Or.inr ⟨b, v, by simp⟩)
    cases this

/-! ### What a single goroutine does -/

theorem countP_branch {url0 : String} {depth0 : Int} {sm0 : SafeMap} {c : Config σ}
    (hI : Inv url0 depth0 sm0 c) (K : Event → Bool) (b : Path) :
    c.out.filter (fun e => K e && decide (e.branch = b))
      = (match getFr b c.pool with
          | none => []
          | some fr => (history b fr).filter K) := by
  have : c.out.filter (fun e => K e && decide (e.branch = b))
      = (c.out.filter (fun e => e.branch = b)).filter K := by
    rw [List.filter_filter]
  rw [this, hI.hist b]
  cases getFr b c.pool <;> simp

theorem read_true_mem_history {b b' : Path} {k : String} {fr : Frame}
    (h : Event.read b' k true ∈ history b fr) :
    ∀ e ∈ history b fr, e = Event.read b' k true ∨ e = Event.signal b' := by
  have hs : Event.read b' k true ∉ spawnEvents b fr := by simp [spawnEvents]
  have hb : Event.read b' k true ∉ bodyHistory b fr := by
    simp [bodyHistory, hs]
  have he : Event.read b' k true ∈ exitHistory b fr →
      exitHistory b fr = [Event.read b' k true] ∧ b' = b := by
    intro hm
    unfold exitHistory at hm ⊢
    split at hm
    · simp at hm
    · split at hm
      · simp only [List.mem_singleton, Event.read.injEq, and_true] at hm
        obtain ⟨h1, h2⟩ := hm
        subst h1; subst h2
        simp [*]
      · split at hm
        · simp at hm
        · exact absurd hm hb
  cases hpc : fr.pc <;> simp only [history, hpc] at h ⊢
  case exit =>
    obtain ⟨h1, _⟩ := he h
    rw [h1]; simp
  case finished =>
    simp only [List.mem_append, List.mem_singleton, reduceCtorEq, or_false] at h
    obtain ⟨h1, h2⟩ := he h
    rw [h1]; subst h2; simp
  case spawn => exact absurd h hb
  case wait j => exact absurd h hb
  all_goals simp at h

theorem depth_eq {url0 : String} {depth0 : Int} {pool : List (Path × Frame)}
    (hI : PoolInv url0 depth0 pool) :
    ∀ b fr, getFr b pool = some fr → fr.depth = depth0 - b.length := by
  intro b
  induction b with
  | nil =>
    intro fr hfr
    obtain ⟨r, hr, _, hd⟩ := hI.root
    rw [hr] at hfr; cases hfr
    simp [hd]
  | cons k q ih =>
    intro fr hfr
    obtain ⟨pf, hpf, _⟩ := (hI.kids q k).1 (by simp [hfr])
    obtain ⟨_, hd, _⟩ := hI.kid q k pf fr hpf hfr
    rw [hd, ih pf hpf]
    simp only [List.length_cons, Nat.cast_add, Nat.cast_one]
    omega

theorem parent_depth_pos {url0 : String} {depth0 : Int} {pool : List (Path × Frame)}
    (hI : PoolInv url0 depth0 pool) {q : Path} {fr : Frame} (hfr : getFr q pool = some fr)
    (hpos : 0 < fr.subDones) :
    0 < fr.depth ∧ fr.ok = false ∧ fr.err = none ∧ fr.pastFetch = true := by
  have hOK := hI.frame q fr hfr
  cases hpc : fr.pc <;> simp only [FrameOK, hpc] at hOK <;>
    simp only [Frame.pastFetch, hpc]
  case exit =>
    rcases hOK with h | h | h | h
    · omega
    · omega
    · omega
    · simp [h.1, h.2.1, h.2.2.1]
  case finished =>
    rcases hOK with h | h | h | h
    · omega
    · omega
    · omega
    · simp [h.1, h.2.1, h.2.2.1]
  case spawn => simp [hOK.1, hOK.2.1, hOK.2.2.1]
  case wait j => simp [hOK.1, hOK.2.1, hOK.2.2.1]
  all_goals omega

theorem pastFetch_facts {fr : Frame} (hOK : FrameOK fr) (hp : fr.pastFetch = true) :
    0 < fr.depth ∧ fr.ok = false := by
  cases hpc : fr.pc <;> simp only [FrameOK, hpc] at hOK <;>
    simp only [Frame.pastFetch, hpc] at hp
  case exit => simpa using hp
  case finished => simpa using hp
  all_goals first
    | exact ⟨hOK.1, hOK.2.1⟩
    | cases hp

theorem read_of_pastFetch {url0 : String} {depth0 : Int} {sm0 : SafeMap} {c : Config σ}
    (hI : Inv url0 depth0 sm0 c) {b : Path} {fr : Frame} (hfr : getFr b c.pool = some fr)
    (hp : fr.pastFetch = true) : Event.read b fr.url false ∈ c.out := by
  apply mem_out_of_mem_history hI hfr
  cases hpc : fr.pc <;> simp only [Frame.pastFetch, hpc] at hp <;>
    simp only [history, hpc, exitHistory, bodyHistory]
  case exit =>
    simp only [Bool.and_eq_true, decide_eq_true_eq, Bool.not_eq_true'] at hp
    have hd : ¬ fr.depth ≤ 0 := by omega
    simp only [hd, if_false, hp.2, Bool.false_eq_true]
    split <;> simp
  case finished =>
    simp only [Bool.and_eq_true, decide_eq_true_eq, Bool.not_eq_true'] at hp
    have hd : ¬ fr.depth ≤ 0 := by omega
    simp only [hd, if_false, hp.2, Bool.false_eq_true]
    split <;> simp
  all_goals first
    | (simp; done)
    | cases hp

/-! ### The spawn loop -/

theorem step_out_mono {F : Fetcher σ} {p : Path} {c c' : Config σ} (h : step F p c = some c')
    {e : Event} (he : e ∈ c.out) : e ∈ c'.out := by
  apply step_elim h <;> intros <;> first
    | exact he
    | exact List.mem_append_left _ he

theorem run_out_mono (F : Fetcher σ) (sched : List Path) (c : Config σ) {e : Event}
    (he : e ∈ c.out) : e ∈ (run F sched c).out := by
  induction sched generalizing c with
  | nil => exact he
  | cons p s ih =>
    simp only [run, List.foldl_cons]
    cases hs : step F p c with
    | none => exact ih c he
    | some c' => exact ih c' (step_out_mono hs he)

/-- What is known of a goroutine whose `Fetch` succeeded, at any point of a run. -/
theorem spawns_of_fetch {url0 : String} {depth0 : Int} {sm0 : SafeMap} {c : Config σ}
    (hI : Inv url0 depth0 sm0 c) {b : Path} {u : String} {r : FetchResult}
    (h : Event.fetch b u r ∈ c.out) (he : r.err = none) :
    ∃ fr, getFr b c.pool = some fr
      ∧ fr.url = u ∧ 1 ≤ fr.depth
      ∧ Event.read b u false ∈ c.out
      ∧ fr.subDones ≤ r.urls.length
      ∧ c.out.filter (fun e => e.isSpawn && decide (e.branch = b))
        = (List.range fr.subDones).map
            (fun i => Event.spawn b (i :: b) (r.urls.getD i "") (fr.depth - 1))
      ∧ (∀ i, i < fr.subDones →
          ∃ kf, getFr (i :: b) c.pool = some kf
            ∧ kf.url = r.urls.getD i "" ∧ kf.depth = fr.depth - 1)
      ∧ ((fr.pc = PC.exit ∨ fr.pc = PC.finished ∨ ∃ j, fr.pc = PC.wait j) →
          fr.subDones = r.urls.length) := by
  obtain ⟨fr, hfr, hp, hu, hr⟩ := fetch_mem_out hI h
  have hOK := hI.pool.frame b fr hfr
  have hfacts := pastFetch_facts hOK hp
  have herr : fr.err = none := by rw [hr] at he; exact he
  have hurls : r.urls = fr.urls := by rw [hr]
  refine ⟨fr, hfr, hu.symm, by omega, ?_, ?_, ?_, ?_, ?_⟩
  · rw [hu]; exact read_of_pastFetch hI hfr hp
  · rw [hurls]
    cases hpc : fr.pc <;> simp only [FrameOK, hpc] at hOK
    case exit => rcases hOK with x | x | x | x <;> omega
    case finished => rcases hOK with x | x | x | x <;> omega
    all_goals omega
  · rw [countP_branch hI, hfr]
    simp only
    rw [history_filter_isSpawn b fr hOK, hurls]
    rfl
  · intro i hi
    have hex := (hI.pool.kids b i).2 ⟨fr, hfr, hi⟩
    cases hk : getFr (i :: b) c.pool with
    | none => simp [hk] at hex
    | some kf =>
      obtain ⟨a, d, _⟩ := hI.pool.kid b i fr kf hfr hk
      exact ⟨kf, rfl, by rw [a, hurls], d⟩
  · intro hpcs
    rw [hurls]
    rcases hpcs with hpc | hpc | ⟨j, hpc⟩ <;> simp only [FrameOK, hpc] at hOK
    · rcases hOK with x | x | x | x
      · omega
      · rw [x.2.1] at hfacts; cases hfacts.2
      · rw [herr] at x; cases x.2.2.1
      · exact x.2.2.2
    · rcases hOK with x | x | x | x
      · omega
      · rw [x.2.1] at hfacts; cases hfacts.2
      · rw [herr] at x; cases x.2.2.1
      · exact x.2.2.2
    · exact hOK.2.2.2.1

/-- In a completed run, a goroutine whose `Fetch` succeeded has executed all the `go`
statements of its spawn loop. -/
theorem spawns_of_fetch_done {url0 : String} {depth0 : Int} {sm0 : SafeMap} {c : Config σ}
    (hI : Inv url0 depth0 sm0 c) (hd : allDone c) {b : Path} {u : String} {r : FetchResult}
    (h : Event.fetch b u r ∈ c.out) (he : r.err = none) :
    1 ≤ depth0 - b.length
      ∧ c.out.filter (fun e => e.isSpawn && decide (e.branch = b))
        = (List.range r.urls.length).map
            (fun i => Event.spawn b (i :: b) (r.urls.getD i "") (depth0 - b.length - 1))
      ∧ (∀ i, i < r.urls.length →
          ∃ kf, getFr (i :: b) c.pool = some kf
            ∧ kf.url = r.urls.getD i "" ∧ kf.depth = depth0 - b.length - 1) := by
  obtain ⟨fr, hfr, _, h1, _, _, hsp, hk, hlen⟩ := spawns_of_fetch hI h he
  have hfin : fr.pc = PC.finished := hd (b, fr) (mem_of_getFr hfr)
  have hn := hlen (Or.inr (Or.inl hfin))
  have hdep := depth_eq hI.pool b fr hfr
  rw [hn, hdep] at hsp
  rw [hn, hdep] at hk
  rw [hdep] at h1
  exact ⟨h1, hsp, hk⟩

/-- The top-level call `Crawl(url, depth, ...)` with `depth > 0` and `url` not in the map
runs alone up to its `Fetch`, which is therefore the first call on the fetcher. -/
theorem root_fetches (F : Fetcher σ) {url : String} {depth : Int} {sm : SafeMap} (fs : σ)
    (hd : 0 < depth) (hm : (sm.Read url).2 = false) (sched : List Path) :
    Event.fetch [] url (F.Fetch fs url).2 ∈ (run F sched (init url depth sm fs)).out
      ∨ ∃ fr, getFr [] (run F sched (init url depth sm fs)).pool = some fr
          ∧ (fr.pc = PC.entry ∨ fr.pc = PC.read ∨ fr.pc = PC.fetch)
          ∧ (run F sched (init url depth sm fs)).safeMap = sm
          ∧ (run F sched (init url depth sm fs)).fs = fs
          ∧ (run F sched (init url depth sm fs)).pool.map Prod.fst = [[]] := by
  refine @run_invariant _ F url depth sm
    (fun c => Event.fetch [] url (F.Fetch fs url).2 ∈ c.out
      ∨ ∃ fr, getFr [] c.pool = some fr
          ∧ (fr.pc = PC.entry ∨ fr.pc = PC.read ∨ fr.pc = PC.fetch)
          ∧ c.safeMap = sm ∧ c.fs = fs ∧ c.pool.map Prod.fst = [[]])
    ?_ sched (init url depth sm fs) (Inv.initial url depth sm fs) ?_
  · intro c p c' hI hP hs
    rcases hP with hP | ⟨fr, hfr, hpcs, hsm, hfs, hkeys⟩
    · exact Or.inl (step_out_mono hs hP)
    · obtain ⟨fp, hfp, _⟩ := step_some_frame hs
      have hp : p = [] := by
        have := List.mem_map_of_mem Prod.fst (mem_of_getFr hfp)
        rw [hkeys] at this
        simpa using this
      subst hp
      obtain ⟨r0, hr0, hurl, hdep⟩ := hI.pool.root
      rw [hfr] at hr0
      cases hr0
      apply step_elim hs
      case entry =>
        intro fr0 hfr0 hpc0
        rw [hfr] at hfr0; cases hfr0
        refine Or.inr ⟨{ fr with pc := PC.read }, ?_, Or.inr (Or.inl rfl), hsm, hfs, ?_⟩
        · have hnot : ¬ fr.depth ≤ 0 := by omega
          simp only [getFr_setFr, hfr, hnot, if_true, if_false, Option.map_some']
        · simp only [keys_setFr]; exact hkeys
      case read =>
        intro fr0 hfr0 hpc0
        rw [hfr] at hfr0; cases hfr0
        have hok : (c.safeMap.Read fr.url).2 = false := by rw [hsm, hurl]; exact hm
        refine Or.inr ⟨{ fr with ok := false, pc := PC.fetch }, ?_, Or.inr (Or.inr rfl), hsm,
          hfs, ?_⟩
        · simp [getFr_setFr, hfr, hok]
        · simp only [keys_setFr]; exact hkeys
      case fetch =>
        intro fr0 hfr0 hpc0
        rw [hfr] at hfr0; cases hfr0
        left
        simp only [hfs, hurl, List.mem_append, List.mem_singleton, or_true]
      case printErr =>
        intro fr0 hfr0 hpc0
        rw [hfr] at hfr0; cases hfr0
        rcases hpcs with x | x | x <;> rw [x] at hpc0 <;> cases hpc0
      case add =>
        intro fr0 hfr0 hpc0
        rw [hfr] at hfr0; cases hfr0
        rcases hpcs with x | x | x <;> rw [x] at hpc0 <;> cases hpc0
      case print =>
        intro fr0 hfr0 hpc0
        rw [hfr] at hfr0; cases hfr0
        rcases hpcs with x | x | x <;> rw [x] at hpc0 <;> cases hpc0
      case spawn =>
        intro fr0 u hfr0 hpc0 _
        rw [hfr] at hfr0; cases hfr0
        rcases hpcs with x | x | x <;> rw [x] at hpc0 <;> cases hpc0
      case spawned =>
        intro fr0 hfr0 hpc0 _
        rw [hfr] at hfr0; cases hfr0
        rcases hpcs with x | x | x <;> rw [x] at hpc0 <;> cases hpc0
      case recv =>
        intro fr0 j kf hfr0 hpc0 _ _ _
        rw [hfr] at hfr0; cases hfr0
        rcases hpcs with x | x | x <;> rw [x] at hpc0 <;> cases hpc0
      case waited =>
        intro fr0 j hfr0 hpc0 _
        rw [hfr] at hfr0; cases hfr0
        rcases hpcs with x | x | x <;> rw [x] at hpc0 <;> cases hpc0
      case exit =>
        intro fr0 hfr0 hpc0 _
        rw [hfr] at hfr0; cases hfr0
        rcases hpcs with x | x | x <;> rw [x] at hpc0 <;> cases hpc0
  · exact Or.inr ⟨Frame.call url depth, rfl, Or.inl rfl, rfl, rfl, rfl⟩

/-- In a completed run started with `depth > 0` and `url` not in the map, the top-level
call has made the first `Fetch` call. -/
theorem root_fetched {F : Fetcher σ} {url : String} {depth : Int} {sm : SafeMap} {fs : σ}
    {sched : List Path} (hd : 0 < depth) (hm : (sm.Read url).2 = false)
    (hdone : allDone (run F sched (init url depth sm fs))) :
    Event.fetch [] url (F.Fetch fs url).2 ∈ (run F sched (init url depth sm fs)).out := by
  rcases root_fetches F fs hd hm sched with h | ⟨fr, hfr, hpcs, _⟩
  · exact h
  · have hfin : fr.pc = PC.finished := hdone ([], fr) (mem_of_getFr hfr)
    rcases hpcs with x | x | x <;> rw [x] at hfin <;> cases hfin

/-! ### The call tree -/

theorem finalFrame_url (f : fakeFetcher) (anc : List String) (u : String) (d : Int) :
    (finalFrame f anc u d).url = u := by
  unfold finalFrame; split
  · rfl
  · split <;> rfl

theorem finalFrame_depth (f : fakeFetcher) (anc : List String) (u : String) (d : Int) :
    (finalFrame f anc u d).depth = d := by
  unfold finalFrame; split
  · rfl
  · split <;> rfl

theorem finalFrame_pc (f : fakeFetcher) (anc : List String) (u : String) (d : Int) :
    (finalFrame f anc u d).pc = PC.finished := by
  unfold finalFrame; split
  · rfl
  · split <;> rfl

theorem finalFrame_pastAdd (f : fakeFetcher) (anc : List String) (u : String) (d : Int) :
    (finalFrame f anc u d).pastAdd = true ↔ 0 < d ∧ u ∉ anc ∧ (f.Fetch u).err = none := by
  unfold finalFrame
  by_cases hd : d ≤ 0
  · simp only [hd, if_true, Frame.pastAdd, Frame.call]
    simp; omega
  · by_cases ha : u ∈ anc
    · simp [hd, ha, Frame.pastAdd, Frame.call]
    · have : 0 < d := by omega
      simp [hd, ha, Frame.pastAdd, this]

theorem treeNode_cons {f : fakeFetcher} {url0 : String} {depth0 : Int} {k : Nat} {q : Path}
    {sf : Frame} {anc : List String} (h : treeNode f url0 depth0 (k :: q) = some (sf, anc)) :
    ∃ pf panc, treeNode f url0 depth0 q = some (pf, panc) ∧ k < pf.subDones
      ∧ sf = finalFrame f (pf.url :: panc) (pf.urls.getD k "") (pf.depth - 1)
      ∧ anc = pf.url :: panc := by
  simp only [treeNode] at h
  cases hq : treeNode f url0 depth0 q with
  | none => simp [hq] at h
  | some x =>
    obtain ⟨pf, panc⟩ := x
    simp only [hq] at h
    by_cases hk : k < pf.subDones
    · simp only [hk, if_true, Option.some.injEq, Prod.mk.injEq] at h
      exact ⟨pf, panc, rfl, hk, h.1.symm, h.2.symm⟩
    · simp [hk] at h

theorem treeNode_final {f : fakeFetcher} {url0 : String} {depth0 : Int} {q : Path}
    {sf : Frame} {anc : List String} (h : treeNode f url0 depth0 q = some (sf, anc)) :
    sf = finalFrame f anc sf.url sf.depth := by
  cases q with
  | nil =>
    simp only [treeNode, Option.some.injEq, Prod.mk.injEq] at h
    obtain ⟨h1, h2⟩ := h
    subst h1; subst h2
    rw [finalFrame_url, finalFrame_depth]
  | cons k q =>
    obtain ⟨pf, panc, _, _, h1, h2⟩ := treeNode_cons h
    subst h1; subst h2
    rw [finalFrame_url, finalFrame_depth]

theorem mem_treeLevel (f : fakeFetcher) (url0 : String) (depth0 : Int) :
    ∀ n q, q ∈ treeLevel f url0 depth0 n ↔
      q.length = n ∧ (treeNode f url0 depth0 q).isSome = true := by
  intro n
  induction n with
  | zero =>
    intro q
    simp only [treeLevel, List.mem_singleton, List.length_eq_zero]
    constructor
    · rintro rfl; exact ⟨rfl, by simp [treeNode]⟩
    · rintro ⟨h, _⟩; exact h
  | succ n ih =>
    intro q
    simp only [treeLevel, List.mem_flatMap]
    constructor
    · rintro ⟨q', hq', hmem⟩
      obtain ⟨hl, hs⟩ := (ih q').1 hq'
      cases hn : treeNode f url0 depth0 q' with
      | none => simp [hn] at hs
      | some x =>
        obtain ⟨pf, panc⟩ := x
        simp only [hn, List.mem_map, List.mem_range] at hmem
        obtain ⟨k, hk, rfl⟩ := hmem
        exact ⟨by simp [hl], by simp [treeNode, hn, hk]⟩
    · rintro ⟨hl, hs⟩
      cases q with
      | nil => simp at hl
      | cons k q' =>
        cases hx : treeNode f url0 depth0 (k :: q') with
        | none => simp [hx] at hs
        | some x =>
          obtain ⟨sf, anc⟩ := x
          obtain ⟨pf, panc, hp, hk, _, _⟩ := treeNode_cons hx
          refine ⟨q', (ih q').2 ⟨by simpa using hl, by simp [hp]⟩, ?_⟩
          simp only [hp, List.mem_map, List.mem_range]
          exact ⟨k, hk, rfl⟩

theorem treeLevel_empty (f : fakeFetcher) (url0 : String) (depth0 : Int) {N : Nat}
    (h : treeLevel f url0 depth0 (N + 1) = []) :
    ∀ m, N + 1 ≤ m → treeLevel f url0 depth0 m = [] := by
  intro m hm
  induction m with
  | zero => omega
  | succ m ih =>
    by_cases hx : N = m
    · subst hx; exact h
    · have := ih (by omega)
      simp [treeLevel, this]

theorem mem_treePaths (f : fakeFetcher) (url0 : String) (depth0 : Int) {N : Nat}
    (h : treeLevel f url0 depth0 (N + 1) = []) (q : Path) :
    q ∈ treePaths f url0 depth0 N ↔ (treeNode f url0 depth0 q).isSome = true := by
  simp only [treePaths, List.mem_flatMap, List.mem_range]
  constructor
  · rintro ⟨n, _, hq⟩
    exact ((mem_treeLevel f url0 depth0 n q).1 hq).2
  · intro hs
    have hq := (mem_treeLevel f url0 depth0 q.length q).2 ⟨rfl, hs⟩
    refine ⟨q.length, ?_, hq⟩
    by_contra hlt
    rw [treeLevel_empty f url0 depth0 h q.length (by omega)] at hq
    simp at hq

theorem filterMap_nodup_inj {α β : Type} {g : α → Option β} :
    ∀ {l : List α}, (l.filterMap g).Nodup → ∀ {a b : α} {x : β}, a ∈ l → b ∈ l →
      g a = some x → g b = some x → a = b := by
  intro l
  induction l with
  | nil => intro _ a b x ha; simp at ha
  | cons c l ih =>
    intro hn a b x ha hb hga hgb
    have hmem : ∀ {y : α}, y ∈ l → g y = some x → x ∈ l.filterMap g := by
      intro y hy hgy
      exact List.mem_filterMap.2 ⟨y, hy, hgy⟩
    rcases List.mem_cons.1 ha with rfl | ha'
    · rcases List.mem_cons.1 hb with rfl | hb'
      · rfl
      · exfalso
        rw [List.filterMap_cons, hga] at hn
        exact (List.nodup_cons.1 hn).1 (hmem hb' hgb)
    · rcases List.mem_cons.1 hb with rfl | hb'
      · exfalso
        rw [List.filterMap_cons, hgb] at hn
        exact (List.nodup_cons.1 hn).1 (hmem ha' hga)
      · refine ih ?_ ha' hb' hga hgb
        rw [List.filterMap_cons] at hn
        cases hc : g c with
        | none => simpa [hc] using hn
        | some y => rw [hc] at hn; exact (List.nodup_cons.1 hn).2

/-! ### The frames after a step -/

theorem frames_setFr {pool : List (Path × Frame)} {p : Path} {fr : Frame}
    (hfr : getFr p pool = some fr) (fr' : Frame) :
    ∀ q f, getFr q (setFr p fr' pool) = some f → (q = p ∧ f = fr') ∨ getFr q pool = some f := by
  intro q f hq
  rw [getFr_setFr] at hq
  by_cases hp : q = p
  · simp only [hp, if_true, hfr, Option.map_some', Option.some.injEq] at hq
    exact Or.inl ⟨hp, hq.symm⟩
  · simp only [hp, if_false] at hq
    exact Or.inr hq

theorem step_frames {F : Fetcher σ} {p : Path} {c c' : Config σ} (h : step F p c = some c') :
    ∃ fr fr', getFr p c.pool = some fr ∧ fr'.url = fr.url ∧ fr'.depth = fr.depth
      ∧ (fr'.pastRead = true →
          (fr.pastRead = true ∧ fr'.ok = fr.ok)
            ∨ (fr.pc = PC.read ∧ fr'.ok = (c.safeMap.Read fr.url).2))
      ∧ (fr'.pastFetch = true →
          (fr.pastFetch = true ∧ fr'.body = fr.body ∧ fr'.urls = fr.urls ∧ fr'.err = fr.err)
            ∨ (fr'.body = (F.Fetch c.fs fr.url).2.body ∧ fr'.urls = (F.Fetch c.fs fr.url).2.urls
                ∧ fr'.err = (F.Fetch c.fs fr.url).2.err))
      ∧ ∀ q f, getFr q c'.pool = some f →
          (q = p ∧ f = fr') ∨ getFr q c.pool = some f
          ∨ (∃ kf, getFr q c.pool = some kf ∧ kf.pc = PC.exit ∧ f = { kf with pc := PC.finished })
          ∨ (∃ u, q = fr.subDones :: p ∧ f = Frame.call u (fr.depth - 1) ∧ fr.pc = PC.spawn
              ∧ fr.urls[fr.subDones]? = some u) := by
  apply step_elim h
  · intro fr hfr hpc
    refine ⟨fr, { fr with pc := if fr.depth ≤ 0 then PC.exit else PC.read }, hfr, rfl, rfl,
      ?_, ?_, fun q f hq => ?_⟩
    · by_cases hd : fr.depth ≤ 0
      · have : ¬ 0 < fr.depth := by omega
        simp [hd, Frame.pastRead, this]
      · simp [hd, Frame.pastRead]
    · by_cases hd : fr.depth ≤ 0
      · have : ¬ 0 < fr.depth := by omega
        simp [hd, Frame.pastFetch, this]
      · simp [hd, Frame.pastFetch]
    · rcases frames_setFr hfr _ q f hq with x | x
      · exact Or.inl x
      · exact Or.inr (Or.inl x)
  · intro fr hfr hpc
    refine ⟨fr, { fr with ok := (c.safeMap.Read fr.url).snd
                          pc := if (c.safeMap.Read fr.url).snd then PC.exit else PC.fetch },
      hfr, rfl, rfl, fun _ => Or.inr ⟨hpc, rfl⟩, ?_, fun q f hq => ?_⟩
    · cases (c.safeMap.Read fr.url).2 <;> simp [Frame.pastFetch]
    · rcases frames_setFr hfr _ q f hq with x | x
      · exact Or.inl x
      · exact Or.inr (Or.inl x)
  · intro fr hfr hpc
    refine ⟨fr, { fr with body := (F.Fetch c.fs fr.url).2.body
                          urls := (F.Fetch c.fs fr.url).2.urls
                          err := (F.Fetch c.fs fr.url).2.err
                          pc := if (F.Fetch c.fs fr.url).2.err.isSome then PC.printErr
                                else PC.add },
      hfr, rfl, rfl, ?_, fun _ => Or.inr ⟨rfl, rfl, rfl⟩, fun q f hq => ?_⟩
    · intro _
      exact Or.inl ⟨by simp [Frame.pastRead, hpc], rfl⟩
    · rcases frames_setFr hfr _ q f hq with x | x
      · exact Or.inl x
      · exact Or.inr (Or.inl x)
  · intro fr hfr hpc
    refine ⟨fr, { fr with pc := PC.exit }, hfr, rfl, rfl, ?_, ?_, fun q f hq => ?_⟩
    · intro _
      exact Or.inl ⟨by simp [Frame.pastRead, hpc], rfl⟩
    · intro _
      exact Or.inl ⟨by simp [Frame.pastFetch, hpc], rfl, rfl, rfl⟩
    · rcases frames_setFr hfr _ q f hq with x | x
      · exact Or.inl x
      · exact Or.inr (Or.inl x)
  · intro fr hfr hpc
    refine ⟨fr, { fr with pc := PC.print }, hfr, rfl, rfl, ?_, ?_, fun q f hq => ?_⟩
    · intro _
      exact Or.inl ⟨by simp [Frame.pastRead, hpc], rfl⟩
    · intro _
      exact Or.inl ⟨by simp [Frame.pastFetch, hpc], rfl, rfl, rfl⟩
    · rcases frames_setFr hfr _ q f hq with x | x
      · exact Or.inl x
      · exact Or.inr (Or.inl x)
  · intro fr hfr hpc
    refine ⟨fr, { fr with pc := PC.spawn }, hfr, rfl, rfl, ?_, ?_, fun q f hq => ?_⟩
    · intro _
      exact Or.inl ⟨by simp [Frame.pastRead, hpc], rfl⟩
    · intro _
      exact Or.inl ⟨by simp [Frame.pastFetch, hpc], rfl, rfl, rfl⟩
    · rcases frames_setFr hfr _ q f hq with x | x
      · exact Or.inl x
      · exact Or.inr (Or.inl x)
  · intro fr u hfr hpc hu
    refine ⟨fr, { fr with subDones := fr.subDones + 1 }, hfr, rfl, rfl, ?_, ?_,
      fun q f hq => ?_⟩
    · intro _
      exact Or.inl ⟨by simp [Frame.pastRead, hpc], rfl⟩
    · intro _
      exact Or.inl ⟨by simp [Frame.pastFetch, hpc], rfl, rfl, rfl⟩
    · rw [getFr_append] at hq
      cases hx : getFr q (setFr p { fr with subDones := fr.subDones + 1 } c.pool) with
      | some g =>
        simp only [hx, Option.orElse, Option.some.injEq] at hq
        subst hq
        rcases frames_setFr hfr _ q g hx with x | x
        · exact Or.inl x
        · exact Or.inr (Or.inl x)
      | none =>
        simp only [hx, Option.orElse] at hq
        split at hq
        · rename_i heq
          cases hq
          exact Or.inr (Or.inr (Or.inr ⟨u, heq.symm, rfl, hpc, hu⟩))
        · cases hq
  · intro fr hfr hpc hu
    refine ⟨fr, { fr with pc := PC.wait 0 }, hfr, rfl, rfl, ?_, ?_, fun q f hq => ?_⟩
    · intro _
      exact Or.inl ⟨by simp [Frame.pastRead, hpc], rfl⟩
    · intro _
      exact Or.inl ⟨by simp [Frame.pastFetch, hpc], rfl, rfl, rfl⟩
    · rcases frames_setFr hfr _ q f hq with x | x
      · exact Or.inl x
      · exact Or.inr (Or.inl x)
  · intro fr j kf hfr hpc hj hkf hke
    have hne : ¬ p = j :: p := fun x => List.cons_ne_self _ _ x.symm
    have hfr' : getFr p (setFr (j :: p) { kf with pc := PC.finished } c.pool) = some fr := by
      rw [getFr_setFr]; simp [hne, hfr]
    refine ⟨fr, { fr with pc := PC.wait (j + 1) }, hfr, rfl, rfl, ?_, ?_, fun q f hq => ?_⟩
    · intro _
      exact Or.inl ⟨by simp [Frame.pastRead, hpc], rfl⟩
    · intro _
      exact Or.inl ⟨by simp [Frame.pastFetch, hpc], rfl, rfl, rfl⟩
    · rcases frames_setFr hfr' _ q f hq with x | x
      · exact Or.inl x
      · rcases frames_setFr hkf _ q f x with y | y
        · exact Or.inr (Or.inr (Or.inl ⟨kf, by rw [y.1]; exact hkf, hke, y.2⟩))
        · exact Or.inr (Or.inl y)
  · intro fr j hfr hpc hj
    refine ⟨fr, { fr with pc := PC.exit }, hfr, rfl, rfl, ?_, ?_, fun q f hq => ?_⟩
    · intro hx
      simp only [Frame.pastRead] at hx
      exact Or.inl ⟨by simp [Frame.pastRead, hpc], rfl⟩
    · intro hx
      exact Or.inl ⟨by simp [Frame.pastFetch, hpc], rfl, rfl, rfl⟩
    · rcases frames_setFr hfr _ q f hq with x | x
      · exact Or.inl x
      · exact Or.inr (Or.inl x)
  · intro fr hfr hpc hp
    refine ⟨fr, { fr with pc := PC.finished }, hfr, rfl, rfl, ?_, ?_, fun q f hq => ?_⟩
    · intro hx
      exact Or.inl ⟨by simpa [Frame.pastRead, hpc] using hx, rfl⟩
    · intro hx
      exact Or.inl ⟨by simpa [Frame.pastFetch, hpc] using hx, rfl, rfl, rfl⟩
    · rcases frames_setFr hfr _ q f hq with x | x
      · exact Or.inl x
      · exact Or.inr (Or.inl x)

/-! ### Runs with canned results follow the call tree when it is race free -/

theorem pastAdd_facts {fr : Frame} (hOK : FrameOK fr) (hp : fr.pastAdd = true) :
    0 < fr.depth ∧ fr.ok = false ∧ fr.err = none ∧ fr.pastFetch = true
      ∧ fr.pastRead = true := by
  cases hpc : fr.pc <;> simp only [FrameOK, hpc] at hOK <;>
    simp only [Frame.pastAdd, hpc] at hp <;>
    simp only [Frame.pastFetch, Frame.pastRead, hpc]
  case exit =>
    simp only [Bool.and_eq_true, decide_eq_true_eq, Bool.not_eq_true',
      Option.isNone_iff_eq_none] at hp
    simp [hp.1.1, hp.1.2, hp.2]
  case finished =>
    simp only [Bool.and_eq_true, decide_eq_true_eq, Bool.not_eq_true',
      Option.isNone_iff_eq_none] at hp
    simp [hp.1.1, hp.1.2, hp.2]
  all_goals first
    | exact ⟨hOK.1, hOK.2.1, hOK.2.2.1, trivial, trivial⟩
    | cases hp

theorem pastAdd_of_subDones_pos {fr : Frame} (hOK : FrameOK fr) (hp : 0 < fr.subDones) :
    fr.pastAdd = true := by
  cases hpc : fr.pc <;> simp only [FrameOK, hpc] at hOK <;> simp only [Frame.pastAdd, hpc]
  case exit =>
    rcases hOK with x | x | x | x
    · omega
    · omega
    · omega
    · simp [x.1, x.2.1, x.2.2.1]
  case finished =>
    rcases hOK with x | x | x | x
    · omega
    · omega
    · omega
    · simp [x.1, x.2.1, x.2.2.1]
  all_goals omega

theorem canned_preserved {f : fakeFetcher} {url0 : String} {depth0 : Int} {sm0 : SafeMap}
    (c : Config Unit) (p : Path) (c' : Config Unit) (_hI : Inv url0 depth0 sm0 c)
    (hC : ∀ q fr, getFr q c.pool = some fr → Canned f fr)
    (h : step f.toFetcher p c = some c') :
    ∀ q fr, getFr q c'.pool = some fr → Canned f fr := by
  obtain ⟨fr, fr', hfr, hu, _, _, hfe, hall⟩ := step_frames h
  intro q g hq
  rcases hall q g hq with ⟨_, rfl⟩ | hx | ⟨kf, hkf, hke, rfl⟩ | ⟨u, _, rfl, _, _⟩
  · intro hp
    rcases hfe hp with ⟨hpf, hb, hus, he⟩ | ⟨hb, hus, he⟩
    · obtain ⟨a, b, d⟩ := hC p fr hfr hpf
      rw [hb, hus, he, hu]
      exact ⟨a, b, d⟩
    · rw [hb, hus, he, hu]
      exact ⟨rfl, rfl, rfl⟩
  · exact hC q g hx
  · intro hp
    have : kf.pastFetch = true := by
      simpa [Frame.pastFetch, hke] using hp
    exact hC q kf hkf this
  · intro hp
    simp [Frame.pastFetch, Frame.call] at hp

theorem canned_reach (f : fakeFetcher) (url : String) (depth : Int) (sm : SafeMap)
    (sched : List Path) :
    ∀ q fr, getFr q (run f.toFetcher sched (init url depth sm ())).pool = some fr →
      Canned f fr := by
  refine run_invariant (P := fun c => ∀ q fr, getFr q c.pool = some fr → Canned f fr)
    canned_preserved sched _ (Inv.initial url depth sm ()) ?_
  intro q fr hq hp
  simp only [init, getFr] at hq
  split at hq
  · cases hq; simp [Frame.pastFetch, Frame.call] at hp
  · cases hq

theorem tree_parent {f : fakeFetcher} {url0 : String} {depth0 : Int} {q : Path} {fr : Frame}
    (hOK : FrameOK fr) (hC : Canned f fr) (hp : fr.pastAdd = true)
    {sf : Frame} {anc : List String} (hn : treeNode f url0 depth0 q = some (sf, anc))
    (hu : fr.url = sf.url) (hd : fr.depth = sf.depth)
    (hro : fr.pastRead = true → (fr.ok = true ↔ fr.url ∈ anc)) :
    sf.urls = fr.urls ∧ sf.subDones = fr.urls.length ∧ sf.pastAdd = true
      ∧ sf.err = none ∧ sf.body = fr.body ∧ sf.ok = false := by
  obtain ⟨hdp, hok, herr, hpf, hpr⟩ := pastAdd_facts hOK hp
  obtain ⟨hb, hus, he⟩ := hC hpf
  have hna : fr.url ∉ anc := by
    intro x
    have := (hro hpr).2 x
    rw [hok] at this; cases this
  have hsf := treeNode_final hn
  rw [← hu, ← hd] at hsf
  have hd' : ¬ fr.depth ≤ 0 := by omega
  have he' : (f.Fetch fr.url).err = none := by rw [← he]; exact herr
  rw [hsf]
  simp only [finalFrame, hd', if_false, hna, he', Option.isSome_none, Bool.false_eq_true,
    Frame.pastAdd, hdp]
  simp [hus, hb]

theorem ancestors_added {f : fakeFetcher} {url0 : String} {depth0 : Int} {sm0 : SafeMap}
    {c : Config Unit} (hI : Inv url0 depth0 sm0 c)
    (hT : ∀ q fr, getFr q c.pool = some fr → TreeOK f url0 depth0 q fr) :
    ∀ q fr sf anc, getFr q c.pool = some fr → treeNode f url0 depth0 q = some (sf, anc) →
      ∀ u ∈ anc, ∃ a fa, getFr a c.pool = some fa ∧ fa.url = u ∧ fa.pastAdd = true := by
  intro q
  induction q with
  | nil =>
    intro fr sf anc _ hn u hu
    simp only [treeNode, Option.some.injEq, Prod.mk.injEq] at hn
    rw [← hn.2] at hu
    cases hu
  | cons k q ih =>
    intro fr sf anc hfr hn u hu
    obtain ⟨pf, panc, hpn, _, _, hanc⟩ := treeNode_cons hn
    obtain ⟨pfr, hpfr, hlt⟩ := (hI.pool.kids q k).1 (by simp [hfr])
    obtain ⟨sf', anc', hn', hu', _, _⟩ := hT q pfr hpfr
    rw [hpn] at hn'
    simp only [Option.some.injEq, Prod.mk.injEq] at hn'
    obtain ⟨h1, h2⟩ := hn'
    subst h1; subst h2
    rw [hanc] at hu
    rcases List.mem_cons.1 hu with rfl | hu
    · exact ⟨q, pfr, hpfr, hu',
        pastAdd_of_subDones_pos (hI.pool.frame q pfr hpfr) (by omega)⟩
    · exact ih pfr pf panc hpfr hpn u hu

theorem read_determined {f : fakeFetcher} {url0 : String} {depth0 : Int} {N : Nat}
    (hrf : RaceFree f url0 depth0 N) {c : Config Unit} (hI : Inv url0 depth0 ⟨[]⟩ c)
    (hC : ∀ q fr, getFr q c.pool = some fr → Canned f fr)
    (hT : ∀ q fr, getFr q c.pool = some fr → TreeOK f url0 depth0 q fr)
    {p : Path} {fr : Frame} (hfr : getFr p c.pool = some fr) (hpc : fr.pc = PC.read)
    {sf : Frame} {anc : List String} (hn : treeNode f url0 depth0 p = some (sf, anc))
    (hu : fr.url = sf.url) (hd : fr.depth = sf.depth) :
    (c.safeMap.Read fr.url).2 = true ↔ fr.url ∈ anc := by
  rw [Read_ok_iff, keys_out hI]
  have hOK := hI.pool.frame p fr hfr
  simp only [FrameOK, hpc] at hOK
  constructor
  · rintro (hk | ⟨b, v, hadd⟩)
    · simp [SafeMap.keys] at hk
    · by_contra hna
      obtain ⟨frb, hfrb, hpa, hk, _⟩ := add_mem_out hI hadd
      have hOKb := hI.pool.frame b frb hfrb
      obtain ⟨hdb, hokb, herrb, hpfb, hprb⟩ := pastAdd_facts hOKb hpa
      obtain ⟨_, _, heb⟩ := hC b frb hfrb hpfb
      have hferr : (f.Fetch fr.url).err = none := by rw [hk, ← heb]; exact herrb
      -- the tree node of `p` inserts
      have hsf := treeNode_final hn
      rw [← hu, ← hd] at hsf
      have hpa1 : sf.pastAdd = true := by
        rw [hsf]; exact (finalFrame_pastAdd f anc fr.url fr.depth).2 ⟨hOK.1, hna, hferr⟩
      -- the tree node of `b` inserts
      obtain ⟨sfb, ancb, hnb, hub, hdb', hrob⟩ := hT b frb hfrb
      obtain ⟨_, _, hpa2, _⟩ := tree_parent hOKb (hC b frb hfrb) hpa hnb hub hdb' hrob
      have h1 : treeAdd f url0 depth0 p = some fr.url := by
        simp [treeAdd, hn, hpa1, hu]
      have h2 : treeAdd f url0 depth0 b = some fr.url := by
        simp [treeAdd, hnb, hpa2, ← hub, hk]
      have hp1 : p ∈ treePaths f url0 depth0 N :=
        (mem_treePaths f url0 depth0 hrf.1 p).2 (by simp [hn])
      have hp2 : b ∈ treePaths f url0 depth0 N :=
        (mem_treePaths f url0 depth0 hrf.1 b).2 (by simp [hnb])
      have hpb : p = b := filterMap_nodup_inj hrf.2.2 hp1 hp2 h1 h2
      subst hpb
      rw [hfr] at hfrb; cases hfrb
      simp [Frame.pastAdd, hpc] at hpa
  · intro hmem
    obtain ⟨a, fa, hfa, hua, hpa⟩ := ancestors_added hI hT p fr sf anc hfr hn fr.url hmem
    right
    exact ⟨a, fa.body, by rw [← hua]; exact add_of_pastAdd hI hfa hpa⟩

theorem tree_preserved {f : fakeFetcher} {url0 : String} {depth0 : Int} {N : Nat}
    (hrf : RaceFree f url0 depth0 N) (c : Config Unit) (p : Path) (c' : Config Unit)
    (hI : Inv url0 depth0 ⟨[]⟩ c)
    (hCT : (∀ q fr, getFr q c.pool = some fr → Canned f fr)
      ∧ ∀ q fr, getFr q c.pool = some fr → TreeOK f url0 depth0 q fr)
    (h : step f.toFetcher p c = some c') :
    (∀ q fr, getFr q c'.pool = some fr → Canned f fr)
      ∧ ∀ q fr, getFr q c'.pool = some fr → TreeOK f url0 depth0 q fr := by
  obtain ⟨hC, hT⟩ := hCT
  refine ⟨canned_preserved c p c' hI hC h, ?_⟩
  obtain ⟨fr, fr', hfr, hu, hd, hrd, _, hall⟩ := step_frames h
  intro q g hq
  rcases hall q g hq with ⟨rfl, rfl⟩ | hx | ⟨kf, hkf, hke, rfl⟩ | ⟨u, rfl, rfl, hpc, hget⟩
  · obtain ⟨sf, anc, hn, hus, hds, hro⟩ := hT q fr hfr
    refine ⟨sf, anc, hn, by rw [hu, hus], by rw [hd, hds], ?_⟩
    intro hp
    rcases hrd hp with ⟨hpr, hok⟩ | ⟨hpc, hok⟩
    · rw [hok, hu]; exact hro hpr
    · rw [hok, hu]
      exact read_determined hrf hI hC hT hfr hpc hn hus hds
  · exact hT q g hx
  · obtain ⟨sf, anc, hn, hus, hds, hro⟩ := hT q kf hkf
    refine ⟨sf, anc, hn, hus, hds, ?_⟩
    intro hp
    have : kf.pastRead = true := by simpa [Frame.pastRead, hke] using hp
    exact hro this
  · obtain ⟨sf, anc, hn, hus, hds, hro⟩ := hT p fr hfr
    have hOK := hI.pool.frame p fr hfr
    have hpa : fr.pastAdd = true := by simp [Frame.pastAdd, hpc]
    obtain ⟨h1, h2, _⟩ := tree_parent hOK (hC p fr hfr) hpa hn hus hds hro
    have hlen : fr.subDones < fr.urls.length := by
      rcases Nat.lt_or_ge fr.subDones fr.urls.length with hx | hx
      · exact hx
      · rw [List.getElem?_eq_none hx] at hget; cases hget
    have hu' : sf.urls.getD fr.subDones "" = u := by
      rw [h1, List.getD_eq_getElem?_getD, hget]; rfl
    refine ⟨finalFrame f (sf.url :: anc) u (sf.depth - 1), sf.url :: anc, ?_, ?_, ?_, ?_⟩
    · simp only [treeNode, hn]
      have : fr.subDones < sf.subDones := by omega
      simp only [this, if_true, hu']
    · rw [finalFrame_url]; rfl
    · rw [finalFrame_depth, ← hds]; rfl
    · intro hp
      simp [Frame.pastRead, Frame.call] at hp

theorem tree_reach {f : fakeFetcher} {url0 : String} {depth0 : Int} {N : Nat}
    (hrf : RaceFree f url0 depth0 N) (sched : List Path) :
    (∀ q fr, getFr q (run f.toFetcher sched (init url0 depth0 ⟨[]⟩ ())).pool = some fr →
      Canned f fr)
    ∧ ∀ q fr, getFr q (run f.toFetcher sched (init url0 depth0 ⟨[]⟩ ())).pool = some fr →
      TreeOK f url0 depth0 q fr := by
  refine run_invariant
    (P := fun c => (∀ q fr, getFr q c.pool = some fr → Canned f fr)
      ∧ ∀ q fr, getFr q c.pool = some fr → TreeOK f url0 depth0 q fr)
    (tree_preserved hrf) sched _ (Inv.initial url0 depth0 ⟨[]⟩ ()) ⟨?_, ?_⟩
  · intro q fr hq hp
    simp only [init, getFr] at hq
    split at hq
    · cases hq; simp [Frame.pastFetch, Frame.call] at hp
    · cases hq
  · intro q fr hq
    simp only [init, getFr] at hq
    split at hq
    · rename_i heq
      cases hq
      subst heq
      refine ⟨finalFrame f [] url0 depth0, [], rfl, ?_, ?_, ?_⟩
      · rw [finalFrame_url]; rfl
      · rw [finalFrame_depth]; rfl
      · intro hp; simp [Frame.pastRead, Frame.call] at hp
    · cases hq

/-! ### The outcome of a race-free run -/

theorem final_frame_eq {f : fakeFetcher} {url0 : String} {depth0 : Int} {q : Path} {fr : Frame}
    (hOK : FrameOK fr) (hC : Canned f fr) (hfin : fr.pc = PC.finished)
    {sf : Frame} {anc : List String} (hn : treeNode f url0 depth0 q = some (sf, anc))
    (hu : fr.url = sf.url) (hd : fr.depth = sf.depth)
    (hro : fr.pastRead = true → (fr.ok = true ↔ fr.url ∈ anc)) :
    fr.subDones = sf.subDones ∧ history q fr = history q sf ∧ fr.pastAdd = sf.pastAdd := by
  have hsf := treeNode_final hn
  rw [← hu, ← hd] at hsf
  have hpc : sf.pc = PC.finished := by rw [hsf]; exact finalFrame_pc _ _ _ _
  simp only [FrameOK, hfin] at hOK
  rcases hOK with ⟨h1, h2, h3, h4⟩ | ⟨h1, h2, h3, h4⟩ | ⟨h1, h2, h3, h4⟩ | ⟨h1, h2, h3, h4⟩
  · have e : sf = { Frame.call fr.url fr.depth with pc := PC.finished } := by
      rw [hsf]; simp [finalFrame, h1]
    have hnd : ¬ 0 < fr.depth := by omega
    rw [e]
    simp [history, hfin, exitHistory, h1, h4, Frame.call, Frame.pastAdd, hnd]
  · have hd' : ¬ fr.depth ≤ 0 := by omega
    have hpr : fr.pastRead = true := by simp [Frame.pastRead, hfin, h1]
    have hmem : fr.url ∈ anc := (hro hpr).1 h2
    have e : sf = { Frame.call fr.url fr.depth with pc := PC.finished, ok := true } := by
      rw [hsf]; simp [finalFrame, hd', hmem]
    rw [e]
    simp [history, hfin, exitHistory, hd', h2, h4, Frame.call, Frame.pastAdd]
  · have hd' : ¬ fr.depth ≤ 0 := by omega
    have hpr : fr.pastRead = true := by simp [Frame.pastRead, hfin, h1]
    have hpf : fr.pastFetch = true := by simp [Frame.pastFetch, hfin, h1, h2]
    have hna : fr.url ∉ anc := by
      intro x
      have := (hro hpr).2 x
      rw [h2] at this; cases this
    obtain ⟨hb, hus, he⟩ := hC hpf
    have he' : (f.Fetch fr.url).err.isSome = true := by rw [← he]; exact h3
    have e : sf = fr := by
      rw [hsf]
      simp only [finalFrame, hd', if_false, hna, he', if_true]
      obtain ⟨url, depth, pc, ok, body, urls, err, sub⟩ := fr
      simp only [Frame.mk.injEq, true_and]
      exact ⟨hfin.symm, h2.symm, hb.symm, hus.symm, he.symm, h4.symm⟩
    rw [e]
    exact ⟨rfl, rfl, rfl⟩
  · have hd' : ¬ fr.depth ≤ 0 := by omega
    have hpr : fr.pastRead = true := by simp [Frame.pastRead, hfin, h1]
    have hpf : fr.pastFetch = true := by simp [Frame.pastFetch, hfin, h1, h2]
    have hna : fr.url ∉ anc := by
      intro x
      have := (hro hpr).2 x
      rw [h2] at this; cases this
    obtain ⟨hb, hus, he⟩ := hC hpf
    have he' : (f.Fetch fr.url).err = none := by rw [← he]; exact h3
    have e : sf = fr := by
      rw [hsf]
      simp only [finalFrame, hd', if_false, hna, he', Option.isSome_none, Bool.false_eq_true]
      obtain ⟨url, depth, pc, ok, body, urls, err, sub⟩ := fr
      simp only [Frame.mk.injEq, true_and]
      have h4' : sub = urls.length := h4
      have hus' : urls = (f.Fetch url).urls := hus
      refine ⟨hfin.symm, h2.symm, hb.symm, hus.symm, ?_, ?_⟩
      · exact h3.symm
      · rw [h4', hus']
    rw [e]
    exact ⟨rfl, rfl, rfl⟩

theorem tree_started {f : fakeFetcher} {url0 : String} {depth0 : Int} {sm0 : SafeMap}
    {c : Config Unit} (hI : Inv url0 depth0 sm0 c) (hall : allDone c)
    (hC : ∀ q fr, getFr q c.pool = some fr → Canned f fr)
    (hT : ∀ q fr, getFr q c.pool = some fr → TreeOK f url0 depth0 q fr) :
    ∀ q, (treeNode f url0 depth0 q).isSome = true → (getFr q c.pool).isSome = true := by
  intro q
  induction q with
  | nil =>
    intro _
    obtain ⟨r, hr, _⟩ := hI.pool.root
    simp [hr]
  | cons k q ih =>
    intro hs
    cases hx : treeNode f url0 depth0 (k :: q) with
    | none => simp [hx] at hs
    | some x =>
      obtain ⟨sf, anc⟩ := x
      obtain ⟨pf, panc, hpn, hk, _, _⟩ := treeNode_cons hx
      have hq := ih (by simp [hpn])
      cases hfr : getFr q c.pool with
      | none => simp [hfr] at hq
      | some fr =>
        obtain ⟨sf', anc', hn', hu', hd', hro'⟩ := hT q fr hfr
        rw [hpn] at hn'
        simp only [Option.some.injEq, Prod.mk.injEq] at hn'
        obtain ⟨h1, h2⟩ := hn'
        subst h1; subst h2
        have hfin : fr.pc = PC.finished := hall (q, fr) (mem_of_getFr hfr)
        obtain ⟨hsub, _, _⟩ := final_frame_eq (hI.pool.frame q fr hfr) (hC q fr hfr) hfin hpn
          hu' hd' hro'
        exact (hI.pool.kids q k).2 ⟨fr, hfr, by omega⟩

theorem sum_map_ite_eq (keys : List Path) (hn : keys.Nodup) (a : Path) (ha : a ∈ keys)
    (x : Nat) : (keys.map (fun q => if a = q then x else 0)).sum = x := by
  induction keys with
  | nil => simp at ha
  | cons k ks ih =>
    simp only [List.nodup_cons] at hn
    simp only [List.map_cons, List.sum_cons]
    rcases List.mem_cons.1 ha with rfl | h
    · have : (ks.map (fun q => if a = q then x else 0)).sum = 0 := by
        rw [List.sum_eq_zero]
        intro y hy
        simp only [List.mem_map] at hy
        obtain ⟨q, hq, rfl⟩ := hy
        have : ¬ a = q := fun e => hn.1 (e ▸ hq)
        simp [this]
      simp [this]
    · have : ¬ a = k := fun e => hn.1 (e ▸ h)
      simp [this, ih hn.2 h]

theorem countP_partition (K : Event → Bool) (keys : List Path) (hn : keys.Nodup) :
    ∀ out : List Event, (∀ e ∈ out, e.branch ∈ keys) →
      out.countP K
        = (keys.map (fun q => (out.filter (fun e => e.branch = q)).countP K)).sum := by
  intro out
  induction out with
  | nil => intro _; simp
  | cons e es ih =>
    intro hall
    have hes := ih (fun x hx => hall x (List.mem_cons_of_mem _ hx))
    have he := hall e (List.mem_cons_self _ _)
    have key : ∀ q, ((e :: es).filter (fun e => e.branch = q)).countP K
        = (es.filter (fun e => e.branch = q)).countP K
          + (if e.branch = q then (if K e = true then 1 else 0) else 0) := by
      intro q
      by_cases hq : e.branch = q
      · simp [List.filter_cons, hq, List.countP_cons]
      · simp [List.filter_cons, hq]
    simp only [key, List.sum_map_add, ← hes, sum_map_ite_eq keys hn e.branch he,
      List.countP_cons]

theorem mapGet_replay (k v : String) :
    ∀ (out : List Event) (m : List (String × String)),
      mapGet k (replay m out) = some v → mapGet k m = some v ∨ ∃ b, Event.add b k v ∈ out := by
  intro out
  induction out with
  | nil => intro m h; exact Or.inl h
  | cons e es ih =>
    intro m h
    cases e with
    | add b' k' v' =>
      simp only [replay] at h
      rcases ih _ h with h1 | ⟨b, hb⟩
      · rw [mapGet_mapSet] at h1
        by_cases hk : k' = k
        · simp only [hk, if_true, Option.some.injEq] at h1
          subst hk; subst h1
          exact Or.inr ⟨b', by simp⟩
        · simp only [hk, if_false] at h1
          exact Or.inl h1
      · exact Or.inr ⟨b, List.mem_cons_of_mem _ hb⟩
    | _ =>
      simp only [replay] at h
      rcases ih _ h with h1 | ⟨b, hb⟩
      · exact Or.inl h1
      · exact Or.inr ⟨b, List.mem_cons_of_mem _ hb⟩

theorem raceFree_run {f : fakeFetcher} {url0 : String} {depth0 : Int} {N : Nat}
    (hrf : RaceFree f url0 depth0 N) (sched : List Path)
    (hall : allDone (run f.toFetcher sched (init url0 depth0 ⟨[]⟩ ()))) :
    (∀ q, (run f.toFetcher sched (init url0 depth0 ⟨[]⟩ ())).out.filter (fun e => e.branch = q)
        = treeHistory f url0 depth0 q)
    ∧ (∀ K : Event → Bool, (run f.toFetcher sched (init url0 depth0 ⟨[]⟩ ())).out.countP K
        = ((treePaths f url0 depth0 N).map
            (fun q => (treeHistory f url0 depth0 q).countP K)).sum)
    ∧ (∀ k, (run f.toFetcher sched (init url0 depth0 ⟨[]⟩ ())).safeMap.Read k
        = if k ∈ treeAdds f url0 depth0 N then ((f.Fetch k).body, true) else ("", false)) := by
  have hI := Inv.reach f.toFetcher url0 depth0 ⟨[]⟩ () sched
  obtain ⟨hC, hT⟩ := tree_reach hrf sched
  have hst := tree_started hI hall hC hT
  have hD1 : ∀ q, (run f.toFetcher sched (init url0 depth0 ⟨[]⟩ ())).out.filter
      (fun e => e.branch = q) = treeHistory f url0 depth0 q := by
    intro q
    rw [hI.hist q]
    cases hfr : getFr q (run f.toFetcher sched (init url0 depth0 ⟨[]⟩ ())).pool with
    | none =>
      cases hn : treeNode f url0 depth0 q with
      | none => simp [treeHistory, hn]
      | some x =>
        have := hst q (by simp [hn])
        simp [hfr] at this
    | some fr =>
      obtain ⟨sf, anc, hn, hu, hd, hro⟩ := hT q fr hfr
      have hfin : fr.pc = PC.finished := hall (q, fr) (mem_of_getFr hfr)
      obtain ⟨_, hh, _⟩ := final_frame_eq (hI.pool.frame q fr hfr) (hC q fr hfr) hfin hn hu hd hro
      simp [treeHistory, hn, hh]
  have hkeys : ∀ q, q ∈ (run f.toFetcher sched (init url0 depth0 ⟨[]⟩ ())).pool.map Prod.fst
      ↔ q ∈ treePaths f url0 depth0 N := by
    intro q
    rw [← getFr_isSome_iff, mem_treePaths f url0 depth0 hrf.1]
    constructor
    · intro hs
      cases hfr : getFr q (run f.toFetcher sched (init url0 depth0 ⟨[]⟩ ())).pool with
      | none => simp [hfr] at hs
      | some fr =>
        obtain ⟨sf, anc, hn, _⟩ := hT q fr hfr
        simp [hn]
    · exact hst q
  have hperm : ((run f.toFetcher sched (init url0 depth0 ⟨[]⟩ ())).pool.map Prod.fst).Perm
      (treePaths f url0 depth0 N) :=
    (List.perm_ext_iff_of_nodup hI.pool.nodup hrf.2.1).2 hkeys
  refine ⟨hD1, ?_, ?_⟩
  · intro K
    rw [countP_partition K _ hI.pool.nodup _ (fun e he => by
      obtain ⟨fr, hfr, _⟩ := mem_history_of_mem_out hI he
      exact (getFr_isSome_iff _ _).1 (by simp [hfr]))]
    simp only [hD1]
    exact (hperm.map _).sum_eq
  · intro k
    have hkey : k ∈ (run f.toFetcher sched (init url0 depth0 ⟨[]⟩ ())).safeMap.keys
        ↔ k ∈ treeAdds f url0 depth0 N := by
      rw [keys_out hI]
      simp only [SafeMap.keys, List.map_nil, List.not_mem_nil, false_or, treeAdds,
        List.mem_filterMap]
      constructor
      · rintro ⟨b, v, hadd⟩
        obtain ⟨fr, hfr, hpa, hk, _⟩ := add_mem_out hI hadd
        obtain ⟨sf, anc, hn, hu, hd, hro⟩ := hT b fr hfr
        have hfin : fr.pc = PC.finished := hall (b, fr) (mem_of_getFr hfr)
        obtain ⟨_, _, hp⟩ := final_frame_eq (hI.pool.frame b fr hfr) (hC b fr hfr) hfin hn hu
          hd hro
        refine ⟨b, (hkeys b).1 ((getFr_isSome_iff _ _).1 (by simp [hfr])), ?_⟩
        simp [treeAdd, hn, ← hp, hpa, ← hu, hk]
      · rintro ⟨q, hq, hta⟩
        cases hn : treeNode f url0 depth0 q with
        | none => simp [treeAdd, hn] at hta
        | some x =>
          obtain ⟨sf, anc⟩ := x
          simp only [treeAdd, hn] at hta
          by_cases hpa : sf.pastAdd = true
          · simp only [hpa, if_true, Option.some.injEq] at hta
            have hs := hst q (by simp [hn])
            cases hfr : getFr q (run f.toFetcher sched (init url0 depth0 ⟨[]⟩ ())).pool with
            | none => simp [hfr] at hs
            | some fr =>
              obtain ⟨sf', anc', hn', hu, hd, hro⟩ := hT q fr hfr
              rw [hn] at hn'
              simp only [Option.some.injEq, Prod.mk.injEq] at hn'
              obtain ⟨h1, h2⟩ := hn'
              subst h1; subst h2
              have hfin : fr.pc = PC.finished := hall (q, fr) (mem_of_getFr hfr)
              obtain ⟨_, _, hp⟩ := final_frame_eq (hI.pool.frame q fr hfr) (hC q fr hfr) hfin
                hn hu hd hro
              refine ⟨q, fr.body, ?_⟩
              rw [← hta, ← hu]
              exact add_of_pastAdd hI hfr (by rw [hp]; exact hpa)
          · simp [hpa] at hta
    by_cases hk : k ∈ treeAdds f url0 depth0 N
    · simp only [hk, if_true]
      have hin := hkey.2 hk
      unfold SafeMap.Read
      cases hg : mapGet k (run f.toFetcher sched (init url0 depth0 ⟨[]⟩ ())).safeMap.sMap with
      | none =>
        have := (mapGet_isSome_iff k _).2 hin
        simp [hg] at this
      | some v =>
        have hv : v = (f.Fetch k).body := by
          rw [hI.map] at hg
          rcases mapGet_replay k v _ _ hg with h0 | ⟨b, hadd⟩
          · simp [mapGet] at h0
          · obtain ⟨fr, hfr, hpa, hku, hvb⟩ := add_mem_out hI hadd
            obtain ⟨_, _, _, hpf, _⟩ := pastAdd_facts (hI.pool.frame b fr hfr) hpa
            rw [hvb, hku]
            exact (hC b fr hfr hpf).1
        simp [hv]
    · simp only [hk, if_false]
      have hnin : ¬ k ∈ (run f.toFetcher sched (init url0 depth0 ⟨[]⟩ ())).safeMap.keys :=
        fun x => hk (hkey.1 x)
      unfold SafeMap.Read
      cases hg : mapGet k (run f.toFetcher sched (init url0 depth0 ⟨[]⟩ ())).safeMap.sMap with
      | none => rfl
      | some v =>
        exfalso
        exact hnin ((mapGet_isSome_iff k _).1 (by simp [hg]))

/-! ## The claims -/

/-- C2: in every run, the completion signal of a call `b` comes after the completion
signals of all the goroutines `b` has started; the signal of the top-level call is the last
action of the run and comes after the signal of every goroutine started in the run, whatever
its generation; and every goroutine other than the top-level call was started by a recorded
`go` statement of its parent. -/
theorem Crawl_signals_after_children (F : Fetcher σ) (url : String) (depth : Int)
    (sm : SafeMap) (fs : σ) (sched : List Path) :
    (∀ pre post b, (Crawl F url depth sm fs sched).out = pre ++ Event.signal b :: post →
      ∀ ch u d, Event.spawn b ch u d ∈ (Crawl F url depth sm fs sched).out →
        Event.signal ch ∈ pre)
    ∧ (∀ pre post, (Crawl F url depth sm fs sched).out = pre ++ Event.signal [] :: post →
        post = [] ∧ ∀ b ch u d, Event.spawn b ch u d ∈ (Crawl F url depth sm fs sched).out →
          Event.signal ch ∈ pre)
    ∧ (∀ q k kf, getFr (k :: q) (Crawl F url depth sm fs sched).pool = some kf →
        Event.spawn q (k :: q) kf.url kf.depth ∈ (Crawl F url depth sm fs sched).out) := by
  unfold Crawl
  have hI := Inv.reach F url depth sm fs sched
  obtain ⟨hO, hL⟩ := order_reach F url depth sm fs sched
  refine ⟨hO, ?_, ?_⟩
  · intro pre post heq
    have hmem : Event.signal [] ∈ (run F sched (init url depth sm fs)).out := by
      rw [heq]; simp
    have hlast := hL hmem
    have hcnt : (run F sched (init url depth sm fs)).out.count (Event.signal []) ≤ 1 :=
      count_signal_le_one hI []
    have hpost : post = [] := by
      rcases List.eq_nil_or_concat post with hp | ⟨post', x, hp⟩
      · exact hp
      · exfalso
        subst hp
        rw [heq] at hlast hcnt
        rw [List.concat_eq_append] at hlast hcnt
        have hx : x = Event.signal [] := by
          have e1 : pre ++ Event.signal [] :: (post' ++ [x])
              = (pre ++ Event.signal [] :: post') ++ [x] := by simp
          rw [e1, List.getLast?_append] at hlast
          simpa using hlast
        subst hx
        simp [List.count_append, List.count_cons] at hcnt
        omega
    refine ⟨hpost, ?_⟩
    subst hpost
    intro b ch u d hsp
    obtain ⟨fr, k, kf, hfr, hk, hch, hkf⟩ := spawn_mem_out hI hsp
    obtain ⟨r, hr, hfin⟩ := (signal_mem_iff hI []).1 hmem
    have hbf : fr.pc = PC.finished := by
      by_cases hb : b = []
      · subst hb; rw [hr] at hfr; cases hfr; exact hfin
      · exact all_finished_of_root hI.pool hr (Or.inr hfin) b fr hb hfr
    have hs := children_signalled hI hfr (Or.inr hbf) ch u d hsp
    rw [heq] at hs
    simp only [List.mem_append, List.mem_singleton] at hs
    rcases hs with hs | hs
    · exact hs
    · subst hch; cases hs
  · intro q k kf hk
    obtain ⟨_, _, _, h⟩ := spawn_event_of_kid hI hk
    exact h

/-- C7: for every fetcher (a total `Fetch`: every call returns, with a result or an error),
every depth and every schedule, a run of `Crawl` terminates.  No infinite sequence of steps
exists from any state; a child has depth exactly one less than its parent, whose depth is
positive, so that a call with `depth <= 0` starts nothing; as long as some goroutine has not
returned some goroutine can act, so that no call waits forever on a child; and every run can
be continued to a state where all goroutines have returned. -/
theorem Crawl_terminates (F : Fetcher σ) (url : String) (depth : Int) (sm : SafeMap) (fs : σ)
    (sched : List Path) :
    WellFounded (Next F)
    ∧ (∀ q k fr kf, getFr q (Crawl F url depth sm fs sched).pool = some fr →
        getFr (k :: q) (Crawl F url depth sm fs sched).pool = some kf →
        kf.depth = fr.depth - 1 ∧ 0 < fr.depth)
    ∧ (¬ allDone (Crawl F url depth sm fs sched) →
        ∃ p c', step F p (Crawl F url depth sm fs sched) = some c')
    ∧ ∃ rest, allDone (Crawl F url depth sm fs (sched ++ rest)) := by
  unfold Crawl
  have hI := Inv.reach F url depth sm fs sched
  refine ⟨Next_wf F, ?_, ?_, ?_⟩
  · intro q k fr kf hfr hk
    obtain ⟨_, b, _, _, _⟩ := hI.pool.kid q k fr kf hfr hk
    refine ⟨b, ?_⟩
    obtain ⟨fr', hfr', hlt⟩ := (hI.pool.kids q k).1 (by simp [hk])
    rw [hfr] at hfr'; cases hfr'
    have hOK := hI.pool.frame q fr hfr
    cases hpc : fr.pc <;> simp only [FrameOK, hpc] at hOK <;> omega
  · intro hnd
    by_contra hno
    apply hnd
    apply stuck_allDone hI.pool (F := F)
    intro p
    cases hp : step F p (run F sched (init url depth sm fs)) with
    | none => rfl
    | some c' => exact absurd ⟨p, c', hp⟩ hno
  · obtain ⟨rest, hr⟩ := exists_completion F (run F sched (init url depth sm fs))
    refine ⟨rest, ?_⟩
    rw [run_append]
    exact stuck_allDone (Inv.along rest hI).pool hr

/-- C3: a call `Crawl(url, 0, ...)`, for every url, fetcher, map and schedule, leaves the
map and the fetcher untouched (no `Fetch` call), starts no goroutine, performs no action
other than its completion signal (no observation is printed), and signals: its trace is
`[signal []]` as soon as it has returned, which it has after its two steps. -/
theorem Crawl_depth_zero (F : Fetcher σ) (url : String) (sm : SafeMap) (fs : σ)
    (sched : List Path) :
    (Crawl F url 0 sm fs sched).safeMap = sm
    ∧ (Crawl F url 0 sm fs sched).fs = fs
    ∧ (Crawl F url 0 sm fs sched).pool.map Prod.fst = [[]]
    ∧ (∀ e ∈ (Crawl F url 0 sm fs sched).out, e = Event.signal [])
    ∧ (allDone (Crawl F url 0 sm fs sched) →
        (Crawl F url 0 sm fs sched).out = [Event.signal []])
    ∧ allDone (Crawl F url 0 sm fs (sched ++ [[], []])) := by
  unfold Crawl
  have h2 : allDone (run F (sched ++ [[], []]) (init url 0 sm fs)) := by
    rw [run_append]
    rcases run_depth_nonpos F url (le_refl (0 : Int)) sm fs sched with h | h | h <;> rw [h] <;>
      simp [run, step, getFr, setFr, init, Frame.call, allDone]
  rcases run_depth_nonpos F url (le_refl (0 : Int)) sm fs sched with h | h | h
  · refine ⟨?_, ?_, ?_, ?_, ?_, h2⟩ <;> rw [h] <;> simp [init, allDone, Frame.call]
  · refine ⟨?_, ?_, ?_, ?_, ?_, h2⟩ <;> rw [h] <;> simp [allDone, Frame.call]
  · refine ⟨?_, ?_, ?_, ?_, ?_, h2⟩ <;> rw [h] <;> simp [allDone, Frame.call]

/-- C4: (a) when `Crawl(url, depth, ...)` is called with `depth > 0`, `url` not in the map
and `Fetch(url)` returning an error, then along every schedule the map stays as it was, no
goroutine is started, and the call does nothing but its `Read`, its `Fetch`, the `Println`
of the error and its completion signal, all four done once it has returned.
(b) In every run, a goroutine whose `Fetch` returned an error performs only those four
actions (no `Add`, no `found:` line, no `go`), has no child, and has signalled once all
goroutines have returned; every `Add` records the body of a successful `Fetch` of the same
goroutine; once all goroutines have returned every successfully fetched url is a key of the
map; and a url that was not in the initial map and whose fetches all failed is not a key. -/
theorem Crawl_fetch_error (F : Fetcher σ) (url : String) (depth : Int) (sm : SafeMap) (fs : σ)
    (sched : List Path) :
    (0 < depth → url ∉ sm.keys → (F.Fetch fs url).2.err.isSome = true →
      (Crawl F url depth sm fs sched).safeMap = sm
      ∧ (Crawl F url depth sm fs sched).pool.map Prod.fst = [[]]
      ∧ (∃ n, (Crawl F url depth sm fs sched).out
          = List.take n [Event.read [] url false, Event.fetch [] url (F.Fetch fs url).2,
              Event.println [] ((F.Fetch fs url).2.err.getD ""), Event.signal []])
      ∧ (allDone (Crawl F url depth sm fs sched) →
          (Crawl F url depth sm fs sched).out
            = [Event.read [] url false, Event.fetch [] url (F.Fetch fs url).2,
                Event.println [] ((F.Fetch fs url).2.err.getD ""), Event.signal []]))
    ∧ (∀ b u r, Event.fetch b u r ∈ (Crawl F url depth sm fs sched).out →
        r.err.isSome = true →
        (∀ e ∈ (Crawl F url depth sm fs sched).out, e.branch = b →
          e = Event.read b u false ∨ e = Event.fetch b u r
            ∨ e = Event.println b (r.err.getD "") ∨ e = Event.signal b)
        ∧ (∀ k, getFr (k :: b) (Crawl F url depth sm fs sched).pool = none)
        ∧ (allDone (Crawl F url depth sm fs sched) →
            Event.signal b ∈ (Crawl F url depth sm fs sched).out))
    ∧ (∀ b k v, Event.add b k v ∈ (Crawl F url depth sm fs sched).out →
        ∃ r, Event.fetch b k r ∈ (Crawl F url depth sm fs sched).out
          ∧ r.err = none ∧ r.body = v)
    ∧ (allDone (Crawl F url depth sm fs sched) →
        ∀ b u r, Event.fetch b u r ∈ (Crawl F url depth sm fs sched).out → r.err = none →
          u ∈ (Crawl F url depth sm fs sched).safeMap.keys)
    ∧ (∀ k, k ∉ sm.keys →
        (∀ b r, Event.fetch b k r ∈ (Crawl F url depth sm fs sched).out →
          r.err.isSome = true) →
        k ∉ (Crawl F url depth sm fs sched).safeMap.keys) := by
  unfold Crawl
  have hI := Inv.reach F url depth sm fs sched
  have hadd : ∀ b k v, Event.add b k v ∈ (run F sched (init url depth sm fs)).out →
      ∃ r, Event.fetch b k r ∈ (run F sched (init url depth sm fs)).out
        ∧ r.err = none ∧ r.body = v := by
    intro b k v h
    obtain ⟨fr, hfr, hp, hk, hv⟩ := add_mem_out hI h
    have hOK := hI.pool.frame b fr hfr
    have hpf : fr.pastFetch = true ∧ fr.err = none := by
      cases hpc : fr.pc <;> simp only [FrameOK, hpc] at hOK <;>
        simp only [Frame.pastAdd, hpc] at hp <;> simp only [Frame.pastFetch, hpc]
      case exit =>
        simp only [Bool.and_eq_true, decide_eq_true_eq, Bool.not_eq_true',
          Option.isNone_iff_eq_none] at hp
        simp [hp.1.1, hp.1.2, hp.2]
      case finished =>
        simp only [Bool.and_eq_true, decide_eq_true_eq, Bool.not_eq_true',
          Option.isNone_iff_eq_none] at hp
        simp [hp.1.1, hp.1.2, hp.2]
      all_goals first
        | exact ⟨trivial, hOK.2.2.1⟩
        | cases hp
    refine ⟨⟨fr.body, fr.urls, fr.err⟩, ?_, hpf.2, hv.symm⟩
    rw [hk]
    exact fetch_of_pastFetch hI hfr hpf.1
  refine ⟨fun hd hk he => run_fetch_error F url hd sm hk fs he sched, ?_, hadd, ?_, ?_⟩
  · intro b u r h he
    obtain ⟨fr, hfr, hp, hu, hr⟩ := fetch_mem_out hI h
    have hOK := hI.pool.frame b fr hfr
    have herr : fr.err.isSome = true := by rw [hr] at he; exact he
    have hne : fr.err ≠ none := by
      intro x; rw [x] at herr; cases herr
    have hfacts := pastFetch_facts hOK hp
    have hd : ¬ fr.depth ≤ 0 := by omega
    have hsub : fr.subDones = 0 := by
      cases hpc : fr.pc <;> simp only [FrameOK, hpc] at hOK
      case exit =>
        rcases hOK with x | x | x | x
        · exact x.2.2.2
        · exact x.2.2.2
        · exact x.2.2.2
        · exact absurd x.2.2.1 hne
      case finished =>
        rcases hOK with x | x | x | x
        · exact x.2.2.2
        · exact x.2.2.2
        · exact x.2.2.2
        · exact absurd x.2.2.1 hne
      case spawn => exact absurd hOK.2.2.1 hne
      case wait j => exact absurd hOK.2.2.1 hne
      all_goals first
        | exact hOK.2.2.2
        | exact hOK.2.2
    have hpcs : fr.pc = PC.printErr ∨ fr.pc = PC.exit ∨ fr.pc = PC.finished := by
      cases hpc : fr.pc <;> simp only [FrameOK, hpc] at hOK <;>
        simp only [Frame.pastFetch, hpc] at hp
      case printErr => exact Or.inl rfl
      case exit => exact Or.inr (Or.inl rfl)
      case finished => exact Or.inr (Or.inr rfl)
      all_goals first
        | exact absurd hOK.2.2.1 hne
        | cases hp
    refine ⟨?_, ?_, ?_⟩
    · intro e hmem hb
      obtain ⟨fr', hfr', hm⟩ := mem_history_of_mem_out hI hmem
      rw [hb, hfr] at hfr'; cases hfr'
      rw [hb] at hm
      subst hu; subst hr
      rcases hpcs with hpc | hpc | hpc
      · simp only [history, hpc, List.mem_cons, List.mem_singleton, List.not_mem_nil,
          or_false] at hm
        rcases hm with x | x
        · exact Or.inl x
        · exact Or.inr (Or.inl x)
      · simp only [history, hpc, exitHistory, hd, if_false, hfacts.2, Bool.false_eq_true,
          herr, if_true, List.mem_cons, List.mem_singleton, List.not_mem_nil, or_false] at hm
        rcases hm with x | x | x
        · exact Or.inl x
        · exact Or.inr (Or.inl x)
        · exact Or.inr (Or.inr (Or.inl x))
      · simp only [history, hpc, exitHistory, hd, if_false, hfacts.2, Bool.false_eq_true,
          herr, if_true, List.mem_cons, List.mem_singleton, List.not_mem_nil, or_false,
          List.mem_append] at hm
        rcases hm with (x | x | x) | x
        · exact Or.inl x
        · exact Or.inr (Or.inl x)
        · exact Or.inr (Or.inr (Or.inl x))
        · exact Or.inr (Or.inr (Or.inr x))
    · intro k
      cases hk : getFr (k :: b) (run F sched (init url depth sm fs)).pool with
      | none => rfl
      | some kf =>
        obtain ⟨f0, hf0, hlt⟩ := (hI.pool.kids b k).1 (by simp [hk])
        rw [hfr] at hf0; cases hf0; omega
    · intro hall
      exact (signal_mem_iff hI b).2 ⟨fr, hfr, hall (b, fr) (mem_of_getFr hfr)⟩
  · intro hall b u r h he
    obtain ⟨fr, hfr, hp, hu, hr⟩ := fetch_mem_out hI h
    have hfin : fr.pc = PC.finished := hall (b, fr) (mem_of_getFr hfr)
    have herr : fr.err = none := by rw [hr] at he; exact he
    have hpa : fr.pastAdd = true := by
      simp only [Frame.pastFetch, hfin] at hp
      simp only [Frame.pastAdd, hfin, hp, herr]
      rfl
    rw [keys_out hI, hu]
    exact Or.inr ⟨b, fr.body, add_of_pastAdd hI hfr hpa⟩
  · intro k hk hfail hmem
    rw [keys_out hI] at hmem
    rcases hmem with hmem | ⟨b, v, hmem⟩
    · exact hk hmem
    · obtain ⟨r, hr, he, _⟩ := hadd b k v hmem
      have := hfail b r hr
      rw [he] at this; cases this

/-- C5, as stated, fails: with page `A` linking to `B` twice, `Crawl("A", 2, ...)` on an
empty map has a run, ending with all goroutines returned, in which `B` is inserted twice
and reported twice, once by each of the two goroutines started for it. -/
theorem Crawl_race_inserts_twice :
    allDone (Crawl raceFetcher.toFetcher "A" 2 ⟨[]⟩ () raceSched)
    ∧ (Crawl raceFetcher.toFetcher "A" 2 ⟨[]⟩ () raceSched).out.count
        (Event.add [0] "B" "b") = 1
    ∧ (Crawl raceFetcher.toFetcher "A" 2 ⟨[]⟩ () raceSched).out.count
        (Event.add [1] "B" "b") = 1
    ∧ (Crawl raceFetcher.toFetcher "A" 2 ⟨[]⟩ () raceSched).out.count
        (Event.found [0] "B" "b") = 1
    ∧ (Crawl raceFetcher.toFetcher "A" 2 ⟨[]⟩ () raceSched).out.count
        (Event.found [1] "B" "b") = 1 := by
  decide

/-- C5, amended: in every run, started on any map, the key set of the map only grows (a key
once present stays present); no goroutine inserts or reports more than once; a `Read` of `k`
finds it exactly when `k` was in the initial map or was inserted before that `Read`; a
goroutine whose `Read` found its url does nothing but signal; and whenever `k` is inserted,
every later insertion of `k` is by a goroutine whose `Read` of `k` came before that first
insertion. -/
theorem Crawl_dedup (F : Fetcher σ) (url : String) (depth : Int) (sm : SafeMap) (fs : σ)
    (sched : List Path) :
    (∀ rest k, k ∈ (Crawl F url depth sm fs sched).safeMap.keys →
      k ∈ (Crawl F url depth sm fs (sched ++ rest)).safeMap.keys)
    ∧ (∀ b, ((Crawl F url depth sm fs sched).out.filter
          (fun e => e.isAdd && decide (e.branch = b))).length ≤ 1
        ∧ ((Crawl F url depth sm fs sched).out.filter
          (fun e => e.isFound && decide (e.branch = b))).length ≤ 1)
    ∧ (∀ pre post b k ok,
        (Crawl F url depth sm fs sched).out = pre ++ Event.read b k ok :: post →
        (ok = true ↔ k ∈ sm.keys ∨ ∃ b' v, Event.add b' k v ∈ pre))
    ∧ (∀ b k, Event.read b k true ∈ (Crawl F url depth sm fs sched).out →
        ∀ e ∈ (Crawl F url depth sm fs sched).out, e.branch = b →
          e = Event.read b k true ∨ e = Event.signal b)
    ∧ (∀ pre post b k v,
        (Crawl F url depth sm fs sched).out = pre ++ Event.add b k v :: post →
        Event.read b k false ∈ pre
          ∧ ∀ b' v', Event.add b' k v' ∈ post → Event.read b' k false ∈ pre) := by
  unfold Crawl
  have hI := Inv.reach F url depth sm fs sched
  obtain ⟨hR, hA⟩ := reads_reach F url depth sm fs sched
  refine ⟨?_, ?_, hR, ?_, ?_⟩
  · intro rest k hk
    rw [run_append]
    exact keys_run F rest _ k hk
  · intro b
    rw [countP_branch hI, countP_branch hI]
    cases getFr b (run F sched (init url depth sm fs)).pool with
    | none => simp
    | some fr =>
      simp only [history_filter_isAdd, history_filter_isFound]
      constructor <;> split <;> simp
  · intro b k hmem e he hb
    obtain ⟨fr, hfr, hm⟩ := mem_history_of_mem_out hI hmem
    obtain ⟨fr', hfr', hm'⟩ := mem_history_of_mem_out hI he
    rw [hb] at hfr' hm'
    simp only [Event.branch] at hfr hm
    rw [hfr] at hfr'; cases hfr'
    exact read_true_mem_history hm e hm'
  · intro pre post b k v heq
    exact ⟨hA pre post b k v heq, later_adds_read_before hR hA heq⟩

/-- C10: deduplication ignores the remaining depth.  For the graph `A -> [B, C]`,
`B -> [C]`, `C -> [D]`, `D -> []` (every fetch succeeds), `Crawl("A", 3, ...)` on an empty
map has a run, ending with all goroutines returned, in which the subtree of `B` runs before
the child of `A` for `C` reads the map: `C` is recorded by the goroutine of depth 1, whose
child for `D` has depth 0; the child of `A` for `C`, of depth 2, finds `C` in the map; the
final keys are `A`, `B`, `C`, and `D` is neither fetched nor recorded, although `D` is two
edges from `A` and its fetch would succeed. -/
theorem Crawl_incomplete_for_depth :
    allDone (Crawl deepFetcher.toFetcher "A" 3 ⟨[]⟩ () deepSched)
    ∧ (Crawl deepFetcher.toFetcher "A" 3 ⟨[]⟩ () deepSched).safeMap.keys = ["A", "B", "C"]
    ∧ (Crawl deepFetcher.toFetcher "A" 3 ⟨[]⟩ () deepSched).out.filter Event.isFetch
        = [Event.fetch [] "A" (deepFetcher.Fetch "A"), Event.fetch [0] "B" (deepFetcher.Fetch "B"),
           Event.fetch [0, 0] "C" (deepFetcher.Fetch "C")]
    ∧ Event.spawn [0, 0] [0, 0, 0] "D" 0
        ∈ (Crawl deepFetcher.toFetcher "A" 3 ⟨[]⟩ () deepSched).out
    ∧ Event.read [1] "C" true ∈ (Crawl deepFetcher.toFetcher "A" 3 ⟨[]⟩ () deepSched).out
    ∧ "C" ∈ (deepFetcher.Fetch "A").urls ∧ "D" ∈ (deepFetcher.Fetch "C").urls
    ∧ (deepFetcher.Fetch "D").err = none := by
  decide

/-- C8: in every run, a goroutine `b` whose `Fetch` succeeded with edge list `r.urls` was
called with depth at least 1 and did not find its url in the map; the `go` statements it
has executed are, in order, `go Crawl(r.urls[i], depth - 1, ...)` for `i = 0, 1, ...` below
the number of channels made so far, each started goroutine being present with that url and
depth, nothing skipped or filtered; once it has left its spawn loop that number is
`len(r.urls)`.  Every `go` statement of the run is one of these.  Hence, when the run is
started with a depth `D >= 0`, every goroutine `b` has depth `D - len(b)`, between 0 and
`D`.  The children are in fact spawned: every run can be continued to a completed one that
keeps the actions made so far and in which every goroutine `b` whose `Fetch` succeeded with
`r.urls` has executed exactly the `len(r.urls)` statements `go Crawl(r.urls[i], d - 1, ...)`,
`d = D - len(b) >= 1` its depth, in the order of `r.urls`, the `i`-th child being present
with that url and depth; and when `Crawl(url, depth, ...)` is called with `depth > 0`, `url`
not in the map and a fetcher whose first call `Fetch(url)` succeeds with `urls`, that
completed run holds this `Fetch` call of the top-level goroutine and its `len(urls)`
statements `go Crawl(urls[i], depth - 1, ...)`.  The same holds of every completed run. -/
theorem Crawl_spawns_every_edge (F : Fetcher σ) (url : String) (depth : Int) (sm : SafeMap)
    (fs : σ) (sched : List Path) :
    (∀ b u r, Event.fetch b u r ∈ (Crawl F url depth sm fs sched).out → r.err = none →
      ∃ fr, getFr b (Crawl F url depth sm fs sched).pool = some fr
        ∧ fr.url = u ∧ 1 ≤ fr.depth
        ∧ Event.read b u false ∈ (Crawl F url depth sm fs sched).out
        ∧ fr.subDones ≤ r.urls.length
        ∧ (Crawl F url depth sm fs sched).out.filter
            (fun e => e.isSpawn && decide (e.branch = b))
          = (List.range fr.subDones).map
              (fun i => Event.spawn b (i :: b) (r.urls.getD i "") (fr.depth - 1))
        ∧ (∀ i, i < fr.subDones →
            ∃ kf, getFr (i :: b) (Crawl F url depth sm fs sched).pool = some kf
              ∧ kf.url = r.urls.getD i "" ∧ kf.depth = fr.depth - 1)
        ∧ ((fr.pc = PC.exit ∨ fr.pc = PC.finished ∨ ∃ j, fr.pc = PC.wait j) →
            fr.subDones = r.urls.length))
    ∧ (∀ b ch u d, Event.spawn b ch u d ∈ (Crawl F url depth sm fs sched).out →
        ∃ v r i, Event.fetch b v r ∈ (Crawl F url depth sm fs sched).out ∧ r.err = none
          ∧ ch = i :: b ∧ r.urls[i]? = some u)
    ∧ (0 ≤ depth → ∀ b fr, getFr b (Crawl F url depth sm fs sched).pool = some fr →
        fr.depth = depth - b.length ∧ 0 ≤ fr.depth ∧ fr.depth ≤ depth)
    ∧ (∃ rest, allDone (Crawl F url depth sm fs (sched ++ rest))
        ∧ (∀ e, e ∈ (Crawl F url depth sm fs sched).out →
            e ∈ (Crawl F url depth sm fs (sched ++ rest)).out)
        ∧ (∀ b u r, Event.fetch b u r ∈ (Crawl F url depth sm fs (sched ++ rest)).out →
            r.err = none →
            1 ≤ depth - b.length
            ∧ (Crawl F url depth sm fs (sched ++ rest)).out.filter
                (fun e => e.isSpawn && decide (e.branch = b))
              = (List.range r.urls.length).map
                  (fun i => Event.spawn b (i :: b) (r.urls.getD i "") (depth - b.length - 1))
            ∧ (∀ i, i < r.urls.length →
                ∃ kf, getFr (i :: b) (Crawl F url depth sm fs (sched ++ rest)).pool = some kf
                  ∧ kf.url = r.urls.getD i "" ∧ kf.depth = depth - b.length - 1))
        ∧ (0 < depth → (sm.Read url).2 = false → (F.Fetch fs url).2.err = none →
            Event.fetch [] url (F.Fetch fs url).2
              ∈ (Crawl F url depth sm fs (sched ++ rest)).out
            ∧ (Crawl F url depth sm fs (sched ++ rest)).out.filter
                (fun e => e.isSpawn && decide (e.branch = []))
              = (List.range (F.Fetch fs url).2.urls.length).map
                  (fun i => Event.spawn [] [i] ((F.Fetch fs url).2.urls.getD i "") (depth - 1))
            ∧ (∀ i, i < (F.Fetch fs url).2.urls.length →
                ∃ kf, getFr [i] (Crawl F url depth sm fs (sched ++ rest)).pool = some kf
                  ∧ kf.url = (F.Fetch fs url).2.urls.getD i "" ∧ kf.depth = depth - 1)))
    ∧ (allDone (Crawl F url depth sm fs sched) → 0 < depth → (sm.Read url).2 = false →
        (F.Fetch fs url).2.err = none →
        Event.fetch [] url (F.Fetch fs url).2 ∈ (Crawl F url depth sm fs sched).out
        ∧ (Crawl F url depth sm fs sched).out.filter
            (fun e => e.isSpawn && decide (e.branch = []))
          = (List.range (F.Fetch fs url).2.urls.length).map
              (fun i => Event.spawn [] [i] ((F.Fetch fs url).2.urls.getD i "") (depth - 1))
        ∧ (∀ i, i < (F.Fetch fs url).2.urls.length →
            ∃ kf, getFr [i] (Crawl F url depth sm fs sched).pool = some kf
              ∧ kf.url = (F.Fetch fs url).2.urls.getD i "" ∧ kf.depth = depth - 1)) := by
  unfold Crawl
  have hI := Inv.reach F url depth sm fs sched
  have hroot : ∀ s : List Path, allDone (run F s (init url depth sm fs)) → 0 < depth →
      (sm.Read url).2 = false → (F.Fetch fs url).2.err = none →
      Event.fetch [] url (F.Fetch fs url).2 ∈ (run F s (init url depth sm fs)).out
      ∧ (run F s (init url depth sm fs)).out.filter
          (fun e => e.isSpawn && decide (e.branch = []))
        = (List.range (F.Fetch fs url).2.urls.length).map
            (fun i => Event.spawn [] [i] ((F.Fetch fs url).2.urls.getD i "") (depth - 1))
      ∧ (∀ i, i < (F.Fetch fs url).2.urls.length →
          ∃ kf, getFr [i] (run F s (init url depth sm fs)).pool = some kf
            ∧ kf.url = (F.Fetch fs url).2.urls.getD i "" ∧ kf.depth = depth - 1) := by
    intro s hdone hd hm he
    have hf := root_fetched hd hm hdone
    have h := spawns_of_fetch_done (Inv.reach F url depth sm fs s) hdone hf he
    simp only [List.length_nil, Nat.cast_zero, sub_zero] at h
    exact ⟨hf, h.2.1, h.2.2⟩
  refine ⟨?_, ?_, ?_, ?_, hroot sched⟩
  · intro b u r h he
    exact spawns_of_fetch hI h he
  · intro b ch u d h
    have hf : Event.spawn b ch u d
        ∈ (run F sched (init url depth sm fs)).out.filter (fun e => e.branch = b) := by
      simp [List.mem_filter, h, Event.branch]
    rw [hI.hist b] at hf
    cases hfr : getFr b (run F sched (init url depth sm fs)).pool with
    | none => simp [hfr] at hf
    | some fr =>
      simp only [hfr] at hf
      have hOK := hI.pool.frame b fr hfr
      have hsp := mem_filter_kind hf (K := Event.isSpawn) rfl
      rw [history_filter_isSpawn b fr hOK] at hsp
      simp only [spawnEvents, List.mem_map, List.mem_range, Event.spawn.injEq] at hsp
      obtain ⟨i, hi, _, hch, hu, _⟩ := hsp
      obtain ⟨_, _, herr, hpf⟩ := parent_depth_pos hI.pool hfr (by omega)
      have hlen : i < fr.urls.length := by
        cases hpc : fr.pc <;> simp only [FrameOK, hpc] at hOK
        case exit => rcases hOK with x | x | x | x <;> omega
        case finished => rcases hOK with x | x | x | x <;> omega
        all_goals omega
      refine ⟨fr.url, ⟨fr.body, fr.urls, fr.err⟩, i, fetch_of_pastFetch hI hfr hpf, herr,
        hch.symm, ?_⟩
      rw [← hu, List.getD_eq_getElem?_getD, List.getElem?_eq_getElem hlen]
      rfl
  · intro hD b fr hfr
    have hd := depth_eq hI.pool b fr hfr
    refine ⟨hd, ?_, by omega⟩
    cases b with
    | nil => simp at hd; omega
    | cons k q =>
      obtain ⟨pf, hpf, hlt⟩ := (hI.pool.kids q k).1 (by simp [hfr])
      obtain ⟨_, hkd, _⟩ := hI.pool.kid q k pf fr hpf hfr
      have := (parent_depth_pos hI.pool hpf (by omega)).1
      omega
  · obtain ⟨rest, hst⟩ := exists_completion F (run F sched (init url depth sm fs))
    rw [← run_append] at hst
    have hI2 := Inv.reach F url depth sm fs (sched ++ rest)
    have hdone := stuck_allDone hI2.pool hst
    refine ⟨rest, hdone, ?_, ?_, hroot (sched ++ rest) hdone⟩
    · intro e he
      rw [run_append]
      exact run_out_mono F rest _ he
    · intro b u r h he
      exact spawns_of_fetch_done hI2 hdone h he

/-- C8, at a concrete run: in the completed run of `Crawl("A", 2, cycleFetcher, ...)` under
`cycleSched`, the top-level goroutine has fetched `"A"` and executed `go Crawl("B", 1, ...)`
and `go Crawl("C", 1, ...)`, in this order, and both goroutines exist; and the run of
`Crawl("A", 3, deepFetcher, ...)` stopped after three steps, before the `Fetch` call, can be
continued to a completed run holding that call and the same two `go` statements at depth
2. -/
theorem Crawl_spawns_every_edge_witness :
    (allDone (Crawl cycleFetcher.toFetcher "A" 2 ⟨[]⟩ () cycleSched)
      ∧ (0 : Int) < 2 ∧ (SafeMap.Read ⟨[]⟩ "A").2 = false
      ∧ (cycleFetcher.toFetcher.Fetch () "A").2.err = none
      ∧ Event.fetch [] "A" ⟨"a", ["B", "C"], none⟩
          ∈ (Crawl cycleFetcher.toFetcher "A" 2 ⟨[]⟩ () cycleSched).out
      ∧ (Crawl cycleFetcher.toFetcher "A" 2 ⟨[]⟩ () cycleSched).out.filter
          (fun e => e.isSpawn && decide (e.branch = []))
        = [Event.spawn [] [0] "B" 1, Event.spawn [] [1] "C" 1]
      ∧ (∀ i, i < 2 →
          ∃ kf, getFr [i] (Crawl cycleFetcher.toFetcher "A" 2 ⟨[]⟩ () cycleSched).pool = some kf
            ∧ kf.url = ["B", "C"].getD i "" ∧ kf.depth = 1))
    ∧ ((0 : Int) < 3 ∧ (SafeMap.Read ⟨[]⟩ "A").2 = false
      ∧ (deepFetcher.toFetcher.Fetch () "A").2.err = none
      ∧ (Crawl deepFetcher.toFetcher "A" 3 ⟨[]⟩ () [[], [], [0]]).out
          = [Event.read [] "A" false]
      ∧ ∃ rest, allDone (Crawl deepFetcher.toFetcher "A" 3 ⟨[]⟩ () ([[], [], [0]] ++ rest))
        ∧ Event.fetch [] "A" ⟨"a", ["B", "C"], none⟩
            ∈ (Crawl deepFetcher.toFetcher "A" 3 ⟨[]⟩ () ([[], [], [0]] ++ rest)).out
        ∧ (Crawl deepFetcher.toFetcher "A" 3 ⟨[]⟩ () ([[], [], [0]] ++ rest)).out.filter
            (fun e => e.isSpawn && decide (e.branch = []))
          = [Event.spawn [] [0] "B" 2, Event.spawn [] [1] "C" 2]) :=
  ⟨⟨by decide, by decide, by decide, by decide,
      (Crawl_spawns_every_edge cycleFetcher.toFetcher "A" 2 ⟨[]⟩ () cycleSched).2.2.2.2
        (by decide) (by decide) (by decide) (by decide)⟩,
    by decide, by decide, by decide, by decide,
    (Crawl_spawns_every_edge deepFetcher.toFetcher "A" 3 ⟨[]⟩ () [[], [], [0]]).2.2.2.1.elim
      fun rest h => ⟨rest, h.1, (h.2.2.2 (by decide) (by decide) (by decide)).1,
        (h.2.2.2 (by decide) (by decide) (by decide)).2.1⟩⟩

/-- C6: for the graph `A -> [B, C]`, `B -> [A]`, `C -> []`, every run of `Crawl("A", 2, ...)`
on an empty map that has ended (all goroutines returned), whatever the schedule, leaves the
map with exactly the keys `A`, `B`, `C` (with their bodies), has inserted each of them exactly
once (three `Add` calls in all), has called `Fetch` exactly three times, once each for `A`,
`B` and `C`, and the goroutine started for the edge of `B` back to `A` has done nothing but
signal: it returned without fetching. -/
theorem Crawl_cycle_example (sched : List Path)
    (hall : allDone (Crawl cycleFetcher.toFetcher "A" 2 ⟨[]⟩ () sched)) :
    (∀ k, (Crawl cycleFetcher.toFetcher "A" 2 ⟨[]⟩ () sched).safeMap.Read k
        = if k ∈ ["A", "B", "C"] then ((cycleFetcher.Fetch k).body, true) else ("", false))
    ∧ (Crawl cycleFetcher.toFetcher "A" 2 ⟨[]⟩ () sched).out.countP Event.isAdd = 3
    ∧ (Crawl cycleFetcher.toFetcher "A" 2 ⟨[]⟩ () sched).out.countP (Event.isAddOf "A") = 1
    ∧ (Crawl cycleFetcher.toFetcher "A" 2 ⟨[]⟩ () sched).out.countP (Event.isAddOf "B") = 1
    ∧ (Crawl cycleFetcher.toFetcher "A" 2 ⟨[]⟩ () sched).out.countP (Event.isAddOf "C") = 1
    ∧ (Crawl cycleFetcher.toFetcher "A" 2 ⟨[]⟩ () sched).out.countP Event.isFetch = 3
    ∧ (Crawl cycleFetcher.toFetcher "A" 2 ⟨[]⟩ () sched).out.countP (Event.isFetchOf "A") = 1
    ∧ (Crawl cycleFetcher.toFetcher "A" 2 ⟨[]⟩ () sched).out.countP (Event.isFetchOf "B") = 1
    ∧ (Crawl cycleFetcher.toFetcher "A" 2 ⟨[]⟩ () sched).out.countP (Event.isFetchOf "C") = 1
    ∧ Event.spawn [0] [0, 0] "A" 0 ∈ (Crawl cycleFetcher.toFetcher "A" 2 ⟨[]⟩ () sched).out
    ∧ (Crawl cycleFetcher.toFetcher "A" 2 ⟨[]⟩ () sched).out.filter
        (fun e => e.branch = [0, 0]) = [Event.signal [0, 0]] := by
  unfold Crawl
  have hrf : RaceFree cycleFetcher "A" 2 2 := by decide
  obtain ⟨h1, h2, h3⟩ := raceFree_run hrf sched hall
  have hadds : treeAdds cycleFetcher "A" 2 2 = ["A", "B", "C"] := by decide
  refine ⟨?_, ?_, ?_, ?_, ?_, ?_, ?_, ?_, ?_, ?_, ?_⟩
  · intro k; rw [h3 k, hadds]
  · rw [h2]; decide
  · rw [h2]; decide
  · rw [h2]; decide
  · rw [h2]; decide
  · rw [h2]; decide
  · rw [h2]; decide
  · rw [h2]; decide
  · rw [h2]; decide
  · have hm : Event.spawn [0] [0, 0] "A" 0 ∈ treeHistory cycleFetcher "A" 2 [0] := by decide
    rw [← h1 [0]] at hm
    exact (List.mem_filter.1 hm).1
  · rw [h1]; decide

/-- C6 at a concrete complete schedule. -/
theorem Crawl_cycle_example_witness :
    allDone (Crawl cycleFetcher.toFetcher "A" 2 ⟨[]⟩ () cycleSched)
    ∧ (Crawl cycleFetcher.toFetcher "A" 2 ⟨[]⟩ () cycleSched).out.countP Event.isFetch = 3 :=
  ⟨by decide, (Crawl_cycle_example cycleSched (by decide)).2.2.2.2.2.1⟩

/-- C9: identifiers whose fetch fails are not deduplicated.  Every run of `main` (start
`http://golang.org/`, depth 4, the built-in `fetcher`, empty map) that has ended, whatever
the schedule, has called `Fetch` exactly 6 times: twice for `http://golang.org/cmd/`, by the
second child of the top-level call and by the second child of its first child, both calls
failing with `not found`, and once for each of the four existing pages; and the final map
holds exactly the four existing pages with their canned bodies. -/
theorem main_fetches_six_times (sched : List Path)
    (hall : allDone (main sched)) :
    (main sched).out.countP Event.isFetch = 6
    ∧ (main sched).out.countP
        (Event.isFetchOf "http://golang.org/cmd/") = 2
    ∧ (main sched).out.countP
        (Event.isFetchOf "http://golang.org/") = 1
    ∧ (main sched).out.countP
        (Event.isFetchOf "http://golang.org/pkg/") = 1
    ∧ (main sched).out.countP
        (Event.isFetchOf "http://golang.org/pkg/fmt/") = 1
    ∧ (main sched).out.countP
        (Event.isFetchOf "http://golang.org/pkg/os/") = 1
    ∧ (main sched).out.filter (fun e => e.branch = [1])
        = [Event.read [1] "http://golang.org/cmd/" false,
           Event.fetch [1] "http://golang.org/cmd/"
             ⟨"", [], some "not found: http://golang.org/cmd/"⟩,
           Event.println [1] "not found: http://golang.org/cmd/", Event.signal [1]]
    ∧ (main sched).out.filter (fun e => e.branch = [1, 0])
        = [Event.read [1, 0] "http://golang.org/cmd/" false,
           Event.fetch [1, 0] "http://golang.org/cmd/"
             ⟨"", [], some "not found: http://golang.org/cmd/"⟩,
           Event.println [1, 0] "not found: http://golang.org/cmd/", Event.signal [1, 0]]
    ∧ (∀ k, (main sched).safeMap.Read k
        = if k ∈ ["http://golang.org/", "http://golang.org/pkg/", "http://golang.org/pkg/fmt/",
                  "http://golang.org/pkg/os/"]
          then ((fetcher.Fetch k).body, true) else ("", false))
    ∧ (fetcher.Fetch "http://golang.org/").body = "The Go Programming Language"
    ∧ (fetcher.Fetch "http://golang.org/pkg/").body = "Packages"
    ∧ (fetcher.Fetch "http://golang.org/pkg/fmt/").body = "Package fmt"
    ∧ (fetcher.Fetch "http://golang.org/pkg/os/").body = "Package os" := by
  unfold main Crawl
  have hrf : RaceFree fetcher "http://golang.org/" 4 3 := by decide
  obtain ⟨h1, h2, h3⟩ := raceFree_run hrf sched hall
  have hadds : treeAdds fetcher "http://golang.org/" 4 3
      = ["http://golang.org/", "http://golang.org/pkg/", "http://golang.org/pkg/fmt/",
         "http://golang.org/pkg/os/"] := by decide
  refine ⟨?_, ?_, ?_, ?_, ?_, ?_, ?_, ?_, ?_, ?_, ?_, ?_, ?_⟩
  · rw [h2]; decide
  · rw [h2]; decide
  · rw [h2]; decide
  · rw [h2]; decide
  · rw [h2]; decide
  · rw [h2]; decide
  · rw [h1]; decide
  · rw [h1]; decide
  · intro k; rw [h3 k, hadds]
  · decide
  · decide
  · decide
  · decide

set_option maxRecDepth 100000 in
/-- C9 at a concrete complete schedule. -/
theorem main_fetches_six_times_witness :
    allDone (main mainSched)
    ∧ (main mainSched).out.countP Event.isFetch = 6 :=
  ⟨by decide, (main_fetches_six_times mainSched (by decide)).1⟩

/-! ## The claims at concrete runs -/

/-- C2 at the complete run of the example graph: the signal of the goroutine for `B` is the
17th action, and the signal of its child is among the 16 actions before it. -/
theorem Crawl_signals_after_children_witness :
    (Crawl cycleFetcher.toFetcher "A" 2 ⟨[]⟩ () cycleSched).out
        = List.take 16 (Crawl cycleFetcher.toFetcher "A" 2 ⟨[]⟩ () cycleSched).out
          ++ Event.signal [0]
            :: List.drop 17 (Crawl cycleFetcher.toFetcher "A" 2 ⟨[]⟩ () cycleSched).out
    ∧ Event.signal [0, 0]
        ∈ List.take 16 (Crawl cycleFetcher.toFetcher "A" 2 ⟨[]⟩ () cycleSched).out :=
  ⟨by decide,
    (Crawl_signals_after_children cycleFetcher.toFetcher "A" 2 ⟨[]⟩ () cycleSched).1
      (List.take 16 (Crawl cycleFetcher.toFetcher "A" 2 ⟨[]⟩ () cycleSched).out)
      (List.drop 17 (Crawl cycleFetcher.toFetcher "A" 2 ⟨[]⟩ () cycleSched).out) [0]
      (by decide) [0, 0] "A" 0 (by decide)⟩

/-- C3 at a concrete run: after its two steps a call with depth 0 has returned and its
trace is its completion signal. -/
theorem Crawl_depth_zero_witness :
    allDone (Crawl fetcher.toFetcher "http://golang.org/" 0 ⟨[]⟩ () [[], []])
    ∧ (Crawl fetcher.toFetcher "http://golang.org/" 0 ⟨[]⟩ () [[], []]).out
        = [Event.signal []] :=
  ⟨by decide,
    (Crawl_depth_zero fetcher.toFetcher "http://golang.org/" ⟨[]⟩ () [[], []]).2.2.2.2.1
      (by decide)⟩

/-- C4 at a concrete run: `Crawl("http://golang.org/cmd/", 3, fetcher, ...)` on an empty
map, whose fetch fails. -/
theorem Crawl_fetch_error_witness :
    (0 : Int) < 3 ∧ "http://golang.org/cmd/" ∉ (SafeMap.mk []).keys
    ∧ (fetcher.toFetcher.Fetch () "http://golang.org/cmd/").2.err.isSome = true
    ∧ allDone (Crawl fetcher.toFetcher "http://golang.org/cmd/" 3 ⟨[]⟩ () (List.replicate 5 []))
    ∧ (Crawl fetcher.toFetcher "http://golang.org/cmd/" 3 ⟨[]⟩ () (List.replicate 5 [])).out
        = [Event.read [] "http://golang.org/cmd/" false,
            Event.fetch [] "http://golang.org/cmd/"
              (fetcher.toFetcher.Fetch () "http://golang.org/cmd/").2,
            Event.println [] ((fetcher.toFetcher.Fetch () "http://golang.org/cmd/").2.err.getD ""),
            Event.signal []] :=
  ⟨by decide, by decide, by decide, by decide,
    ((Crawl_fetch_error fetcher.toFetcher "http://golang.org/cmd/" 3 ⟨[]⟩ ()
      (List.replicate 5 [])).1 (by decide) (by decide) (by decide)).2.2.2 (by decide)⟩

/-- C5, amended, at the run of the counterexample: the first insertion of `B` is the 10th
action; the second insertion of `B` comes later, by the goroutine `[1]`, whose `Read` of `B`
is among the 9 actions before the first insertion. -/
theorem Crawl_dedup_witness :
    (Crawl raceFetcher.toFetcher "A" 2 ⟨[]⟩ () raceSched).out
        = List.take 9 (Crawl raceFetcher.toFetcher "A" 2 ⟨[]⟩ () raceSched).out
          ++ Event.add [0] "B" "b"
            :: List.drop 10 (Crawl raceFetcher.toFetcher "A" 2 ⟨[]⟩ () raceSched).out
    ∧ Event.add [1] "B" "b"
        ∈ List.drop 10 (Crawl raceFetcher.toFetcher "A" 2 ⟨[]⟩ () raceSched).out
    ∧ Event.read [1] "B" false
        ∈ List.take 9 (Crawl raceFetcher.toFetcher "A" 2 ⟨[]⟩ () raceSched).out :=
  ⟨by decide, by decide,
    ((Crawl_dedup raceFetcher.toFetcher "A" 2 ⟨[]⟩ () raceSched).2.2.2.2
      (List.take 9 (Crawl raceFetcher.toFetcher "A" 2 ⟨[]⟩ () raceSched).out)
      (List.drop 10 (Crawl raceFetcher.toFetcher "A" 2 ⟨[]⟩ () raceSched).out) [0] "B" "b"
      (by decide)).2 [1] "b" (by decide)⟩

/-- C7 at the start of the run of the example graph: not all goroutines have returned, and
some goroutine can act. -/
theorem Crawl_terminates_witness :
    ¬ allDone (Crawl cycleFetcher.toFetcher "A" 2 ⟨[]⟩ () [])
    ∧ ∃ p c', step cycleFetcher.toFetcher p (Crawl cycleFetcher.toFetcher "A" 2 ⟨[]⟩ () [])
        = some c' :=
  ⟨by decide,
    (Crawl_terminates cycleFetcher.toFetcher "A" 2 ⟨[]⟩ () []).2.2.1 (by decide)⟩

end Crawler
